import Mathlib

/-!
Shallow embedding of the `interesting-algos` shortest-path subsystem:
the indexed binary-heap priority queue (`src/utils/priority_queue.py`),
the adjacency-list graph (`src/utils/graph.py`) and the two search
algorithms plus path reconstruction (`src/A_star.py`).

Conventions of the embedding:
* Python `list` indices become `List.getD`/`List.set` on Lean lists; all
  accesses the source performs are in range under the invariants proved below.
* Python numeric priorities (`int` together with `np.Inf`) become `ℕ∞`
  (`WithTop ℕ`); edge weights are `ℕ`, following the data model's
  non-negative weights.
* Mutable `Vertex` objects are identified by their key: the graph owns one
  vertex per key, dictionaries keyed by vertex objects become dictionaries
  keyed by the vertex's key, and the `predecessor` back-reference is stored
  as a key.  Python `dict`s (insertion ordered, update-in-place) become
  association lists with `dictSet` preserving the position of existing keys.
* Unbounded `while` loops become fuel-indexed recursions; the wrappers pass
  a fuel that is proved (or is easily seen) sufficient, and the safety
  invariants below are established for every fuel.
-/

/-- Insertion-ordered dictionary lookup (Python `d[k]` / `k in d`). -/
def dictGet {K V : Type} [DecidableEq K] (d : List (K × V)) (k : K) : Option V :=
  match d with
  | [] => none
  | (k', v) :: rest => if k' = k then some v else dictGet rest k

/-- Insertion-ordered dictionary update `d[k] = v`: an existing key keeps its
position, a new key is appended at the end, as in a Python `dict`. -/
def dictSet {K V : Type} [DecidableEq K] (d : List (K × V)) (k : K) (v : V) :
    List (K × V) :=
  match d with
  | [] => [(k, v)]
  | (k', v') :: rest => if k' = k then (k', v) :: rest else (k', v') :: dictSet rest k v

/-! ### Priority queue (`src/utils/priority_queue.py`) -/

/-- The state of `PriorityQueue`: the backing array `__internal_list`
(with the unused sentinel at index 0), `__size`, and the ordering flag
`__descending` fixed at construction. -/
structure PriorityQueue (α β : Type) where
  internal_list : List (α × β)
  size : ℕ
  descending : Bool
deriving DecidableEq

/-- Read of `internal_list[i]` (always in range in the source). -/
def entryAt {α β : Type} [Inhabited α] [Inhabited β] (l : List (α × β)) (i : ℕ) : α × β :=
  l.getD i default

/-- Priority stored at index `i`: `internal_list[i][0]`. -/
def keyAt {α β : Type} [Inhabited α] [Inhabited β] (l : List (α × β)) (i : ℕ) : α :=
  (entryAt l i).1

/-- The three-assignment swap `aux = l[j]; l[j] = l[i]; l[i] = aux` used by
both percolation procedures. -/
def swapAt {α β : Type} [Inhabited α] [Inhabited β] (l : List (α × β)) (i j : ℕ) :
    List (α × β) :=
  (l.set j (entryAt l i)).set i (entryAt l j)

/-- The constructor `PriorityQueue.__init__`: sentinel-only array, size 0. -/
def PriorityQueue.new (α β : Type) [Inhabited α] [Inhabited β] (descending : Bool) :
    PriorityQueue α β :=
  { internal_list := [(default, default)], size := 0, descending := descending }

/-- Method `empty`. -/
def PriorityQueue.empty {α β : Type} (q : PriorityQueue α β) : Bool :=
  q.size == 0

/-- Method `percolate_up`, on the backing list with the ordering flag made
explicit, as a structural recursion on a fuel argument (the position halves
at each call, so any fuel at least `pos` suffices; the wrapper below passes
`pos` itself and `percolate_up_eq` recovers the source's recursion
equation).  The source recurses on `pos // 2` until it reaches 0, swapping
the element with its parent whenever the configured order is violated. -/
def PriorityQueue.percolate_up_fuel {α β : Type} [LinearOrder α] [Inhabited α] [Inhabited β]
    (desc : Bool) : ℕ → List (α × β) → ℕ → List (α × β)
  | 0, l, _ => l
  | fuel + 1, l, pos =>
    if pos / 2 = 0 then l
    else
      let l' :=
        if desc then
          if keyAt l pos > keyAt l (pos / 2) then swapAt l pos (pos / 2) else l
        else
          if keyAt l pos < keyAt l (pos / 2) then swapAt l pos (pos / 2) else l
      PriorityQueue.percolate_up_fuel desc fuel l' (pos / 2)

/-- Method `percolate_up` (wrapper with sufficient fuel). -/
def PriorityQueue.percolate_up {α β : Type} [LinearOrder α] [Inhabited α] [Inhabited β]
    (desc : Bool) (l : List (α × β)) (pos : ℕ) : List (α × β) :=
  PriorityQueue.percolate_up_fuel desc pos l pos

/-- Method `insert`: append, grow, percolate the new last element up. -/
def PriorityQueue.insert {α β : Type} [LinearOrder α] [Inhabited α] [Inhabited β]
    (q : PriorityQueue α β) (item : α × β) : PriorityQueue α β :=
  { q with
    internal_list := PriorityQueue.percolate_up q.descending (q.internal_list ++ [item]) (q.size + 1),
    size := q.size + 1 }

/-- Method `min_max_child`: index of the extremal child of `pos` (the right
child on ties, as in the source's strict comparisons). -/
def PriorityQueue.min_max_child {α β : Type} [LinearOrder α] [Inhabited α] [Inhabited β]
    (desc : Bool) (size : ℕ) (l : List (α × β)) (pos : ℕ) : ℕ :=
  if pos * 2 + 1 > size then pos * 2
  else
    if desc then
      if keyAt l (pos * 2) > keyAt l (pos * 2 + 1) then pos * 2 else pos * 2 + 1
    else
      if keyAt l (pos * 2) < keyAt l (pos * 2 + 1) then pos * 2 else pos * 2 + 1

theorem min_max_child_ge {α β : Type} [LinearOrder α] [Inhabited α] [Inhabited β]
    (desc : Bool) (size : ℕ) (l : List (α × β)) (pos : ℕ) :
    pos * 2 ≤ PriorityQueue.min_max_child desc size l pos := by
  unfold PriorityQueue.min_max_child
  split
  · exact le_rfl
  · split <;> split <;> omega

theorem min_max_child_le {α β : Type} [LinearOrder α] [Inhabited α] [Inhabited β]
    (desc : Bool) (size : ℕ) (l : List (α × β)) (pos : ℕ) :
    PriorityQueue.min_max_child desc size l pos ≤ pos * 2 + 1 := by
  unfold PriorityQueue.min_max_child
  split
  · omega
  · split <;> split <;> omega

/-- Method `percolate_down`, on the backing list with flag and size
explicit, as a structural recursion on a fuel argument (the position at
least doubles at each call and recursion stops beyond `size`, so any fuel
at least `size + 1 - pos` suffices; the wrapper below passes `size + 1` and
`percolate_down_eq` recovers the source's recursion equation).  The source
is only ever called with `pos ≥ 1`; the `pos = 0` guard (under which the
list is returned unchanged) is unreachable from the operations below. -/
def PriorityQueue.percolate_down_fuel {α β : Type} [LinearOrder α] [Inhabited α] [Inhabited β]
    (desc : Bool) (size : ℕ) : ℕ → List (α × β) → ℕ → List (α × β)
  | 0, l, _ => l
  | fuel + 1, l, pos =>
    if 2 * pos > size ∨ pos = 0 then l
    else
      let c := PriorityQueue.min_max_child desc size l pos
      let l' :=
        if desc then
          if keyAt l pos < keyAt l c then swapAt l pos c else l
        else
          if keyAt l pos > keyAt l c then swapAt l pos c else l
      PriorityQueue.percolate_down_fuel desc size fuel l' c

/-- Method `percolate_down` (wrapper with sufficient fuel). -/
def PriorityQueue.percolate_down {α β : Type} [LinearOrder α] [Inhabited α] [Inhabited β]
    (desc : Bool) (size : ℕ) (l : List (α × β)) (pos : ℕ) : List (α × β) :=
  PriorityQueue.percolate_down_fuel desc size (size + 1) l pos

/-- Method `advance`: returns the deleted payload and the shrunken queue, or
`none` for the empty queue.  On `size = 0` the source raises `IndexError`
at its very first statement (`self.__internal_list[1]`, out of range on the
sentinel-only array) before mutating anything, which `none` models. -/
def PriorityQueue.advance {α β : Type} [LinearOrder α] [Inhabited α] [Inhabited β]
    (q : PriorityQueue α β) : Option (β × PriorityQueue α β) :=
  if q.size = 0 then none
  else
    let deleted := (entryAt q.internal_list 1).2
    let l1 := q.internal_list.set 1 (entryAt q.internal_list q.size)
    some (deleted,
      { q with
        internal_list := PriorityQueue.percolate_down q.descending (q.size - 1) l1.dropLast 1,
        size := q.size - 1 })

/-- The `while (i > 0)` loop of `build_heap`, percolating down from `i` to 1. -/
def PriorityQueue.heapify_loop {α β : Type} [LinearOrder α] [Inhabited α] [Inhabited β]
    (desc : Bool) (size : ℕ) (l : List (α × β)) : ℕ → List (α × β)
  | 0 => l
  | i + 1 =>
      PriorityQueue.heapify_loop desc size
        (PriorityQueue.percolate_down desc size l (i + 1)) i

/-- Method `build_heap`: fresh sentinel plus a copy of the input, heapified
from index `len // 2` down to the root. -/
def PriorityQueue.build_heap {α β : Type} [LinearOrder α] [Inhabited α] [Inhabited β]
    (q : PriorityQueue α β) (from_list : List (α × β)) : PriorityQueue α β :=
  { q with
    size := from_list.length,
    internal_list :=
      PriorityQueue.heapify_loop q.descending from_list.length
        ((default, default) :: from_list) (from_list.length / 2) }

/-- The scan loop of `find_position` (`i` from 1 while `i <= size`), as a
structural recursion on a fuel argument (any fuel at least `size + 1 - i`
suffices; the wrapper passes `size + 1`). -/
def PriorityQueue.find_pos_loop {α β : Type} [Inhabited α] [Inhabited β] [DecidableEq β]
    (l : List (α × β)) (size : ℕ) (to_find : β) : ℕ → ℕ → Option ℕ
  | 0, _ => none
  | fuel + 1, i =>
    if i ≤ size then
      if (entryAt l i).2 = to_find then some i
      else PriorityQueue.find_pos_loop l size to_find fuel (i + 1)
    else none

/-- Method `find_position`: linear scan of the live slots for the payload. -/
def PriorityQueue.find_position {α β : Type} [Inhabited α] [Inhabited β] [DecidableEq β]
    (q : PriorityQueue α β) (to_find : β) : Option ℕ :=
  PriorityQueue.find_pos_loop q.internal_list q.size to_find (q.size + 1) 1

/-- Method `decrease_key`: no-op when the payload is absent, otherwise
overwrite the priority in place and percolate in the direction implied by
the comparison of old and new priority under the configured ordering. -/
def PriorityQueue.decrease_key {α β : Type} [LinearOrder α] [Inhabited α] [Inhabited β]
    [DecidableEq β] (q : PriorityQueue α β) (value : β) (new_val : α) : PriorityQueue α β :=
  match q.find_position value with
  | none => q
  | some pos =>
    let old_key := keyAt q.internal_list pos
    let l := q.internal_list.set pos (new_val, (entryAt q.internal_list pos).2)
    if q.descending then
      if old_key < new_val then
        { q with internal_list := PriorityQueue.percolate_up q.descending l pos }
      else
        { q with internal_list := PriorityQueue.percolate_down q.descending q.size l pos }
    else
      if old_key < new_val then
        { q with internal_list := PriorityQueue.percolate_down q.descending q.size l pos }
      else
        { q with internal_list := PriorityQueue.percolate_up q.descending l pos }

/-! ### Graph (`src/utils/graph.py`) -/

/-- The state of a `Vertex`: its key `_id`, the outgoing-edge dictionary
`connected_to` (the source keys it by neighbor `Vertex` object; one object
exists per key, so it is keyed here by the neighbor's key), the search
fields `_dist` and `_predecessor` (a back-reference, stored as a key), and
the `_heuristic` estimate.  `_location` is carried nowhere in the
algorithms under verification (`heuristic_value` reads only `heuristic`)
and is omitted. -/
structure Vertex (K : Type) where
  key : K
  connected_to : List (K × ℕ)
  dist : ℕ∞
  predecessor : Option K
  heuristic : ℕ
deriving DecidableEq

/-- The constructor `Vertex.__init__`: no edges, `dist` 0, no predecessor,
heuristic 0. -/
def Vertex.new {K : Type} (key : K) : Vertex K :=
  { key := key, connected_to := [], dist := 0, predecessor := none, heuristic := 0 }

/-- Method `Vertex.add_neighbor`. -/
def Vertex.add_neighbor {K : Type} [DecidableEq K] (v : Vertex K) (neighbor : K)
    (weight : ℕ) : Vertex K :=
  { v with connected_to := dictSet v.connected_to neighbor weight }

/-- Method `Vertex.get_connections`: the neighbor keys in insertion order. -/
def Vertex.get_connections {K : Type} (v : Vertex K) : List K :=
  v.connected_to.map (fun p => p.1)

/-- Method `Vertex.get_weight`.  The source indexes the dictionary directly
(`KeyError` on an absent neighbor); every call site passes a key obtained
from `get_connections`, so the default 0 of the embedding is never read. -/
def Vertex.get_weight {K : Type} [DecidableEq K] (v : Vertex K) (neighbor : K) : ℕ :=
  (dictGet v.connected_to neighbor).getD 0

/-- The state of a `Graph`: the vertex dictionary and the counter. -/
structure Graph (K : Type) where
  vertex_list : List (K × Vertex K)
  total_vert : ℕ
deriving DecidableEq

/-- The constructor `Graph.__init__`. -/
def Graph.new (K : Type) : Graph K :=
  { vertex_list := [], total_vert := 0 }

/-- Method `Graph.add_vertex` (the created vertex is `Vertex.new key`). -/
def Graph.add_vertex {K : Type} [DecidableEq K] (g : Graph K) (key : K) : Graph K :=
  { vertex_list := dictSet g.vertex_list key (Vertex.new key),
    total_vert := g.total_vert + 1 }

/-- Method `Graph.get_vertex`: `none` for an absent key. -/
def Graph.get_vertex {K : Type} [DecidableEq K] (g : Graph K) (key : K) : Option (Vertex K) :=
  dictGet g.vertex_list key

/-- Method `Graph.add_edge`: create missing endpoints, then record the
directed edge on the `ffrom` vertex. -/
def Graph.add_edge {K : Type} [DecidableEq K] (g : Graph K) (ffrom tok : K) (weight : ℕ) :
    Graph K :=
  let g1 := if dictGet g.vertex_list ffrom = none then g.add_vertex ffrom else g
  let g2 := if dictGet g1.vertex_list tok = none then g1.add_vertex tok else g1
  match dictGet g2.vertex_list ffrom with
  | some v =>
      { g2 with vertex_list := dictSet g2.vertex_list ffrom (v.add_neighbor tok weight) }
  | none => g2

/-- Iteration over the graph (`Graph.__iter__`): the vertices in insertion
order. -/
def Graph.verts {K : Type} (g : Graph K) : List (Vertex K) :=
  g.vertex_list.map (fun p => p.2)

/-- The field write `v.dist = d` for the vertex stored at key `k`. -/
def Graph.setDist {K : Type} [DecidableEq K] (g : Graph K) (k : K) (d : ℕ∞) : Graph K :=
  match dictGet g.vertex_list k with
  | some v => { g with vertex_list := dictSet g.vertex_list k { v with dist := d } }
  | none => g

/-- Read of `v.dist` through a key; `⊤` for an absent key (never hit by the
call sites under their preconditions). -/
def Graph.vdist {K : Type} [DecidableEq K] (g : Graph K) (k : K) : ℕ∞ :=
  match g.get_vertex k with
  | some v => v.dist
  | none => ⊤

/-- Read of `v.predecessor` through a key. -/
def Graph.vpred {K : Type} [DecidableEq K] (g : Graph K) (k : K) : Option K :=
  match g.get_vertex k with
  | some v => v.predecessor
  | none => none

/-- The reset prologue `for v in graph: v.dist = np.Inf` shared by both
search algorithms.  Note that the source resets only `dist`; the
`predecessor` fields keep whatever a previous run left in them. -/
def Graph.resetDists {K : Type} (g : Graph K) : Graph K :=
  { g with vertex_list := g.vertex_list.map (fun p => (p.1, { p.2 with dist := (⊤ : ℕ∞) })) }

/-! ### Search algorithms (`src/A_star.py`) -/

/-- Function `heuristic_value`: returns `a.heuristic`, ignoring `end`. -/
def heuristic_value {K : Type} [DecidableEq K] (g : Graph K) (a endK : K) : ℕ :=
  match g.get_vertex a with
  | some v => v.heuristic
  | none => 0

/-- The body of Dijkstra's relaxation: for the neighbor key `nk` of the
just-popped vertex `currentK`, compute `new_dist`, and on strict improvement
update distance and predecessor and call `decrease_key`. -/
def relaxNeighbor {K : Type} [DecidableEq K] [Inhabited K] (currentK : K)
    (s : Graph K × PriorityQueue ℕ∞ K) (nk : K) : Graph K × PriorityQueue ℕ∞ K :=
  match s.1.get_vertex currentK, s.1.get_vertex nk with
  | some cur, some next =>
    let new_dist := cur.dist + (cur.get_weight nk : ℕ)
    if new_dist < next.dist then
      ({ s.1 with
          vertex_list := dictSet s.1.vertex_list nk
            { next with dist := new_dist, predecessor := some currentK } },
        s.2.decrease_key nk new_dist)
    else s
  | _, _ => s

/-- The `while not pq.empty()` loop of `dijkstras_algorithm`, with a fuel
bound and an instrumentation list recording the popped (settled) vertices in
order.  One unit of fuel is spent per pop, so any fuel at least the initial
queue size is exact. -/
def dijkstraLoop {K : Type} [DecidableEq K] [Inhabited K] (endK : K) :
    ℕ → Graph K → PriorityQueue ℕ∞ K → List K → Graph K × List K
  | 0, g, _, popped => (g, popped)
  | fuel + 1, g, pq, popped =>
    if pq.empty then (g, popped)
    else
      match pq.advance with
      | none => (g, popped)
      | some (current, pq1) =>
        if current = endK then (g, popped ++ [current])
        else
          let conns := match g.get_vertex current with
            | some v => v.get_connections
            | none => []
          let gp := conns.foldl (relaxNeighbor current) (g, pq1)
          dijkstraLoop endK fuel gp.1 gp.2 (popped ++ [current])

/-- Function `dijkstras_algorithm`, taking the start and end vertices by key
and returning the mutated graph together with the list of popped vertices.
Distances are reset to `⊤`, the start distance is set to 0, the ascending
queue is bulk-loaded with every vertex keyed by its current distance, and
the loop runs to completion (the fuel exceeds the queue size, which strictly
decreases with each iteration). -/
def dijkstras_algorithm {K : Type} [DecidableEq K] [Inhabited K] (graph : Graph K)
    (start endK : K) : Graph K × List K :=
  let g2 := (graph.resetDists).setDist start 0
  let pq := (PriorityQueue.new ℕ∞ K false).build_heap
    (g2.verts.map (fun v => (v.dist, v.key)))
  dijkstraLoop endK (pq.size + 1) g2 pq []

/-- The mutable state of one `a_star_algorithm` run: the graph, the lazy
queue, the `visited` dictionary (as its key list in insertion order), and an
instrumentation log of every payload ever passed to `pq.insert`. -/
structure AStarState (K : Type) where
  g : Graph K
  pq : PriorityQueue ℕ∞ K
  visited : List K
  inserted : List K
deriving DecidableEq

/-- The body of the A* relaxation: compute `g` and `f = g + h`, and on
strict improvement of `dist` route the queue update through `decrease_key`
for already-visited vertices and through `insert` (recording the vertex as
visited) otherwise. -/
def aStarRelax {K : Type} [DecidableEq K] [Inhabited K] (endK currentK : K) (s : AStarState K)
    (nk : K) : AStarState K :=
  match s.g.get_vertex currentK, s.g.get_vertex nk with
  | some cur, some next =>
    let new_dist := cur.dist + (cur.get_weight nk : ℕ)
    let f := new_dist + (heuristic_value s.g nk endK : ℕ)
    if new_dist < next.dist then
      let g' := { s.g with
        vertex_list := dictSet s.g.vertex_list nk
          { next with dist := new_dist, predecessor := some currentK } }
      if nk ∈ s.visited then
        { s with g := g', pq := s.pq.decrease_key nk f }
      else
        { s with g := g', pq := s.pq.insert (f, nk),
                 visited := s.visited ++ [nk], inserted := s.inserted ++ [nk] }
    else s
  | _, _ => s

/-- The `while not pq.empty()` loop of `a_star_algorithm`, with fuel and the
popped-vertex instrumentation list. -/
def aStarLoop {K : Type} [DecidableEq K] [Inhabited K] (endK : K) :
    ℕ → AStarState K → List K → AStarState K × List K
  | 0, s, popped => (s, popped)
  | fuel + 1, s, popped =>
    if s.pq.empty then (s, popped)
    else
      match s.pq.advance with
      | none => (s, popped)
      | some (current, pq1) =>
        let s1 := { s with pq := pq1 }
        if current = endK then (s1, popped ++ [current])
        else
          let conns := match s1.g.get_vertex current with
            | some v => v.get_connections
            | none => []
          aStarLoop endK fuel (conns.foldl (aStarRelax endK current) s1)
            (popped ++ [current])

/-- Function `a_star_algorithm`: distances reset, start seeded at 0,
`visited = {start}`, the start inserted at priority `start.dist`, then the
lazy loop.  Each iteration consumes one queue entry and at most one entry is
ever inserted per graph vertex (plus the seed), so the fuel
`|vertex_list| + 2` is sufficient. -/
def a_star_algorithm {K : Type} [DecidableEq K] [Inhabited K] (graph : Graph K)
    (start endK : K) : AStarState K × List K :=
  let g2 := (graph.resetDists).setDist start 0
  let s0 : AStarState K :=
    { g := g2,
      pq := (PriorityQueue.new ℕ∞ K false).insert (g2.vdist start, start),
      visited := [start], inserted := [start] }
  aStarLoop endK (graph.vertex_list.length + 2) s0 []

/-- The predecessor-walking loop of `get_path`, accumulating keys; the
source's unbounded `while it.predecessor` loop is given fuel.  Under the
post-run invariants proved below the chain reaches a predecessor-free vertex
in at most `|vertex_list|` steps, so the wrapper's fuel is exact there. -/
def getPathLoop {K : Type} [DecidableEq K] (g : Graph K) :
    ℕ → K → List K → List K
  | 0, _, path => path
  | fuel + 1, cur, path =>
    match g.get_vertex cur with
    | none => path
    | some v =>
      match v.predecessor with
      | none => path
      | some p => getPathLoop g fuel p (path ++ [p])

/-- Function `get_path`: follow predecessors from `to`, then reverse. -/
def get_path {K : Type} [DecidableEq K] (graph : Graph K) (tok : K) : List K :=
  (getPathLoop graph (graph.vertex_list.length + 1) tok [tok]).reverse

/-- Function `build_graph_from_list`: fold `add_edge` over the triples. -/
def build_graph_from_list {K : Type} [DecidableEq K] (data : List (K × K × ℕ)) : Graph K :=
  data.foldl (fun g t => g.add_edge t.1 t.2.1 t.2.2) (Graph.new K)

/-! ### Specification-side definitions -/

/-- Weight of the directed edge `u → v` recorded in the graph, if any. -/
def edgeWeight {K : Type} [DecidableEq K] (g : Graph K) (u v : K) : Option ℕ :=
  match g.get_vertex u with
  | some vu => dictGet vu.connected_to v
  | none => none

/-- Cost of some directed path from `u` to `x` along recorded edges (the
empty path has cost 0). -/
inductive IsPathCost {K : Type} [DecidableEq K] (g : Graph K) : K → K → ℕ → Prop
  | refl (u : K) : IsPathCost g u u 0
  | cons (u v x : K) (w c : ℕ) :
      edgeWeight g u v = some w → IsPathCost g v x c → IsPathCost g u x (w + c)

/-- All path costs from `s` to `k`. -/
def pathCosts {K : Type} [DecidableEq K] (g : Graph K) (s k : K) : Set ℕ :=
  { n | IsPathCost g s k n }

open Classical in
/-- The true shortest-path cost from `s` to `k`: the minimum over all paths,
`⊤` when `k` is unreachable from `s`. -/
noncomputable def delta {K : Type} [DecidableEq K] (g : Graph K) (s k : K) : ℕ∞ :=
  if (pathCosts g s k).Nonempty then ((sInf (pathCosts g s k) : ℕ) : ℕ∞) else ⊤

/-- The most recent weight given for the ordered pair `(f, t)` in a list of
`add_edge` triples, if any. -/
def lastWeight {K : Type} [DecidableEq K] (data : List (K × K × ℕ)) (f t : K) : Option ℕ :=
  data.foldl (fun acc tr => if tr.1 = f ∧ tr.2.1 = t then some tr.2.2 else acc) none

/-- Ordering demanded between a heap parent `a` and child `b` under the
configured mode: `a ≤ b` for ascending (min-first), `b ≤ a` for descending. -/
def ordOK {α : Type} [LinearOrder α] (desc : Bool) (a b : α) : Prop :=
  if desc then b ≤ a else a ≤ b

/-- The heap ordering property of the backing array: every live non-root
slot is dominated by its parent. -/
def HeapProp {α β : Type} [LinearOrder α] [Inhabited α] [Inhabited β]
    (desc : Bool) (size : ℕ) (l : List (α × β)) : Prop :=
  ∀ i, 2 ≤ i → i ≤ size → ordOK desc (keyAt l (i / 2)) (keyAt l i)

/-- The live entries of the queue, slots 1 through `size` (equal to the tail
of the backing array whenever its length is `size + 1`). -/
def liveList {α β : Type} (q : PriorityQueue α β) : List (α × β) :=
  q.internal_list.tail

/-- The structural invariant of a queue state: the backing array holds
exactly the sentinel plus the `size` live slots, and the heap ordering
property holds. -/
def QueueInv {α β : Type} [LinearOrder α] [Inhabited α] [Inhabited β]
    (q : PriorityQueue α β) : Prop :=
  q.internal_list.length = q.size + 1 ∧ HeapProp q.descending q.size q.internal_list

/-- One public operation of the claimed operation alphabet: `insert`,
`advance` (extract-top) or `decrease_key`. -/
inductive HeapOp (α β : Type) where
  | ins (item : α × β)
  | adv
  | dec (value : β) (new_val : α)

/-- Application of one operation to a queue state.  A failed `advance` on an
empty queue leaves the state unchanged (the source raises before mutating). -/
def HeapOp.apply {α β : Type} [LinearOrder α] [Inhabited α] [Inhabited β] [DecidableEq β]
    (q : PriorityQueue α β) : HeapOp α β → PriorityQueue α β
  | .ins item => q.insert item
  | .adv =>
      match q.advance with
      | none => q
      | some (_, q') => q'
  | .dec value new_val => q.decrease_key value new_val

/-- Execution of a sequence of operations from a given state. -/
def execOps {α β : Type} [LinearOrder α] [Inhabited α] [Inhabited β] [DecidableEq β]
    (q : PriorityQueue α β) (ops : List (HeapOp α β)) : PriorityQueue α β :=
  ops.foldl HeapOp.apply q

/-- Repeatedly advancing the queue, recording each extracted root entry
(priority and payload) in order; stops on the empty queue. -/
def drainPairs {α β : Type} [LinearOrder α] [Inhabited α] [Inhabited β] :
    ℕ → PriorityQueue α β → List (α × β)
  | 0, _ => []
  | fuel + 1, q =>
    match q.advance with
    | none => []
    | some (_, q') => entryAt q.internal_list 1 :: drainPairs fuel q'

/-- Membership of index `i` in the binary-heap subtree rooted at `root`
(1-based level order): some iterated parent of `i` is `root`. -/
def inSubtree (root i : ℕ) : Prop :=
  ∃ k, i / 2 ^ k = root

instance {α : Type} [LinearOrder α] (desc : Bool) (a b : α) : Decidable (ordOK desc a b) := by
  unfold ordOK
  split
  · exact inferInstance
  · exact inferInstance

/-! ### Dictionary lemmas -/

theorem dictGet_set_self {K V : Type} [DecidableEq K] (d : List (K × V)) (k : K) (v : V) :
    dictGet (dictSet d k v) k = some v := by
  induction d with
  | nil => simp [dictSet, dictGet]
  | cons p rest ih =>
    obtain ⟨k', v'⟩ := p
    by_cases h : k' = k <;> simp [dictSet, dictGet, h, ih]

theorem dictGet_set_ne {K V : Type} [DecidableEq K] (d : List (K × V)) (k k2 : K) (v : V)
    (h : k2 ≠ k) : dictGet (dictSet d k v) k2 = dictGet d k2 := by
  induction d with
  | nil =>
    simp only [dictSet, dictGet]
    rw [if_neg (fun hk => h hk.symm)]
  | cons p rest ih =>
    obtain ⟨k', v'⟩ := p
    by_cases hk : k' = k
    · subst hk
      simp only [dictSet, if_pos rfl, dictGet]
      rw [if_neg (fun hk => h hk.symm), if_neg (fun hk => h hk.symm)]
    · simp only [dictSet, if_neg hk, dictGet]
      by_cases h2 : k' = k2
      · simp [h2]
      · simp [h2, ih]

theorem mem_dictSet {K V : Type} [DecidableEq K] (k : K) (v : V) :
    ∀ (d : List (K × V)) (p : K × V), p ∈ dictSet d k v → p = (k, v) ∨ p ∈ d := by
  intro d
  induction d with
  | nil =>
    intro p hp
    simp [dictSet] at hp
    exact Or.inl hp
  | cons q rest ih =>
    intro p hp
    obtain ⟨k', v'⟩ := q
    by_cases h : k' = k
    · subst h
      rcases List.mem_cons.mp (by simpa [dictSet] using hp) with h1 | h1
      · exact Or.inl h1
      · exact Or.inr (List.mem_cons_of_mem _ h1)
    · rcases List.mem_cons.mp (by simpa [dictSet, h] using hp) with h1 | h1
      · exact Or.inr (by simp [h1])
      · rcases ih p h1 with h2 | h2
        · exact Or.inl h2
        · exact Or.inr (List.mem_cons_of_mem _ h2)

theorem dictGet_set_ne_none {K V : Type} [DecidableEq K] (d : List (K × V)) (k x : K) (v : V)
    (h : dictGet d x ≠ none) : dictGet (dictSet d k v) x ≠ none := by
  by_cases hx : x = k
  · subst hx
    simp [dictGet_set_self]
  · rw [dictGet_set_ne d k x v hx]
    exact h

/-! ### Claim C9: advance on the empty queue -/

/-- C9: on every queue state with `size = 0` (whose backing array is then
the sentinel alone), `advance` fails — it returns no payload — and, the
failure happening before any mutation in the source, the state observed
afterwards is the unchanged queue. -/
theorem advance_empty_fails {α β : Type} [LinearOrder α] [Inhabited α] [Inhabited β]
    [DecidableEq β] (q : PriorityQueue α β)
    (hlen : q.internal_list.length = q.size + 1) (h : q.size = 0) :
    q.advance = none ∧ HeapOp.apply q HeapOp.adv = q := by
  have ha : q.advance = none := by
    simp [PriorityQueue.advance, h]
  exact ⟨ha, by simp [HeapOp.apply, ha]⟩

theorem advance_empty_fails_witness :
    (PriorityQueue.new ℕ ℕ false).internal_list.length = (PriorityQueue.new ℕ ℕ false).size + 1 ∧
    (PriorityQueue.new ℕ ℕ false).size = 0 ∧
    ((PriorityQueue.new ℕ ℕ false).advance = none ∧
      HeapOp.apply (PriorityQueue.new ℕ ℕ false) HeapOp.adv = PriorityQueue.new ℕ ℕ false) :=
  ⟨rfl, rfl, advance_empty_fails (PriorityQueue.new ℕ ℕ false) rfl rfl⟩

/-! ### Claim C8: decrease_key on an absent payload -/

theorem find_pos_loop_eq_none {α β : Type} [Inhabited α] [Inhabited β] [DecidableEq β]
    (l : List (α × β)) (size : ℕ) (to_find : β) (fuel i : ℕ)
    (h : ∀ j, i ≤ j → j ≤ size → (entryAt l j).2 ≠ to_find) :
    PriorityQueue.find_pos_loop l size to_find fuel i = none := by
  induction fuel generalizing i with
  | zero => rfl
  | succ fuel ih =>
    rw [PriorityQueue.find_pos_loop]
    by_cases hle : i ≤ size
    · rw [if_pos hle, if_neg (h i le_rfl hle)]
      exact ih (i + 1) (fun j hj1 hj2 => h j (by omega) hj2)
    · rw [if_neg hle]

/-- C8: if the payload is absent from the live slots 1 through `size`, then
`decrease_key` returns the queue completely unchanged — same backing array,
same size, same ordering mode — so in particular any heap ordering that held
before still holds. -/
theorem decrease_key_absent {α β : Type} [LinearOrder α] [Inhabited α] [Inhabited β]
    [DecidableEq β] (q : PriorityQueue α β) (value : β) (new_val : α)
    (h : ∀ j, 1 ≤ j → j ≤ q.size → (entryAt q.internal_list j).2 ≠ value) :
    q.decrease_key value new_val = q := by
  unfold PriorityQueue.decrease_key
  rw [PriorityQueue.find_position, find_pos_loop_eq_none _ _ _ _ _ h]

theorem decrease_key_absent_witness :
    (∀ j, 1 ≤ j → j ≤ ((PriorityQueue.new ℕ ℕ false).insert (3, 1)).size →
      (entryAt ((PriorityQueue.new ℕ ℕ false).insert (3, 1)).internal_list j).2 ≠ 2) ∧
    ((PriorityQueue.new ℕ ℕ false).insert (3, 1)).decrease_key 2 99 =
      (PriorityQueue.new ℕ ℕ false).insert (3, 1) :=
  ⟨by decide, decrease_key_absent _ 2 99 (by decide)⟩

/-! ### Claim C4: the searches do not reset predecessors -/

/-- C4 is a code bug: the reset prologue of both searches sets only `dist`
and never touches `predecessor`.  Concretely, on the two-vertex cycle
`0 ↔ 1` (weight 1 each way), running `dijkstras_algorithm` from 1 to 0 and
then a second run from 0 to 1 leaves the second run's start vertex 0 with
the stale predecessor 1 from the first run, where the claimed reset would
leave it `none`; following predecessors from vertex 1 then cycles
`1 → 0 → 1 → ⋯` forever, so the source's `get_path` no longer terminates. -/
theorem dijkstra_no_predecessor_reset :
    ((dijkstras_algorithm
        ((dijkstras_algorithm (build_graph_from_list [(0, 1, 1), (1, 0, 1)]) 1 0).1)
        0 1).1.vpred 0 = some 1) ∧
    ((dijkstras_algorithm
        ((dijkstras_algorithm (build_graph_from_list [(0, 1, 1), (1, 0, 1)]) 1 0).1)
        0 1).1.vpred 0 ≠ none) := by
  exact ⟨by decide, by decide⟩

/-! ### Shortest-path cost lemmas -/

theorem delta_le_pathCost {K : Type} [DecidableEq K] (g : Graph K) (s k : K) (n : ℕ)
    (h : IsPathCost g s k n) : delta g s k ≤ (n : ℕ∞) := by
  unfold delta
  rw [if_pos ⟨n, h⟩]
  exact_mod_cast Nat.sInf_le h

/-! ### Claim C1, counterexample to the claim as stated -/

/-- C1 as stated is false: in the graph with edges `0→1` (weight 10),
`0→2` (weight 1), `2→1` (weight 1), running Dijkstra from 0 with end
vertex 2 pops the end before vertex 1 is ever improved through 2, so the
returned distance of the reachable vertex 1 stays 10 while the true
shortest-path cost is 2 (via `0→2→1`). -/
theorem dijkstra_early_exit_cex :
    delta (build_graph_from_list [(0, 1, 10), (0, 2, 1), (2, 1, 1)]) 0 1 < ⊤ ∧
    (dijkstras_algorithm (build_graph_from_list [(0, 1, 10), (0, 2, 1), (2, 1, 1)]) 0 2).1.vdist 1
      = 10 ∧
    (dijkstras_algorithm (build_graph_from_list [(0, 1, 10), (0, 2, 1), (2, 1, 1)]) 0 2).1.vdist 1
      ≠ delta (build_graph_from_list [(0, 1, 10), (0, 2, 1), (2, 1, 1)]) 0 1 := by
  have hpath : IsPathCost (build_graph_from_list [(0, 1, 10), (0, 2, 1), (2, 1, 1)]) 0 1 2 := by
    have h2 : IsPathCost (build_graph_from_list [(0, 1, 10), (0, 2, 1), (2, 1, 1)]) 2 1 (1 + 0) :=
      IsPathCost.cons 2 1 1 1 0 (by decide) (IsPathCost.refl 1)
    exact IsPathCost.cons 0 2 1 1 1 (by decide) h2
  have hle : delta (build_graph_from_list [(0, 1, 10), (0, 2, 1), (2, 1, 1)]) 0 1 ≤ 2 :=
    delta_le_pathCost _ _ _ 2 hpath
  refine ⟨lt_of_le_of_lt hle (by decide), by decide, ?_⟩
  intro hEq
  rw [(by decide :
    (dijkstras_algorithm (build_graph_from_list [(0, 1, 10), (0, 2, 1), (2, 1, 1)]) 0 2).1.vdist 1
      = (10 : ℕ∞))] at hEq
  rw [← hEq] at hle
  exact absurd hle (by decide)

/-! ### Claim C6, counterexample to the claim as stated -/

/-- C6 as stated is false: in the graph with zero-weight edges `0→1`,
`0→2`, `0→3`, `2→4` (every heuristic 0, as never loaded), searching from 0
to 3 makes Dijkstra pop vertex 2 (relaxing `2→4`, so vertex 4 ends at
distance 0) before the end vertex 3, while A* pops the end vertex 3 first
and terminates with vertex 4 still at `⊤` — the final per-vertex distances
differ at vertex 4. -/
theorem a_star_dijkstra_differ_cex :
    List.map Vertex.heuristic
        (build_graph_from_list [(0, 1, 0), (0, 2, 0), (0, 3, 0), (2, 4, 0)]).verts
      = [0, 0, 0, 0, 0] ∧
    (dijkstras_algorithm (build_graph_from_list [(0, 1, 0), (0, 2, 0), (0, 3, 0), (2, 4, 0)])
        0 3).1.vdist 4 = 0 ∧
    (a_star_algorithm (build_graph_from_list [(0, 1, 0), (0, 2, 0), (0, 3, 0), (2, 4, 0)])
        0 3).1.g.vdist 4 = ⊤ ∧
    (dijkstras_algorithm (build_graph_from_list [(0, 1, 0), (0, 2, 0), (0, 3, 0), (2, 4, 0)])
        0 3).1.vdist 4 ≠
      (a_star_algorithm (build_graph_from_list [(0, 1, 0), (0, 2, 0), (0, 3, 0), (2, 4, 0)])
        0 3).1.g.vdist 4 := by
  exact ⟨by decide, by decide, by decide, by decide⟩

/-! ### Claim C10: at most one queue insertion per vertex in an A* run -/

theorem aStarRelax_log {K : Type} [DecidableEq K] [Inhabited K] (endK currentK : K)
    (s : AStarState K) (nk : K)
    (h : s.inserted = s.visited ∧ s.visited.Nodup) :
    (aStarRelax endK currentK s nk).inserted = (aStarRelax endK currentK s nk).visited ∧
      (aStarRelax endK currentK s nk).visited.Nodup := by
  unfold aStarRelax
  rcases h with ⟨hlog, hnd⟩
  cases hcur : s.g.get_vertex currentK with
  | none => exact ⟨hlog, hnd⟩
  | some cur =>
    cases hnext : s.g.get_vertex nk with
    | none => exact ⟨hlog, hnd⟩
    | some next =>
      simp only
      split
      · by_cases hmem : nk ∈ s.visited
        · simp only [if_pos hmem]
          exact ⟨hlog, hnd⟩
        · simp only [if_neg hmem]
          exact ⟨by simp [hlog], by simp [List.nodup_append, hnd, hmem]⟩
      · exact ⟨hlog, hnd⟩

theorem foldl_aStarRelax_log {K : Type} [DecidableEq K] [Inhabited K] (endK currentK : K)
    (conns : List K) (s : AStarState K)
    (h : s.inserted = s.visited ∧ s.visited.Nodup) :
    (conns.foldl (aStarRelax endK currentK) s).inserted
        = (conns.foldl (aStarRelax endK currentK) s).visited ∧
      (conns.foldl (aStarRelax endK currentK) s).visited.Nodup := by
  induction conns generalizing s with
  | nil => exact h
  | cons nk rest ih =>
    exact ih _ (aStarRelax_log endK currentK s nk h)

theorem aStarLoop_log {K : Type} [DecidableEq K] [Inhabited K] (endK : K) (fuel : ℕ)
    (s : AStarState K) (popped : List K)
    (h : s.inserted = s.visited ∧ s.visited.Nodup) :
    (aStarLoop endK fuel s popped).1.inserted = (aStarLoop endK fuel s popped).1.visited ∧
      (aStarLoop endK fuel s popped).1.visited.Nodup := by
  induction fuel generalizing s popped with
  | zero => exact h
  | succ fuel ih =>
    rw [aStarLoop]
    split
    · exact h
    · cases hadv : s.pq.advance with
      | none => exact h
      | some p =>
        obtain ⟨current, pq1⟩ := p
        simp only
        split
        · exact h
        · exact ih _ _ (foldl_aStarRelax_log _ _ _ _ h)

/-- C10: in every run of `a_star_algorithm`, the log of payloads passed to
`pq.insert` (the seeding insert of the start vertex included) has no
duplicates — each vertex is inserted into the queue at most once, every
insertion is recorded in the `visited` set (the log and the visited set
coincide throughout), and consequently a vertex that was already extracted
(hence previously inserted and visited) is never inserted again; its later
relaxations go through `decrease_key` only. -/
theorem a_star_insert_once {K : Type} [DecidableEq K] [Inhabited K] (graph : Graph K)
    (start endK : K) :
    ((a_star_algorithm graph start endK).1).inserted.Nodup ∧
      ((a_star_algorithm graph start endK).1).inserted
        = ((a_star_algorithm graph start endK).1).visited := by
  have h := aStarLoop_log endK (graph.vertex_list.length + 2)
    { g := ((graph.resetDists).setDist start 0),
      pq := (PriorityQueue.new ℕ∞ K false).insert
        (((graph.resetDists).setDist start 0).vdist start, start),
      visited := [start], inserted := [start] } []
    ⟨rfl, List.nodup_singleton start⟩
  exact ⟨h.1 ▸ h.2, h.1⟩

/-! ### Claim C5: add_edge records the latest weight and keeps neighbors present -/

theorem get_vertex_add_vertex_self {K : Type} [DecidableEq K] (g : Graph K) (k : K) :
    (g.add_vertex k).get_vertex k = some (Vertex.new k) :=
  dictGet_set_self g.vertex_list k (Vertex.new k)

theorem get_vertex_add_vertex_ne {K : Type} [DecidableEq K] (g : Graph K) (k k2 : K)
    (h : k2 ≠ k) : (g.add_vertex k).get_vertex k2 = g.get_vertex k2 :=
  dictGet_set_ne g.vertex_list k k2 (Vertex.new k) h

theorem ensure_vertex_get {K : Type} [DecidableEq K] (g : Graph K) (k x : K) :
    dictGet (if dictGet g.vertex_list k = none then g.add_vertex k else g).vertex_list x
      = dictGet g.vertex_list x ∨
    (dictGet g.vertex_list x = none ∧ x = k ∧
      dictGet (if dictGet g.vertex_list k = none then g.add_vertex k else g).vertex_list x
        = some (Vertex.new k)) := by
  by_cases hk : dictGet g.vertex_list k = none
  · rw [if_pos hk]
    by_cases hx : x = k
    · subst hx
      exact Or.inr ⟨hk, rfl, get_vertex_add_vertex_self g x⟩
    · exact Or.inl (get_vertex_add_vertex_ne g k x hx)
  · rw [if_neg hk]
    exact Or.inl rfl

theorem add_edge_decompose {K : Type} [DecidableEq K] (g : Graph K) (a b : K) (w : ℕ) :
    ∃ (g2 : Graph K) (va : Vertex K),
      dictGet g2.vertex_list a = some va ∧
      (g.add_edge a b w).vertex_list = dictSet g2.vertex_list a (va.add_neighbor b w) ∧
      dictGet g2.vertex_list b ≠ none ∧
      (∀ x, dictGet g2.vertex_list x = dictGet g.vertex_list x ∨
        (dictGet g.vertex_list x = none ∧ (x = a ∨ x = b) ∧
          dictGet g2.vertex_list x = some (Vertex.new x))) := by
  unfold Graph.add_edge
  set g1 := if dictGet g.vertex_list a = none then g.add_vertex a else g with hg1
  set g2 := if dictGet g1.vertex_list b = none then g1.add_vertex b else g1 with hg2
  have hstep1 := fun x => ensure_vertex_get g a x
  have hstep2 := fun x => ensure_vertex_get g1 b x
  rw [← hg1] at hstep1
  rw [← hg2] at hstep2
  have hxall : ∀ x, dictGet g2.vertex_list x = dictGet g.vertex_list x ∨
      (dictGet g.vertex_list x = none ∧ (x = a ∨ x = b) ∧
        dictGet g2.vertex_list x = some (Vertex.new x)) := by
    intro x
    rcases hstep2 x with h2 | ⟨h2n, h2e, h2s⟩
    · rcases hstep1 x with h1 | ⟨h1n, h1e, h1s⟩
      · exact Or.inl (h2.trans h1)
      · subst h1e
        exact Or.inr ⟨h1n, Or.inl rfl, h2.trans h1s⟩
    · subst h2e
      rcases hstep1 x with h1 | ⟨h1n, h1e, h1s⟩
      · exact Or.inr ⟨h1.symm.trans h2n, Or.inr rfl, h2s⟩
      · rw [h1s] at h2n
        cases h2n
  have ha1 : dictGet g1.vertex_list a ≠ none := by
    by_cases hag : dictGet g.vertex_list a = none
    · rw [hg1, if_pos hag,
        show dictGet (g.add_vertex a).vertex_list a = some (Vertex.new a) from
          get_vertex_add_vertex_self g a]
      simp
    · rw [hg1, if_neg hag]
      exact hag
  have hb2 : dictGet g2.vertex_list b ≠ none := by
    by_cases hbg1 : dictGet g1.vertex_list b = none
    · rw [hg2, if_pos hbg1,
        show dictGet (g1.add_vertex b).vertex_list b = some (Vertex.new b) from
          get_vertex_add_vertex_self g1 b]
      simp
    · rw [hg2, if_neg hbg1]
      exact hbg1
  have ha2 : dictGet g2.vertex_list a ≠ none := by
    rcases hstep2 a with h2 | ⟨h2n, h2e, h2s⟩
    · rw [h2]
      exact ha1
    · rw [h2s]
      simp
  cases hva : dictGet g2.vertex_list a with
  | none => exact absurd hva ha2
  | some va =>
    refine ⟨g2, va, hva, ?_, hb2, hxall⟩
    show (match dictGet g2.vertex_list a with
      | some v => Graph.mk (dictSet g2.vertex_list a (v.add_neighbor b w)) g2.total_vert
      | none => g2).vertex_list = dictSet g2.vertex_list a (va.add_neighbor b w)
    rw [hva]

theorem dictGet_eq_some_mem {K V : Type} [DecidableEq K] (d : List (K × V)) (k : K) (v : V)
    (h : dictGet d k = some v) : (k, v) ∈ d := by
  induction d with
  | nil => cases h
  | cons p rest ih =>
    obtain ⟨k', v'⟩ := p
    by_cases hk : k' = k
    · subst hk
      have h2 : some v' = some v := by simpa [dictGet] using h
      cases h2
      simp
    · simp only [dictGet, if_neg hk] at h
      exact List.mem_cons_of_mem _ (ih h)

theorem edgeWeight_add_edge {K : Type} [DecidableEq K] (g : Graph K) (a b : K) (w : ℕ)
    (f t : K) :
    edgeWeight (g.add_edge a b w) f t
      = if f = a ∧ t = b then some w else edgeWeight g f t := by
  obtain ⟨g2, va, hva, hlist, hb2, hx⟩ := add_edge_decompose g a b w
  unfold edgeWeight Graph.get_vertex
  rw [hlist]
  by_cases hf : f = a
  · subst hf
    rw [dictGet_set_self]
    show dictGet (dictSet va.connected_to b w) t = _
    by_cases ht : t = b
    · subst ht
      rw [dictGet_set_self, if_pos ⟨rfl, rfl⟩]
    · rw [dictGet_set_ne _ _ _ _ ht, if_neg (fun hc => ht hc.2)]
      rcases hx f with h | ⟨hn, _, hs⟩
      · rw [hva] at h
        rw [← h]
      · rw [hva] at hs
        cases hs
        rw [hn]
        rfl
  · rw [dictGet_set_ne _ _ _ _ hf, if_neg (fun hc => hf hc.1)]
    rcases hx f with h | ⟨hn, hab, hs⟩
    · rw [h]
    · rw [hs, hn]
      rfl

theorem add_edge_keeps_vertex {K : Type} [DecidableEq K] (g : Graph K) (a b x : K) (w : ℕ)
    (h : dictGet g.vertex_list x ≠ none) :
    dictGet (g.add_edge a b w).vertex_list x ≠ none := by
  obtain ⟨g2, va, hva, hlist, hb2, hx⟩ := add_edge_decompose g a b w
  rw [hlist]
  apply dictGet_set_ne_none
  rcases hx x with h2 | ⟨h2n, _, h2s⟩
  · rw [h2]
    exact h
  · rw [h2s]
    simp

theorem add_edge_has_to {K : Type} [DecidableEq K] (g : Graph K) (a b : K) (w : ℕ) :
    dictGet (g.add_edge a b w).vertex_list b ≠ none := by
  obtain ⟨g2, va, hva, hlist, hb2, hx⟩ := add_edge_decompose g a b w
  rw [hlist]
  exact dictGet_set_ne_none _ _ _ _ hb2

theorem lastWeight_acc {K : Type} [DecidableEq K] (f t : K) (rest : List (K × K × ℕ))
    (a : Option ℕ) :
    rest.foldl (fun acc tr => if tr.1 = f ∧ tr.2.1 = t then some tr.2.2 else acc) a
      = match lastWeight rest f t with
        | some w => some w
        | none => a := by
  induction rest generalizing a with
  | nil => rfl
  | cons tr rest ih =>
    show rest.foldl _ (if tr.1 = f ∧ tr.2.1 = t then some tr.2.2 else a) = _
    rw [ih]
    have hlw : lastWeight (tr :: rest) f t
        = rest.foldl (fun acc tr => if tr.1 = f ∧ tr.2.1 = t then some tr.2.2 else acc)
            (if tr.1 = f ∧ tr.2.1 = t then some tr.2.2 else none) := rfl
    rw [hlw, ih]
    cases lastWeight rest f t with
    | none =>
      simp only
      by_cases hc : tr.1 = f ∧ tr.2.1 = t
      · rw [if_pos hc, if_pos hc]
      · rw [if_neg hc, if_neg hc]
    | some wr =>
      simp only

theorem foldl_add_edge_weight {K : Type} [DecidableEq K] (data : List (K × K × ℕ))
    (g : Graph K) (f t : K) :
    edgeWeight (data.foldl (fun g tr => g.add_edge tr.1 tr.2.1 tr.2.2) g) f t
      = match lastWeight data f t with
        | some w => some w
        | none => edgeWeight g f t := by
  induction data generalizing g with
  | nil => rfl
  | cons tr rest ih =>
    show edgeWeight (rest.foldl _ (g.add_edge tr.1 tr.2.1 tr.2.2)) f t = _
    rw [ih]
    have hlw : lastWeight (tr :: rest) f t
        = rest.foldl (fun acc tr => if tr.1 = f ∧ tr.2.1 = t then some tr.2.2 else acc)
            (if tr.1 = f ∧ tr.2.1 = t then some tr.2.2 else none) := rfl
    rw [hlw, lastWeight_acc]
    cases lastWeight rest f t with
    | none =>
      simp only
      rw [edgeWeight_add_edge]
      by_cases hc : f = tr.1 ∧ t = tr.2.1
      · rw [if_pos hc, if_pos ⟨hc.1.symm, hc.2.symm⟩]
      · rw [if_neg hc, if_neg (fun hc2 => hc ⟨hc2.1.symm, hc2.2.symm⟩)]
    | some wr =>
      simp only

theorem foldl_add_edge_closed {K : Type} [DecidableEq K] (data : List (K × K × ℕ))
    (g : Graph K)
    (hg : ∀ u v w', edgeWeight g u v = some w' → dictGet g.vertex_list v ≠ none) :
    ∀ u v w', edgeWeight (data.foldl (fun g tr => g.add_edge tr.1 tr.2.1 tr.2.2) g) u v
        = some w' →
      dictGet (data.foldl (fun g tr => g.add_edge tr.1 tr.2.1 tr.2.2) g).vertex_list v
        ≠ none := by
  induction data generalizing g with
  | nil => exact hg
  | cons tr rest ih =>
    show ∀ u v w', edgeWeight (rest.foldl _ (g.add_edge tr.1 tr.2.1 tr.2.2)) u v = some w' → _
    apply ih
    intro u v w' hw
    rw [edgeWeight_add_edge] at hw
    by_cases hc : u = tr.1 ∧ v = tr.2.1
    · rw [hc.2]
      exact add_edge_has_to g tr.1 tr.2.1 tr.2.2
    · rw [if_neg hc] at hw
      exact add_edge_keeps_vertex g tr.1 tr.2.1 v tr.2.2 (hg u v w' hw)

/-- C5: after any sequence of `add_edge` calls (from the empty graph), the
weight the graph records for the directed pair `(f, t)` is exactly the most
recently given weight for that pair (`none` when no such edge was ever
added) — in particular the `from` vertex exists and owns that mapping — and
every key appearing as a neighbor in some vertex's mapping also exists as a
vertex of the graph. -/
theorem add_edge_latest_weight_and_closure {K : Type} [DecidableEq K]
    (data : List (K × K × ℕ)) (f t : K) :
    edgeWeight (build_graph_from_list data) f t = lastWeight data f t ∧
    (∀ u v w', edgeWeight (build_graph_from_list data) u v = some w' →
      (build_graph_from_list data).get_vertex v ≠ none) := by
  constructor
  · rw [show build_graph_from_list data
        = data.foldl (fun g tr => g.add_edge tr.1 tr.2.1 tr.2.2) (Graph.new K) from rfl]
    rw [foldl_add_edge_weight]
    cases lastWeight data f t with
    | none => rfl
    | some w => rfl
  · intro u v w' hw
    exact foldl_add_edge_closed data (Graph.new K)
      (fun u v w' hw => by cases hw) u v w' hw

/-! ### List access and swap lemmas -/

theorem entryAt_set_self {α β : Type} [Inhabited α] [Inhabited β] (l : List (α × β)) (i : ℕ)
    (e : α × β) (h : i < l.length) : entryAt (l.set i e) i = e := by
  unfold entryAt
  rw [List.getD_eq_getElem _ _ (by simpa using h)]
  simp

theorem entryAt_set_ne {α β : Type} [Inhabited α] [Inhabited β] (l : List (α × β)) (i j : ℕ)
    (e : α × β) (h : j ≠ i) : entryAt (l.set i e) j = entryAt l j := by
  unfold entryAt
  by_cases hj : j < l.length
  · rw [List.getD_eq_getElem _ _ (by simpa using hj), List.getD_eq_getElem _ _ hj]
    exact List.getElem_set_ne (fun he => h he.symm) _
  · rw [List.getD_eq_default _ _ (by simpa using Nat.le_of_not_lt hj),
      List.getD_eq_default _ _ (Nat.le_of_not_lt hj)]

theorem entryAt_append_lt {α β : Type} [Inhabited α] [Inhabited β] (l l2 : List (α × β))
    (i : ℕ) (h : i < l.length) : entryAt (l ++ l2) i = entryAt l i := by
  unfold entryAt
  rw [List.getD_eq_getElem _ _ (by simp; omega), List.getD_eq_getElem _ _ h]
  exact List.getElem_append_left h

theorem entryAt_dropLast {α β : Type} [Inhabited α] [Inhabited β] (l : List (α × β)) (i : ℕ)
    (h : i + 1 < l.length) : entryAt l.dropLast i = entryAt l i := by
  unfold entryAt
  rw [List.getD_eq_getElem _ _ (by simp [List.length_dropLast]; omega),
    List.getD_eq_getElem _ _ (by omega)]
  exact List.getElem_dropLast l i _

theorem entryAt_tail {α β : Type} [Inhabited α] [Inhabited β] (l : List (α × β)) (i : ℕ) :
    entryAt l.tail i = entryAt l (i + 1) := by
  cases l with
  | nil => rfl
  | cons x t => rfl

theorem length_swapAt {α β : Type} [Inhabited α] [Inhabited β] (l : List (α × β)) (i j : ℕ) :
    (swapAt l i j).length = l.length := by
  simp [swapAt]

theorem entryAt_swapAt_left {α β : Type} [Inhabited α] [Inhabited β] (l : List (α × β))
    (i j : ℕ) (hi : i < l.length) : entryAt (swapAt l i j) i = entryAt l j := by
  unfold swapAt
  exact entryAt_set_self _ _ _ (by simpa using hi)

theorem entryAt_swapAt_right {α β : Type} [Inhabited α] [Inhabited β] (l : List (α × β))
    (i j : ℕ) (hj : j < l.length) (hne : j ≠ i) :
    entryAt (swapAt l i j) j = entryAt l i := by
  unfold swapAt
  rw [entryAt_set_ne _ _ _ _ hne]
  exact entryAt_set_self _ _ _ hj

theorem entryAt_swapAt_other {α β : Type} [Inhabited α] [Inhabited β] (l : List (α × β))
    (i j m : ℕ) (h1 : m ≠ i) (h2 : m ≠ j) : entryAt (swapAt l i j) m = entryAt l m := by
  unfold swapAt
  rw [entryAt_set_ne _ _ _ _ h1, entryAt_set_ne _ _ _ _ h2]

theorem set_set_perm {γ : Type} [DecidableEq γ] (l : List γ) (i j : ℕ)
    (hi : i < l.length) (hj : j < l.length) :
    List.Perm ((l.set j l[i]).set i l[j]) l := by
  rw [List.perm_iff_count]
  intro a
  by_cases hij : i = j
  · subst hij
    rw [List.count_set _ _ _ _ (by simpa using hi), List.count_set _ _ _ _ hi]
    have hb : (if l[i] == a then 1 else 0) ≤ List.count a l := by
      split
      · rename_i hba
        have he : l[i] = a := eq_of_beq hba
        subst he
        exact List.count_pos_iff.mpr (List.getElem_mem hi)
      · omega
    simp only [List.getElem_set_self]
    omega
  · rw [List.count_set _ _ _ _ (by simpa using hi), List.count_set _ _ _ _ hj]
    have hi2 : i < (l.set j l[i]).length := by simpa using hi
    have hset : (l.set j l[i])[i] = l[i] := List.getElem_set_ne (fun he => hij he.symm) _
    rw [hset]
    have hbj : (if l[j] == a then 1 else 0) ≤ List.count a l := by
      split
      · rename_i hba
        have he : l[j] = a := eq_of_beq hba
        subst he
        exact List.count_pos_iff.mpr (List.getElem_mem hj)
      · omega
    have hbi : (if l[i] == a then 1 else 0) ≤ List.count a l := by
      split
      · rename_i hba
        have he : l[i] = a := eq_of_beq hba
        subst he
        exact List.count_pos_iff.mpr (List.getElem_mem hi)
      · omega
    omega

theorem swapAt_perm {α β : Type} [Inhabited α] [Inhabited β] [DecidableEq α] [DecidableEq β]
    (l : List (α × β)) (i j : ℕ) (hi : i < l.length) (hj : j < l.length) :
    List.Perm (swapAt l i j) l := by
  have hx : entryAt l i = l[i] := List.getD_eq_getElem _ _ hi
  have hy : entryAt l j = l[j] := List.getD_eq_getElem _ _ hj
  unfold swapAt
  rw [hx, hy]
  exact set_set_perm l i j hi hj

/-! ### Ordering-mode lemmas -/

theorem ordOK_refl {α : Type} [LinearOrder α] (desc : Bool) (a : α) : ordOK desc a a := by
  unfold ordOK
  split <;> exact le_rfl

theorem ordOK_trans {α : Type} [LinearOrder α] {desc : Bool} {a b c : α}
    (h1 : ordOK desc a b) (h2 : ordOK desc b c) : ordOK desc a c := by
  unfold ordOK at *
  cases desc
  · simp only [Bool.false_eq_true, if_false] at *
    exact le_trans h1 h2
  · simp only [if_true] at *
    exact le_trans h2 h1

theorem ordOK_of_not {α : Type} [LinearOrder α] {desc : Bool} {a b : α}
    (h : ¬ ordOK desc a b) : ordOK desc b a := by
  unfold ordOK at *
  cases desc
  · simp only [Bool.false_eq_true, if_false] at *
    exact le_of_not_le h
  · simp only [if_true] at *
    exact le_of_not_le h

theorem up_body_eq {α β : Type} [LinearOrder α] [Inhabited α] [Inhabited β] (desc : Bool)
    (l : List (α × β)) (pos : ℕ) :
    (if desc then
        if keyAt l pos > keyAt l (pos / 2) then swapAt l pos (pos / 2) else l
      else
        if keyAt l pos < keyAt l (pos / 2) then swapAt l pos (pos / 2) else l)
      = if ordOK desc (keyAt l (pos / 2)) (keyAt l pos) then l
        else swapAt l pos (pos / 2) := by
  unfold ordOK
  cases desc
  · simp only [Bool.false_eq_true, if_false]
    by_cases h : keyAt l (pos / 2) ≤ keyAt l pos
    · rw [if_neg (not_lt.mpr h), if_pos h]
    · rw [if_pos (lt_of_not_le h), if_neg h]
  · simp only [if_true]
    by_cases h : keyAt l pos ≤ keyAt l (pos / 2)
    · rw [if_neg (not_lt.mpr h), if_pos h]
    · rw [if_pos (lt_of_not_le h), if_neg h]

theorem down_body_eq {α β : Type} [LinearOrder α] [Inhabited α] [Inhabited β] (desc : Bool)
    (l : List (α × β)) (pos c : ℕ) :
    (if desc then
        if keyAt l pos < keyAt l c then swapAt l pos c else l
      else
        if keyAt l pos > keyAt l c then swapAt l pos c else l)
      = if ordOK desc (keyAt l pos) (keyAt l c) then l else swapAt l pos c := by
  unfold ordOK
  cases desc
  · simp only [Bool.false_eq_true, if_false]
    by_cases h : keyAt l pos ≤ keyAt l c
    · rw [if_neg (not_lt.mpr h), if_pos h]
    · rw [if_pos (lt_of_not_le h), if_neg h]
  · simp only [if_true]
    by_cases h : keyAt l c ≤ keyAt l pos
    · rw [if_neg (not_lt.mpr h), if_pos h]
    · rw [if_pos (lt_of_not_le h), if_neg h]

theorem mmc_eq {α β : Type} [LinearOrder α] [Inhabited α] [Inhabited β] (desc : Bool)
    (size : ℕ) (l : List (α × β)) (pos : ℕ) :
    PriorityQueue.min_max_child desc size l pos
      = if pos * 2 + 1 > size then pos * 2
        else if ordOK desc (keyAt l (pos * 2 + 1)) (keyAt l (pos * 2)) then pos * 2 + 1
        else pos * 2 := by
  unfold PriorityQueue.min_max_child ordOK
  by_cases hr : pos * 2 + 1 > size
  · rw [if_pos hr, if_pos hr]
  · rw [if_neg hr, if_neg hr]
    cases desc
    · simp only [Bool.false_eq_true, if_false]
      by_cases h : keyAt l (pos * 2 + 1) ≤ keyAt l (pos * 2)
      · rw [if_neg (not_lt.mpr h), if_pos h]
      · rw [if_pos (lt_of_not_le h), if_neg h]
    · simp only [if_true]
      by_cases h : keyAt l (pos * 2) ≤ keyAt l (pos * 2 + 1)
      · rw [if_neg (not_lt.mpr h), if_pos h]
      · rw [if_pos (lt_of_not_le h), if_neg h]

theorem mmc_or {α β : Type} [LinearOrder α] [Inhabited α] [Inhabited β] (desc : Bool)
    (size : ℕ) (l : List (α × β)) (pos : ℕ) :
    PriorityQueue.min_max_child desc size l pos = pos * 2 ∨
      (PriorityQueue.min_max_child desc size l pos = pos * 2 + 1 ∧ pos * 2 + 1 ≤ size) := by
  rw [mmc_eq]
  by_cases hr : pos * 2 + 1 > size
  · rw [if_pos hr]
    exact Or.inl rfl
  · rw [if_neg hr]
    split
    · exact Or.inr ⟨rfl, by omega⟩
    · exact Or.inl rfl

theorem mmc_dominates {α β : Type} [LinearOrder α] [Inhabited α] [Inhabited β] (desc : Bool)
    (size : ℕ) (l : List (α × β)) (pos : ℕ) (j : ℕ)
    (hj : j = pos * 2 ∨ (j = pos * 2 + 1 ∧ j ≤ size)) :
    ordOK desc (keyAt l (PriorityQueue.min_max_child desc size l pos)) (keyAt l j) := by
  rw [mmc_eq]
  by_cases hr : pos * 2 + 1 > size
  · rw [if_pos hr]
    rcases hj with hj | ⟨hj, hjs⟩
    · subst hj
      exact ordOK_refl desc _
    · omega
  · rw [if_neg hr]
    by_cases ho : ordOK desc (keyAt l (pos * 2 + 1)) (keyAt l (pos * 2))
    · rw [if_pos ho]
      rcases hj with hj | ⟨hj, hjs⟩
      · subst hj
        exact ho
      · subst hj
        exact ordOK_refl desc _
    · rw [if_neg ho]
      rcases hj with hj | ⟨hj, hjs⟩
      · subst hj
        exact ordOK_refl desc _
      · subst hj
        exact ordOK_of_not ho

/-! ### Recursion equations for the fueled procedures -/

theorem percolate_up_fuel_congr {α β : Type} [LinearOrder α] [Inhabited α] [Inhabited β]
    (desc : Bool) (fuel1 fuel2 : ℕ) (l : List (α × β)) (pos : ℕ)
    (h1 : pos ≤ fuel1) (h2 : pos ≤ fuel2) :
    PriorityQueue.percolate_up_fuel desc fuel1 l pos
      = PriorityQueue.percolate_up_fuel desc fuel2 l pos := by
  induction fuel1 generalizing fuel2 l pos with
  | zero =>
    have hp : pos = 0 := by omega
    subst hp
    cases fuel2 with
    | zero => rfl
    | succ f2 =>
      show _ = if (0 : ℕ) / 2 = 0 then l else _
      rw [if_pos rfl]
      rfl
  | succ f ih =>
    cases fuel2 with
    | zero =>
      have hp : pos = 0 := by omega
      subst hp
      show (if (0 : ℕ) / 2 = 0 then l else _) = _
      rw [if_pos rfl]
      rfl
    | succ f2 =>
      show (if pos / 2 = 0 then l else _) = (if pos / 2 = 0 then l else _)
      by_cases hp : pos / 2 = 0
      · rw [if_pos hp, if_pos hp]
      · rw [if_neg hp, if_neg hp]
        exact ih _ _ _ (by omega) (by omega)

theorem percolate_up_eq {α β : Type} [LinearOrder α] [Inhabited α] [Inhabited β]
    (desc : Bool) (l : List (α × β)) (pos : ℕ) :
    PriorityQueue.percolate_up desc l pos
      = if pos / 2 = 0 then l
        else
          PriorityQueue.percolate_up desc
            (if desc then
              if keyAt l pos > keyAt l (pos / 2) then swapAt l pos (pos / 2) else l
            else
              if keyAt l pos < keyAt l (pos / 2) then swapAt l pos (pos / 2) else l)
            (pos / 2) := by
  cases hp : pos with
  | zero =>
    show PriorityQueue.percolate_up_fuel desc 0 l 0 = _
    rw [if_pos (by norm_num)]
    rfl
  | succ n =>
    show PriorityQueue.percolate_up_fuel desc (n + 1) l (n + 1) = _
    show (if (n + 1) / 2 = 0 then l else _) = _
    by_cases h : (n + 1) / 2 = 0
    · rw [if_pos h, if_pos h]
    · rw [if_neg h, if_neg h]
      exact percolate_up_fuel_congr desc n _ _ _ (by omega) le_rfl

theorem percolate_down_fuel_congr {α β : Type} [LinearOrder α] [Inhabited α] [Inhabited β]
    (desc : Bool) (size fuel1 fuel2 : ℕ) (l : List (α × β)) (pos : ℕ)
    (h1 : size + 1 - pos ≤ fuel1) (h2 : size + 1 - pos ≤ fuel2) :
    PriorityQueue.percolate_down_fuel desc size fuel1 l pos
      = PriorityQueue.percolate_down_fuel desc size fuel2 l pos := by
  induction fuel1 generalizing fuel2 l pos with
  | zero =>
    have hp : 2 * pos > size ∨ pos = 0 := by omega
    cases fuel2 with
    | zero => rfl
    | succ f2 =>
      show _ = if 2 * pos > size ∨ pos = 0 then l else _
      rw [if_pos hp]
      rfl
  | succ f ih =>
    cases fuel2 with
    | zero =>
      have hp : 2 * pos > size ∨ pos = 0 := by omega
      show (if 2 * pos > size ∨ pos = 0 then l else _) = _
      rw [if_pos hp]
      rfl
    | succ f2 =>
      show (if 2 * pos > size ∨ pos = 0 then l else _)
        = (if 2 * pos > size ∨ pos = 0 then l else _)
      by_cases hp : 2 * pos > size ∨ pos = 0
      · rw [if_pos hp, if_pos hp]
      · rw [if_neg hp, if_neg hp]
        have hcge := min_max_child_ge desc size l pos
        exact ih _ _ _ (by omega) (by omega)

theorem percolate_down_eq {α β : Type} [LinearOrder α] [Inhabited α] [Inhabited β]
    (desc : Bool) (size : ℕ) (l : List (α × β)) (pos : ℕ) :
    PriorityQueue.percolate_down desc size l pos
      = if 2 * pos > size ∨ pos = 0 then l
        else
          PriorityQueue.percolate_down desc size
            (if desc then
              if keyAt l pos < keyAt l (PriorityQueue.min_max_child desc size l pos) then
                swapAt l pos (PriorityQueue.min_max_child desc size l pos)
              else l
            else
              if keyAt l pos > keyAt l (PriorityQueue.min_max_child desc size l pos) then
                swapAt l pos (PriorityQueue.min_max_child desc size l pos)
              else l)
            (PriorityQueue.min_max_child desc size l pos) := by
  show PriorityQueue.percolate_down_fuel desc size (size + 1) l pos = _
  show (if 2 * pos > size ∨ pos = 0 then l else _) = _
  by_cases hp : 2 * pos > size ∨ pos = 0
  · rw [if_pos hp, if_pos hp]
  · rw [if_neg hp, if_neg hp]
    have hcge := min_max_child_ge desc size l pos
    exact percolate_down_fuel_congr desc size size (size + 1) _ _ (by omega) (by omega)

theorem find_pos_loop_congr {α β : Type} [Inhabited α] [Inhabited β] [DecidableEq β]
    (l : List (α × β)) (size : ℕ) (to_find : β) (fuel1 fuel2 i : ℕ)
    (h1 : size + 1 - i ≤ fuel1) (h2 : size + 1 - i ≤ fuel2) :
    PriorityQueue.find_pos_loop l size to_find fuel1 i
      = PriorityQueue.find_pos_loop l size to_find fuel2 i := by
  induction fuel1 generalizing fuel2 i with
  | zero =>
    have hp : ¬ i ≤ size := by omega
    cases fuel2 with
    | zero => rfl
    | succ f2 =>
      show _ = if i ≤ size then _ else none
      rw [if_neg hp]
      rfl
  | succ f ih =>
    cases fuel2 with
    | zero =>
      have hp : ¬ i ≤ size := by omega
      show (if i ≤ size then _ else none) = _
      rw [if_neg hp]
      rfl
    | succ f2 =>
      show (if i ≤ size then _ else none) = (if i ≤ size then _ else none)
      by_cases hp : i ≤ size
      · rw [if_pos hp, if_pos hp]
        by_cases he : (entryAt l i).2 = to_find
        · rw [if_pos he, if_pos he]
        · rw [if_neg he, if_neg he]
          exact ih _ _ (by omega) (by omega)
      · rw [if_neg hp, if_neg hp]

/-! ### Heap subtree lemmas -/

theorem inSubtree_refl (r : ℕ) : inSubtree r r :=
  ⟨0, by simp⟩

theorem inSubtree_ge {r i : ℕ} (h : inSubtree r i) : r ≤ i := by
  obtain ⟨k, hk⟩ := h
  subst hk
  exact Nat.div_le_self i (2 ^ k)

theorem inSubtree_child_left {r i : ℕ} (h : inSubtree r i) : inSubtree r (2 * i) := by
  obtain ⟨k, hk⟩ := h
  refine ⟨k + 1, ?_⟩
  rw [pow_succ]
  rw [mul_comm (2 ^ k) 2]
  rw [← Nat.div_div_eq_div_mul]
  rw [show 2 * i / 2 = i by omega]
  exact hk

theorem inSubtree_child_right {r i : ℕ} (h : inSubtree r i) : inSubtree r (2 * i + 1) := by
  obtain ⟨k, hk⟩ := h
  refine ⟨k + 1, ?_⟩
  rw [pow_succ]
  rw [mul_comm (2 ^ k) 2]
  rw [← Nat.div_div_eq_div_mul]
  rw [show (2 * i + 1) / 2 = i by omega]
  exact hk

theorem inSubtree_parent {r i : ℕ} (h : inSubtree r i) (hne : i ≠ r) :
    inSubtree r (i / 2) := by
  obtain ⟨k, hk⟩ := h
  cases k with
  | zero =>
    simp at hk
    exact absurd hk hne
  | succ k' =>
    refine ⟨k', ?_⟩
    rw [← hk, pow_succ, mul_comm (2 ^ k') 2, ← Nat.div_div_eq_div_mul]

theorem inSubtree_trans {r c j : ℕ} (h1 : inSubtree r c) (h2 : inSubtree c j) :
    inSubtree r j := by
  obtain ⟨k1, hk1⟩ := h1
  obtain ⟨k2, hk2⟩ := h2
  refine ⟨k2 + k1, ?_⟩
  rw [pow_add, ← Nat.div_div_eq_div_mul, hk2, hk1]

theorem not_inSubtree_of_lt {pos i : ℕ} (h : i < pos) : ¬ inSubtree pos i :=
  fun hs => absurd (inSubtree_ge hs) (by omega)

theorem inSubtree_boundary {pos i : ℕ} (h : inSubtree pos i)
    (hp : ¬ inSubtree pos (i / 2)) : i = pos := by
  by_contra hne
  exact hp (inSubtree_parent h hne)

/-! ### Percolate-up restores the heap property -/

theorem percolate_up_restores {α β : Type} [LinearOrder α] [Inhabited α] [Inhabited β]
    [DecidableEq α] [DecidableEq β] (desc : Bool) (size : ℕ) :
    ∀ (pos : ℕ) (l : List (α × β)),
      size + 1 ≤ l.length → 1 ≤ pos → pos ≤ size →
      (∀ i, 2 ≤ i → i ≤ size → i ≠ pos → ordOK desc (keyAt l (i / 2)) (keyAt l i)) →
      (∀ j, 2 ≤ j → j ≤ size → j / 2 = pos → 2 ≤ pos →
        ordOK desc (keyAt l (pos / 2)) (keyAt l j)) →
      HeapProp desc size (PriorityQueue.percolate_up desc l pos) ∧
      List.Perm (PriorityQueue.percolate_up desc l pos) l ∧
      (∀ m, m = 0 ∨ size < m →
        entryAt (PriorityQueue.percolate_up desc l pos) m = entryAt l m) := by
  intro pos
  induction pos using Nat.strong_induction_on with
  | _ pos ih =>
    intro l hlen hpos1 hps hexc hchild
    rw [percolate_up_eq, up_body_eq]
    by_cases hzero : pos / 2 = 0
    · rw [if_pos hzero]
      refine ⟨?_, List.Perm.refl l, fun m _ => rfl⟩
      intro i h2 hs
      by_cases hip : i = pos
      · omega
      · exact hexc i h2 hs hip
    · rw [if_neg hzero]
      have hpos2 : 2 ≤ pos := by omega
      have hp1 : 1 ≤ pos / 2 := by omega
      have hplt : pos / 2 < pos := by omega
      have hples : pos / 2 ≤ size := by omega
      have hposlt : pos < l.length := by omega
      have hpltl : pos / 2 < l.length := by omega
      by_cases hord : ordOK desc (keyAt l (pos / 2)) (keyAt l pos)
      · rw [if_pos hord]
        have hfull : ∀ i, 2 ≤ i → i ≤ size → ordOK desc (keyAt l (i / 2)) (keyAt l i) := by
          intro i h2 hs
          by_cases hip : i = pos
          · subst hip
            exact hord
          · exact hexc i h2 hs hip
        exact ih (pos / 2) hplt l hlen hp1 hples
          (fun i h2 hs _ => hfull i h2 hs)
          (fun j h2 hs hjp hp2 => by
            have hj := hfull j h2 hs
            rw [hjp] at hj
            exact ordOK_trans (hfull (pos / 2) hp2 hples) hj)
      · rw [if_neg hord]
        have hswap := ordOK_of_not hord
        have hlen2 : size + 1 ≤ (swapAt l pos (pos / 2)).length := by
          rw [length_swapAt]
          exact hlen
        have hk_p : keyAt (swapAt l pos (pos / 2)) (pos / 2) = keyAt l pos := by
          unfold keyAt
          rw [entryAt_swapAt_right l pos (pos / 2) hpltl (by omega)]
        have hk_pos : keyAt (swapAt l pos (pos / 2)) pos = keyAt l (pos / 2) := by
          unfold keyAt
          rw [entryAt_swapAt_left l pos (pos / 2) hposlt]
        have hk_other : ∀ m, m ≠ pos → m ≠ pos / 2 →
            keyAt (swapAt l pos (pos / 2)) m = keyAt l m := by
          intro m h1 h2
          unfold keyAt
          rw [entryAt_swapAt_other l pos (pos / 2) m h1 h2]
        have hexc2 : ∀ i, 2 ≤ i → i ≤ size → i ≠ pos / 2 →
            ordOK desc (keyAt (swapAt l pos (pos / 2)) (i / 2))
              (keyAt (swapAt l pos (pos / 2)) i) := by
          intro i h2 hs hip
          by_cases hipos : i = pos
          · subst hipos
            rw [hk_pos, hk_p]
            exact hswap
          · by_cases hi2pos : i / 2 = pos
            · rw [hi2pos, hk_pos, hk_other i hipos (by omega)]
              have := hchild i h2 hs hi2pos hpos2
              exact this
            · by_cases hi2p : i / 2 = pos / 2
              · rw [hi2p, hk_p, hk_other i hipos (by omega)]
                have hi' := hexc i h2 hs hipos
                rw [hi2p] at hi'
                exact ordOK_trans hswap hi'
              · rw [hk_other _ hi2pos hi2p, hk_other i hipos hip]
                exact hexc i h2 hs hipos
        have hchild2 : ∀ j, 2 ≤ j → j ≤ size → j / 2 = pos / 2 → 2 ≤ pos / 2 →
            ordOK desc (keyAt (swapAt l pos (pos / 2)) (pos / 2 / 2))
              (keyAt (swapAt l pos (pos / 2)) j) := by
          intro j h2 hs hjp hp2
          have hkgp : keyAt (swapAt l pos (pos / 2)) (pos / 2 / 2) = keyAt l (pos / 2 / 2) :=
            hk_other _ (by omega) (by omega)
          have hpair : ordOK desc (keyAt l (pos / 2 / 2)) (keyAt l (pos / 2)) :=
            hexc (pos / 2) hp2 hples (by omega)
          rw [hkgp]
          by_cases hjpos : j = pos
          · subst hjpos
            rw [hk_pos]
            exact hpair
          · rw [hk_other j hjpos (by omega)]
            have hj := hexc j h2 hs hjpos
            rw [hjp] at hj
            exact ordOK_trans hpair hj
        obtain ⟨hheap, hperm, huntouched⟩ :=
          ih (pos / 2) hplt (swapAt l pos (pos / 2)) hlen2 hp1 hples hexc2 hchild2
        refine ⟨hheap, hperm.trans (swapAt_perm l pos (pos / 2) hposlt hpltl), ?_⟩
        intro m hm
        rw [huntouched m hm]
        exact entryAt_swapAt_other l pos (pos / 2) m (by omega) (by omega)

theorem inSubtree_ge_two_mul {c j : ℕ} (h : inSubtree c j) (hne : j ≠ c) : 2 * c ≤ j := by
  have hp := inSubtree_parent h hne
  have := inSubtree_ge hp
  omega

/-! ### Percolate-down restores the heap property on the subtree -/

theorem percolate_down_restores {α β : Type} [LinearOrder α] [Inhabited α] [Inhabited β]
    [DecidableEq α] [DecidableEq β] (desc : Bool) (size : ℕ) :
    ∀ (n pos : ℕ) (l : List (α × β)),
      size + 1 - pos ≤ n →
      size + 1 ≤ l.length → 1 ≤ pos →
      (∀ i, 2 ≤ i → i ≤ size → inSubtree pos (i / 2) → i / 2 ≠ pos →
        ordOK desc (keyAt l (i / 2)) (keyAt l i)) →
      (∀ i, 2 ≤ i → i ≤ size → inSubtree pos (i / 2) →
        ordOK desc (keyAt (PriorityQueue.percolate_down desc size l pos) (i / 2))
          (keyAt (PriorityQueue.percolate_down desc size l pos) i)) ∧
      List.Perm (PriorityQueue.percolate_down desc size l pos) l ∧
      (∀ m, ¬ inSubtree pos m →
        entryAt (PriorityQueue.percolate_down desc size l pos) m = entryAt l m) ∧
      (keyAt (PriorityQueue.percolate_down desc size l pos) pos = keyAt l pos ∨
        (2 * pos ≤ size ∧
          keyAt (PriorityQueue.percolate_down desc size l pos) pos
            = keyAt l (PriorityQueue.min_max_child desc size l pos))) ∧
      (∀ m, size < m →
        entryAt (PriorityQueue.percolate_down desc size l pos) m = entryAt l m) := by
  intro n
  induction n with
  | zero =>
    intro pos l hn hlen hpos1 hsub
    have hguard : 2 * pos > size ∨ pos = 0 := by omega
    rw [percolate_down_eq, if_pos hguard]
    refine ⟨?_, List.Perm.refl l, fun m _ => rfl, Or.inl rfl, fun m _ => rfl⟩
    intro i h2 hs hins
    by_cases hip : i / 2 = pos
    · omega
    · exact hsub i h2 hs hins hip
  | succ n ih =>
    intro pos l hn hlen hpos1 hsub
    by_cases hguard : 2 * pos > size ∨ pos = 0
    · rw [percolate_down_eq, if_pos hguard]
      refine ⟨?_, List.Perm.refl l, fun m _ => rfl, Or.inl rfl, fun m _ => rfl⟩
      intro i h2 hs hins
      by_cases hip : i / 2 = pos
      · omega
      · exact hsub i h2 hs hins hip
    · rw [percolate_down_eq, if_neg hguard, down_body_eq]
      have h2ps : 2 * pos ≤ size := by omega
      have hcor := mmc_or desc size l pos
      have hcge := min_max_child_ge desc size l pos
      have hcle := min_max_child_le desc size l pos
      have hcsize : PriorityQueue.min_max_child desc size l pos ≤ size := by
        rcases hcor with h | ⟨h, hs⟩ <;> omega
      have hclen : PriorityQueue.min_max_child desc size l pos < l.length := by omega
      have hposlen : pos < l.length := by omega
      have hcpos : pos < PriorityQueue.min_max_child desc size l pos := by omega
      have hc1 : 1 ≤ PriorityQueue.min_max_child desc size l pos := by omega
      have hc2 : 2 ≤ PriorityQueue.min_max_child desc size l pos := by omega
      have hcdiv : PriorityQueue.min_max_child desc size l pos / 2 = pos := by
        rcases hcor with h | ⟨h, _⟩ <;> omega
      have hcsub : inSubtree pos (PriorityQueue.min_max_child desc size l pos) := by
        rcases hcor with h | ⟨h, _⟩
        · rw [h, Nat.mul_comm pos 2]
          exact inSubtree_child_left (inSubtree_refl pos)
        · rw [h, Nat.mul_comm pos 2]
          exact inSubtree_child_right (inSubtree_refl pos)
      have hnotsub_pos : ¬ inSubtree (PriorityQueue.min_max_child desc size l pos) pos :=
        not_inSubtree_of_lt hcpos
      have hfuel : size + 1 - PriorityQueue.min_max_child desc size l pos ≤ n := by omega
      by_cases hord : ordOK desc (keyAt l pos)
          (keyAt l (PriorityQueue.min_max_child desc size l pos))
      · rw [if_pos hord]
        have hsub2 : ∀ i, 2 ≤ i → i ≤ size →
            inSubtree (PriorityQueue.min_max_child desc size l pos) (i / 2) →
            i / 2 ≠ PriorityQueue.min_max_child desc size l pos →
            ordOK desc (keyAt l (i / 2)) (keyAt l i) := by
          intro i h2 hs hins hip
          exact hsub i h2 hs (inSubtree_trans hcsub hins)
            (by
              have := inSubtree_ge_two_mul hins hip
              omega)
        obtain ⟨ha, hb, hc, hd, he⟩ :=
          ih (PriorityQueue.min_max_child desc size l pos) l hfuel hlen hc1 hsub2
        have huntouched_pos :
            entryAt (PriorityQueue.percolate_down desc size l
              (PriorityQueue.min_max_child desc size l pos)) pos = entryAt l pos :=
          hc pos hnotsub_pos
        refine ⟨?_, hb, ?_, ?_, fun m hm => he m hm⟩
        · intro i h2 hs hins
          by_cases hip : i / 2 = pos
          · -- a pair whose parent is pos itself: i is 2*pos or 2*pos+1
            rw [hip]
            have hkpos : keyAt (PriorityQueue.percolate_down desc size l
                (PriorityQueue.min_max_child desc size l pos)) pos = keyAt l pos := by
              unfold keyAt
              rw [huntouched_pos]
            rw [hkpos]
            by_cases hic : i = PriorityQueue.min_max_child desc size l pos
            · subst hic
              rcases hd with hd | ⟨h2c, hd⟩
              · rw [hd]
                exact hord
              · rw [hd]
                have hmmc2 := mmc_or desc size l
                  (PriorityQueue.min_max_child desc size l pos)
                have hgc2 := min_max_child_ge desc size l
                  (PriorityQueue.min_max_child desc size l pos)
                have hgc2' := min_max_child_le desc size l
                  (PriorityQueue.min_max_child desc size l pos)
                have hgdiv : PriorityQueue.min_max_child desc size l
                    (PriorityQueue.min_max_child desc size l pos) / 2
                    = PriorityQueue.min_max_child desc size l pos := by
                  rcases hmmc2 with h | ⟨h, _⟩ <;> omega
                have hgsize : PriorityQueue.min_max_child desc size l
                    (PriorityQueue.min_max_child desc size l pos) ≤ size := by
                  rcases hmmc2 with h | ⟨h, hs2⟩ <;> omega
                have hpair := hsub (PriorityQueue.min_max_child desc size l
                    (PriorityQueue.min_max_child desc size l pos))
                  (by omega) hgsize (by rw [hgdiv]; exact hcsub) (by rw [hgdiv]; omega)
                rw [hgdiv] at hpair
                exact ordOK_trans hord hpair
            · -- i is the sibling of the chosen child
              have hnotsub_i : ¬ inSubtree (PriorityQueue.min_max_child desc size l pos) i := by
                intro hcon
                have := inSubtree_ge_two_mul hcon hic
                omega
              have hki : keyAt (PriorityQueue.percolate_down desc size l
                  (PriorityQueue.min_max_child desc size l pos)) i = keyAt l i := by
                unfold keyAt
                rw [hc i hnotsub_i]
              rw [hki]
              exact ordOK_trans hord (mmc_dominates desc size l pos i (by omega))
          · -- parent is a proper descendant of pos
            have hins2 : inSubtree (PriorityQueue.min_max_child desc size l pos) (i / 2) ∨
                (¬ inSubtree (PriorityQueue.min_max_child desc size l pos) (i / 2) ∧
                 ¬ inSubtree (PriorityQueue.min_max_child desc size l pos) i) := by
              by_cases h1 : inSubtree (PriorityQueue.min_max_child desc size l pos) (i / 2)
              · exact Or.inl h1
              · refine Or.inr ⟨h1, ?_⟩
                intro hcon
                by_cases hie : i = PriorityQueue.min_max_child desc size l pos
                · subst hie
                  omega
                · exact h1 (inSubtree_parent hcon hie)
            rcases hins2 with h1 | ⟨h1, h2'⟩
            · exact ha i h2 hs h1
            · have hk1 : keyAt (PriorityQueue.percolate_down desc size l
                  (PriorityQueue.min_max_child desc size l pos)) (i / 2)
                  = keyAt l (i / 2) := by
                unfold keyAt
                rw [hc _ h1]
              have hk2 : keyAt (PriorityQueue.percolate_down desc size l
                  (PriorityQueue.min_max_child desc size l pos)) i = keyAt l i := by
                unfold keyAt
                rw [hc _ h2']
              rw [hk1, hk2]
              exact hsub i h2 hs hins hip
        · intro m hm
          exact (hc m (fun hcon => hm (inSubtree_trans hcsub hcon))).trans rfl
        · left
          unfold keyAt
          rw [huntouched_pos]
      · rw [if_neg hord]
        have hswap := ordOK_of_not hord
        set c := PriorityQueue.min_max_child desc size l pos with hcdef
        set l2 := swapAt l pos c with hl2
        have hlen2 : size + 1 ≤ l2.length := by
          rw [hl2, length_swapAt]
          exact hlen
        have hk2_pos : keyAt l2 pos = keyAt l c := by
          unfold keyAt
          rw [hl2]
          rw [entryAt_swapAt_left l pos c hposlen]
        have hk2_c : keyAt l2 c = keyAt l pos := by
          unfold keyAt
          rw [hl2]
          rw [entryAt_swapAt_right l pos c hclen (by omega)]
        have hk2_other : ∀ m, m ≠ pos → m ≠ c → keyAt l2 m = keyAt l m := by
          intro m h1 h2
          unfold keyAt
          rw [hl2, entryAt_swapAt_other l pos c m h1 h2]
        have he2_other : ∀ m, m ≠ pos → m ≠ c → entryAt l2 m = entryAt l m := by
          intro m h1 h2
          rw [hl2]
          exact entryAt_swapAt_other l pos c m h1 h2
        have hsub2 : ∀ i, 2 ≤ i → i ≤ size → inSubtree c (i / 2) → i / 2 ≠ c →
            ordOK desc (keyAt l2 (i / 2)) (keyAt l2 i) := by
          intro i h2 hs hins hip
          have hge := inSubtree_ge_two_mul hins hip
          have hgei := inSubtree_ge hins
          have hk1 : keyAt l2 (i / 2) = keyAt l (i / 2) :=
            hk2_other _ (by omega) (by omega)
          have hkk2 : keyAt l2 i = keyAt l i :=
            hk2_other _ (by omega) (by omega)
          rw [hk1, hkk2]
          exact hsub i h2 hs (inSubtree_trans hcsub hins) (by omega)
        obtain ⟨ha, hb, hc', hd, he⟩ := ih c l2 hfuel hlen2 hc1 hsub2
        have huntouched_pos :
            entryAt (PriorityQueue.percolate_down desc size l2 c) pos = entryAt l2 pos :=
          hc' pos hnotsub_pos
        have hkrpos : keyAt (PriorityQueue.percolate_down desc size l2 c) pos
            = keyAt l c := by
          have h1 : keyAt (PriorityQueue.percolate_down desc size l2 c) pos
              = keyAt l2 pos := congrArg Prod.fst huntouched_pos
          rw [h1, hk2_pos]
        refine ⟨?_, hb.trans (by rw [hl2]; exact swapAt_perm l pos c hposlen hclen), ?_, ?_,
          fun m hm => (he m hm).trans (he2_other m (by omega) (by omega))⟩
        · intro i h2 hs hins
          by_cases hip : i / 2 = pos
          · rw [hip, hkrpos]
            by_cases hic : i = c
            · subst hic
              rcases hd with hd | ⟨h2c, hd⟩
              · rw [hd, hk2_c]
                exact hswap
              · rw [hd]
                have hmmc2 := mmc_or desc size l2 c
                have hgc2 := min_max_child_ge desc size l2 c
                have hgc2' := min_max_child_le desc size l2 c
                have hgdiv : PriorityQueue.min_max_child desc size l2 c / 2 = c := by
                  rcases hmmc2 with h | ⟨h, _⟩ <;> omega
                have hgsize : PriorityQueue.min_max_child desc size l2 c ≤ size := by
                  rcases hmmc2 with h | ⟨h, hs2⟩ <;> omega
                have hgne_pos : PriorityQueue.min_max_child desc size l2 c ≠ pos := by omega
                have hgne_c : PriorityQueue.min_max_child desc size l2 c ≠ c := by omega
                rw [hk2_other _ hgne_pos hgne_c]
                have hpair := hsub (PriorityQueue.min_max_child desc size l2 c)
                  (by omega) hgsize (by rw [hgdiv]; exact hcsub) (by rw [hgdiv]; omega)
                rw [hgdiv] at hpair
                exact hpair
            · have hnotsub_i : ¬ inSubtree c i := by
                intro hcon
                have := inSubtree_ge_two_mul hcon hic
                omega
              have hki : keyAt (PriorityQueue.percolate_down desc size l2 c) i
                  = keyAt l i := by
                unfold keyAt
                rw [hc' i hnotsub_i, he2_other i (by omega) hic]
              rw [hki]
              exact mmc_dominates desc size l pos i (by omega)
          · have hins2 : inSubtree c (i / 2) ∨
                (¬ inSubtree c (i / 2) ∧ ¬ inSubtree c i) := by
              by_cases h1 : inSubtree c (i / 2)
              · exact Or.inl h1
              · refine Or.inr ⟨h1, ?_⟩
                intro hcon
                by_cases hie : i = c
                · subst hie
                  omega
                · exact h1 (inSubtree_parent hcon hie)
            rcases hins2 with h1 | ⟨h1, h2'⟩
            · exact ha i h2 hs h1
            · have hi2c : i / 2 ≠ c := fun hcon => h1 (hcon ▸ inSubtree_refl c)
              have hic : i ≠ c := fun hcon => h2' (hcon ▸ inSubtree_refl c)
              have hipos : i ≠ pos := by
                have := inSubtree_ge hins
                omega
              have hk1 : keyAt (PriorityQueue.percolate_down desc size l2 c) (i / 2)
                  = keyAt l (i / 2) := by
                unfold keyAt
                rw [hc' _ h1, he2_other _ hip hi2c]
              have hk2'' : keyAt (PriorityQueue.percolate_down desc size l2 c) i
                  = keyAt l i := by
                unfold keyAt
                rw [hc' _ h2', he2_other _ hipos hic]
              rw [hk1, hk2'']
              exact hsub i h2 hs hins hip
        · intro m hm
          have hmc : ¬ inSubtree c m := fun hcon => hm (inSubtree_trans hcsub hcon)
          have hmpos : m ≠ pos := fun hcon => hm (hcon ▸ inSubtree_refl pos)
          have hmc' : m ≠ c := fun hcon => hm (hcon ▸ hcsub)
          rw [hc' m hmc, he2_other m hmpos hmc']
        · right
          exact ⟨h2ps, hkrpos⟩

/-! ### Derived heap facts and operation specifications -/

theorem heap_root_min {α β : Type} [LinearOrder α] [Inhabited α] [Inhabited β]
    (desc : Bool) (size : ℕ) (l : List (α × β)) (hh : HeapProp desc size l) :
    ∀ i, 1 ≤ i → i ≤ size → ordOK desc (keyAt l 1) (keyAt l i) := by
  intro i
  induction i using Nat.strong_induction_on with
  | _ i ih =>
    intro h1 hs
    by_cases h2 : 2 ≤ i
    · exact ordOK_trans (ih (i / 2) (by omega) (by omega) (by omega)) (hh i h2 hs)
    · have hi : i = 1 := by omega
      subst hi
      exact ordOK_refl desc _

theorem inSubtree_one : ∀ i, 1 ≤ i → inSubtree 1 i := by
  intro i
  induction i using Nat.strong_induction_on with
  | _ i ih =>
    intro h1
    by_cases h2 : 2 ≤ i
    · have hp := ih (i / 2) (by omega) (by omega)
      rcases Nat.even_or_odd i with he | he
      · obtain ⟨m, hm⟩ := he
        subst hm
        rw [show (m + m) / 2 = m by omega] at hp
        have hres := inSubtree_child_left hp
        rw [show 2 * m = m + m by omega] at hres
        exact hres
      · obtain ⟨m, hm⟩ := he
        subst hm
        rw [show (2 * m + 1) / 2 = m by omega] at hp
        exact inSubtree_child_right hp
    · have hi : i = 1 := by omega
      subst hi
      exact inSubtree_refl 1

theorem tail_perm_of_perm_head {γ : Type} (l1 l2 : List γ) (h : List.Perm l1 l2)
    (hh : l1.head? = l2.head?) (hne : l1 ≠ []) : List.Perm l1.tail l2.tail := by
  cases l1 with
  | nil => exact absurd rfl hne
  | cons x t1 =>
    cases l2 with
    | nil => exact absurd h.symm (by simp)
    | cons y t2 =>
      simp only [List.head?_cons, Option.some.injEq] at hh
      subst hh
      exact h.cons_inv

theorem set_succ_tail {γ : Type} (l : List γ) (i : ℕ) (a : γ) :
    (l.set (i + 1) a).tail = l.tail.set i a := by
  cases l with
  | nil => rfl
  | cons x t => rfl

theorem set_zero_dropLast_perm {γ : Type} (l : List γ) (hne : l ≠ []) :
    List.Perm ((l.set 0 (l.getLast hne)).dropLast) l.tail := by
  cases l with
  | nil => exact absurd rfl hne
  | cons e1 rest =>
    cases rest with
    | nil => simp
    | cons r rs =>
      have hrne : (r :: rs) ≠ [] := by simp
      have hlast : (e1 :: r :: rs).getLast hne = (r :: rs).getLast hrne :=
        List.getLast_cons hrne
      show List.Perm (((e1 :: r :: rs).getLast hne :: r :: rs).dropLast) (r :: rs)
      rw [hlast]
      show List.Perm ((r :: rs).getLast hrne :: (r :: rs).dropLast) (r :: rs)
      have hsplit := List.dropLast_append_getLast hrne
      have hperm :=
        (List.perm_append_singleton ((r :: rs).getLast hrne) ((r :: rs).dropLast)).symm
      refine hperm.trans ?_
      rw [hsplit]

theorem insert_spec {α β : Type} [LinearOrder α] [Inhabited α] [Inhabited β]
    [DecidableEq α] [DecidableEq β] (q : PriorityQueue α β) (item : α × β)
    (hq : QueueInv q) :
    QueueInv (q.insert item) ∧
    List.Perm (q.insert item).internal_list (q.internal_list ++ [item]) ∧
    entryAt (q.insert item).internal_list 0 = entryAt q.internal_list 0 ∧
    (q.insert item).size = q.size + 1 ∧ (q.insert item).descending = q.descending := by
  obtain ⟨hlen, hheap⟩ := hq
  have hlen2 : (q.size + 1) + 1 ≤ (q.internal_list ++ [item]).length := by
    simp [hlen]
  have hexc : ∀ i, 2 ≤ i → i ≤ q.size + 1 → i ≠ q.size + 1 →
      ordOK q.descending (keyAt (q.internal_list ++ [item]) (i / 2))
        (keyAt (q.internal_list ++ [item]) i) := by
    intro i h2 hs hne
    have hk1 : keyAt (q.internal_list ++ [item]) (i / 2) = keyAt q.internal_list (i / 2) := by
      unfold keyAt
      rw [entryAt_append_lt _ _ _ (by omega)]
    have hk2 : keyAt (q.internal_list ++ [item]) i = keyAt q.internal_list i := by
      unfold keyAt
      rw [entryAt_append_lt _ _ _ (by omega)]
    rw [hk1, hk2]
    exact hheap i h2 (by omega)
  have hchild : ∀ j, 2 ≤ j → j ≤ q.size + 1 → j / 2 = q.size + 1 → 2 ≤ q.size + 1 →
      ordOK q.descending (keyAt (q.internal_list ++ [item]) ((q.size + 1) / 2))
        (keyAt (q.internal_list ++ [item]) j) := by
    intro j h2 hs hjp _
    omega
  obtain ⟨hh, hp, hu⟩ := percolate_up_restores q.descending (q.size + 1) (q.size + 1)
    (q.internal_list ++ [item]) hlen2 (by omega) le_rfl hexc hchild
  refine ⟨⟨?_, hh⟩, hp, ?_, rfl, rfl⟩
  · show (PriorityQueue.percolate_up q.descending (q.internal_list ++ [item])
        (q.size + 1)).length = (q.size + 1) + 1
    rw [hp.length_eq]
    simp [hlen]
  · show entryAt (PriorityQueue.percolate_up q.descending (q.internal_list ++ [item])
        (q.size + 1)) 0 = entryAt q.internal_list 0
    rw [hu 0 (Or.inl rfl)]
    exact entryAt_append_lt _ _ _ (by omega)

theorem tail_dropLast {γ : Type} (l : List γ) : (l.dropLast).tail = (l.tail).dropLast := by
  cases l with
  | nil => rfl
  | cons x t =>
    cases t with
    | nil => rfl
    | cons y t2 => rfl

theorem entryAt_eq_head {α β : Type} [Inhabited α] [Inhabited β] (l : List (α × β))
    (h : 0 < l.length) : l.head? = some (entryAt l 0) := by
  rw [List.head?_eq_getElem?, List.getElem?_eq_getElem h]
  unfold entryAt
  rw [List.getD_eq_getElem _ _ h]

theorem advance_spec {α β : Type} [LinearOrder α] [Inhabited α] [Inhabited β]
    [DecidableEq α] [DecidableEq β] (q : PriorityQueue α β)
    (hq : QueueInv q) (hs : 1 ≤ q.size) :
    ∃ q' : PriorityQueue α β,
      q.advance = some ((entryAt q.internal_list 1).2, q') ∧
      QueueInv q' ∧
      q'.size = q.size - 1 ∧ q'.descending = q.descending ∧
      List.Perm (entryAt q.internal_list 1 :: q'.internal_list.tail) q.internal_list.tail ∧
      entryAt q'.internal_list 0 = entryAt q.internal_list 0 := by
  obtain ⟨hlen, hheap⟩ := hq
  have hsz : q.size ≠ 0 := by omega
  have hlen1 : (q.internal_list.set 1 (entryAt q.internal_list q.size)).length
      = q.size + 1 := by
    simp [hlen]
  have hlen2 : ((q.internal_list.set 1 (entryAt q.internal_list q.size)).dropLast).length
      = q.size := by
    simp [hlen1]
  have hentry_mid : ∀ j, 1 ≤ j → j ≤ q.size - 1 → j ≠ 1 →
      entryAt ((q.internal_list.set 1 (entryAt q.internal_list q.size)).dropLast) j
        = entryAt q.internal_list j := by
    intro j h1 h2 hne1
    rw [entryAt_dropLast _ _ (by omega), entryAt_set_ne _ _ _ _ hne1]
  have hsub : ∀ i, 2 ≤ i → i ≤ q.size - 1 → inSubtree 1 (i / 2) → i / 2 ≠ 1 →
      ordOK q.descending
        (keyAt ((q.internal_list.set 1 (entryAt q.internal_list q.size)).dropLast) (i / 2))
        (keyAt ((q.internal_list.set 1 (entryAt q.internal_list q.size)).dropLast) i) := by
    intro i h2 hsi hins hne1
    have hk1 : keyAt ((q.internal_list.set 1 (entryAt q.internal_list q.size)).dropLast)
        (i / 2) = keyAt q.internal_list (i / 2) := by
      unfold keyAt
      rw [hentry_mid (i / 2) (by omega) (by omega) hne1]
    have hk2 : keyAt ((q.internal_list.set 1 (entryAt q.internal_list q.size)).dropLast) i
        = keyAt q.internal_list i := by
      unfold keyAt
      rw [hentry_mid i (by omega) (by omega) (by omega)]
    rw [hk1, hk2]
    exact hheap i h2 (by omega)
  obtain ⟨ha, hp, hu, _, _⟩ := percolate_down_restores q.descending (q.size - 1) q.size 1
    ((q.internal_list.set 1 (entryAt q.internal_list q.size)).dropLast)
    (by omega) (by omega) le_rfl hsub
  have hreslen : (PriorityQueue.percolate_down q.descending (q.size - 1)
      ((q.internal_list.set 1 (entryAt q.internal_list q.size)).dropLast) 1).length
      = q.size := by
    rw [hp.length_eq, hlen2]
  refine ⟨⟨PriorityQueue.percolate_down q.descending (q.size - 1)
      ((q.internal_list.set 1 (entryAt q.internal_list q.size)).dropLast) 1,
      q.size - 1, q.descending⟩, ?_, ⟨?_, ?_⟩, rfl, rfl, ?_, ?_⟩
  · show q.advance = _
    unfold PriorityQueue.advance
    rw [if_neg hsz]
  · show (PriorityQueue.percolate_down q.descending (q.size - 1) _ 1).length
      = (q.size - 1) + 1
    rw [hreslen]
    omega
  · show HeapProp q.descending (q.size - 1) _
    intro i h2 hsi
    exact ha i h2 hsi (inSubtree_one (i / 2) (by omega))
  · show List.Perm (entryAt q.internal_list 1 ::
      (PriorityQueue.percolate_down q.descending (q.size - 1)
        ((q.internal_list.set 1 (entryAt q.internal_list q.size)).dropLast) 1).tail)
      q.internal_list.tail
    have h0eq : entryAt (PriorityQueue.percolate_down q.descending (q.size - 1)
        ((q.internal_list.set 1 (entryAt q.internal_list q.size)).dropLast) 1) 0
        = entryAt ((q.internal_list.set 1 (entryAt q.internal_list q.size)).dropLast) 0 :=
      hu 0 (not_inSubtree_of_lt (by omega))
    have htail_perm : List.Perm
        (PriorityQueue.percolate_down q.descending (q.size - 1)
          ((q.internal_list.set 1 (entryAt q.internal_list q.size)).dropLast) 1).tail
        ((q.internal_list.set 1 (entryAt q.internal_list q.size)).dropLast).tail := by
      apply tail_perm_of_perm_head _ _ hp
      · rw [entryAt_eq_head _ (by omega), entryAt_eq_head _ (by omega), h0eq]
      · intro hc
        have hc2 := congrArg List.length hc
        rw [hreslen] at hc2
        simp at hc2
        omega
    have htail_ne : q.internal_list.tail ≠ [] := by
      intro hc
      have hc2 := congrArg List.length hc
      simp [hlen] at hc2
      omega
    have hlast : entryAt q.internal_list q.size = q.internal_list.tail.getLast htail_ne := by
      unfold entryAt
      rw [List.getD_eq_getElem _ _ (by omega)]
      rw [List.getLast_eq_getElem]
      rw [List.getElem_tail]
      congr 1
      simp only [List.length_tail, hlen]
      omega
    have hstep2 : ((q.internal_list.set 1 (entryAt q.internal_list q.size)).dropLast).tail
        = (q.internal_list.tail.set 0 (entryAt q.internal_list q.size)).dropLast := by
      rw [tail_dropLast]
      rw [show (1 : ℕ) = 0 + 1 from rfl, set_succ_tail]
    have hstep3 : List.Perm
        ((q.internal_list.tail.set 0 (entryAt q.internal_list q.size)).dropLast)
        q.internal_list.tail.tail := by
      rw [hlast]
      exact set_zero_dropLast_perm q.internal_list.tail htail_ne
    have hhead1 : entryAt q.internal_list 1 :: q.internal_list.tail.tail
        = q.internal_list.tail := by
      have hh : q.internal_list.tail.head htail_ne = entryAt q.internal_list 1 := by
        rw [List.head_eq_getElem]
        rw [List.getElem_tail]
        unfold entryAt
        rw [List.getD_eq_getElem _ _ (by omega)]
      rw [← hh]
      exact List.head_cons_tail _ htail_ne
    have hfinal : List.Perm (entryAt q.internal_list 1 ::
        (PriorityQueue.percolate_down q.descending (q.size - 1)
          ((q.internal_list.set 1 (entryAt q.internal_list q.size)).dropLast) 1).tail)
        (entryAt q.internal_list 1 :: q.internal_list.tail.tail) := by
      apply List.Perm.cons
      rw [← hstep2] at hstep3
      exact htail_perm.trans hstep3
    rw [hhead1] at hfinal
    exact hfinal
  · show entryAt (PriorityQueue.percolate_down q.descending (q.size - 1)
        ((q.internal_list.set 1 (entryAt q.internal_list q.size)).dropLast) 1) 0
      = entryAt q.internal_list 0
    rw [hu 0 (not_inSubtree_of_lt (by omega))]
    rw [entryAt_dropLast _ _ (by omega), entryAt_set_ne _ _ _ _ (by omega)]

theorem find_pos_loop_spec {α β : Type} [Inhabited α] [Inhabited β] [DecidableEq β]
    (l : List (α × β)) (size : ℕ) (v : β) (fuel : ℕ) :
    ∀ (i p : ℕ), PriorityQueue.find_pos_loop l size v fuel i = some p →
      i ≤ p ∧ p ≤ size ∧ (entryAt l p).2 = v := by
  induction fuel with
  | zero =>
    intro i p h
    cases h
  | succ fuel ih =>
    intro i p h
    rw [PriorityQueue.find_pos_loop] at h
    by_cases hle : i ≤ size
    · rw [if_pos hle] at h
      by_cases he : (entryAt l i).2 = v
      · rw [if_pos he] at h
        cases h
        exact ⟨le_rfl, hle, he⟩
      · rw [if_neg he] at h
        obtain ⟨h1, h2, h3⟩ := ih (i + 1) p h
        exact ⟨by omega, h2, h3⟩
    · rw [if_neg hle] at h
      cases h

theorem find_position_spec {α β : Type} [LinearOrder α] [Inhabited α] [Inhabited β]
    [DecidableEq β] (q : PriorityQueue α β) (v : β) (p : ℕ)
    (h : q.find_position v = some p) :
    1 ≤ p ∧ p ≤ q.size ∧ (entryAt q.internal_list p).2 = v :=
  find_pos_loop_spec q.internal_list q.size v (q.size + 1) 1 p h

theorem percolate_up_after_set {α β : Type} [LinearOrder α] [Inhabited α] [Inhabited β]
    [DecidableEq α] [DecidableEq β] (desc : Bool) (size : ℕ) (l : List (α × β)) (p : ℕ)
    (e : α × β) (hlen : size + 1 ≤ l.length) (hp1 : 1 ≤ p) (hps : p ≤ size)
    (hheap : HeapProp desc size l) (hfact : ordOK desc e.1 (keyAt l p)) :
    HeapProp desc size (PriorityQueue.percolate_up desc (l.set p e) p) ∧
    List.Perm (PriorityQueue.percolate_up desc (l.set p e) p) (l.set p e) ∧
    (∀ m, m = 0 ∨ size < m →
      entryAt (PriorityQueue.percolate_up desc (l.set p e) p) m = entryAt (l.set p e) m) := by
  have hplen : p < l.length := by omega
  have hkp : keyAt (l.set p e) p = e.1 := by
    unfold keyAt
    rw [entryAt_set_self _ _ _ hplen]
  have hkother : ∀ m, m ≠ p → keyAt (l.set p e) m = keyAt l m := by
    intro m hm
    unfold keyAt
    rw [entryAt_set_ne _ _ _ _ hm]
  have hexc : ∀ i, 2 ≤ i → i ≤ size → i ≠ p →
      ordOK desc (keyAt (l.set p e) (i / 2)) (keyAt (l.set p e) i) := by
    intro i h2 hsi hip
    by_cases hi2p : i / 2 = p
    · rw [hi2p, hkp, hkother i hip]
      exact ordOK_trans hfact (by
        have := hheap i h2 hsi
        rw [hi2p] at this
        exact this)
    · rw [hkother _ hi2p, hkother i hip]
      exact hheap i h2 hsi
  have hchild : ∀ j, 2 ≤ j → j ≤ size → j / 2 = p → 2 ≤ p →
      ordOK desc (keyAt (l.set p e) (p / 2)) (keyAt (l.set p e) j) := by
    intro j h2 hsj hjp hp2
    rw [hkother _ (by omega), hkother j (by omega)]
    have h1 := hheap p hp2 hps
    have h2' := hheap j h2 hsj
    rw [hjp] at h2'
    exact ordOK_trans h1 h2'
  exact percolate_up_restores desc size p (l.set p e) (by simpa using hlen) hp1 hps hexc hchild

theorem percolate_down_after_set {α β : Type} [LinearOrder α] [Inhabited α] [Inhabited β]
    [DecidableEq α] [DecidableEq β] (desc : Bool) (size : ℕ) (l : List (α × β)) (p : ℕ)
    (e : α × β) (hlen : size + 1 ≤ l.length) (hp1 : 1 ≤ p) (hps : p ≤ size)
    (hheap : HeapProp desc size l) (hfact : ordOK desc (keyAt l p) e.1) :
    HeapProp desc size (PriorityQueue.percolate_down desc size (l.set p e) p) ∧
    List.Perm (PriorityQueue.percolate_down desc size (l.set p e) p) (l.set p e) ∧
    (∀ m, m = 0 ∨ size < m →
      entryAt (PriorityQueue.percolate_down desc size (l.set p e) p) m
        = entryAt (l.set p e) m) := by
  have hplen : p < l.length := by omega
  have hkp : keyAt (l.set p e) p = e.1 := by
    unfold keyAt
    rw [entryAt_set_self _ _ _ hplen]
  have hkother : ∀ m, m ≠ p → keyAt (l.set p e) m = keyAt l m := by
    intro m hm
    unfold keyAt
    rw [entryAt_set_ne _ _ _ _ hm]
  have hsub : ∀ i, 2 ≤ i → i ≤ size → inSubtree p (i / 2) → i / 2 ≠ p →
      ordOK desc (keyAt (l.set p e) (i / 2)) (keyAt (l.set p e) i) := by
    intro i h2 hsi hins hip
    have hge := inSubtree_ge_two_mul hins hip
    have hge2 := inSubtree_ge hins
    rw [hkother _ (by omega), hkother i (by omega)]
    exact hheap i h2 hsi
  obtain ⟨ha, hperm, hu, hd, he⟩ := percolate_down_restores desc size (size + 1) p (l.set p e)
    (by omega) (by simpa using hlen) hp1 hsub
  refine ⟨?_, hperm, fun m hm => ?_⟩
  case refine_2 =>
    rcases hm with hm | hm
    · exact hu m (fun hcon => absurd (inSubtree_ge hcon) (by omega))
    · exact he m hm
  · intro i h2 hsi
    by_cases hins : inSubtree p (i / 2)
    · exact ha i h2 hsi hins
    · by_cases hip : i = p
      · subst hip
        have hp2 : 2 ≤ i := h2
        have hk1 : keyAt (PriorityQueue.percolate_down desc size (l.set i e) i) (i / 2)
            = keyAt l (i / 2) := by
          have hk' : entryAt (PriorityQueue.percolate_down desc size (l.set i e) i) (i / 2)
              = entryAt (l.set i e) (i / 2) := hu (i / 2) hins
          unfold keyAt
          rw [hk', entryAt_set_ne _ _ _ _ (by omega)]
        rw [hk1]
        have hpair := hheap i h2 hsi
        rcases hd with hd | ⟨h2i, hd⟩
        · rw [hd, hkp]
          exact ordOK_trans hpair hfact
        · rw [hd]
          have hmor := mmc_or desc size (l.set i e) i
          have hmge := min_max_child_ge desc size (l.set i e) i
          have hmle := min_max_child_le desc size (l.set i e) i
          have hmsize : PriorityQueue.min_max_child desc size (l.set i e) i ≤ size := by
            rcases hmor with h | ⟨h, hs2⟩ <;> omega
          have hmdiv : PriorityQueue.min_max_child desc size (l.set i e) i / 2 = i := by
            rcases hmor with h | ⟨h, _⟩ <;> omega
          rw [hkother _ (by omega)]
          have hpair2 := hheap (PriorityQueue.min_max_child desc size (l.set i e) i)
            (by omega) hmsize
          rw [hmdiv] at hpair2
          exact ordOK_trans hpair hpair2
      · have hinsi : ¬ inSubtree p i := by
          intro hcon
          exact hins (inSubtree_parent hcon hip)
        have hi2p : i / 2 ≠ p := fun hcon => hins (hcon ▸ inSubtree_refl p)
        have hk1 : keyAt (PriorityQueue.percolate_down desc size (l.set p e) p) (i / 2)
            = keyAt l (i / 2) := by
          have hk' := hu (i / 2) hins
          unfold keyAt
          rw [hk', entryAt_set_ne _ _ _ _ hi2p]
        have hk2 : keyAt (PriorityQueue.percolate_down desc size (l.set p e) p) i
            = keyAt l i := by
          have hk' := hu i hinsi
          unfold keyAt
          rw [hk', entryAt_set_ne _ _ _ _ hip]
        rw [hk1, hk2]
        exact hheap i h2 hsi

theorem set_getD_self {γ : Type} [Inhabited γ] (l : List γ) (p : ℕ) :
    l.set p (l.getD p default) = l := by
  induction l generalizing p with
  | nil => rfl
  | cons x t ih =>
    cases p with
    | zero => rfl
    | succ n =>
      show x :: t.set n ((x :: t).getD (n + 1) default) = x :: t
      rw [List.getD_cons_succ]
      rw [ih n]

theorem map_snd_set_snd {α β : Type} [Inhabited α] [Inhabited β] (l : List (α × β)) (p : ℕ)
    (a : α) (hp : p < l.length) :
    (l.set p (a, (entryAt l p).2)).map Prod.snd = l.map Prod.snd := by
  rw [List.map_set]
  have h1 : (entryAt l p).2 = (l.map Prod.snd).getD p default := by
    unfold entryAt
    rw [List.getD_eq_getElem l _ hp,
      List.getD_eq_getElem (l.map Prod.snd) _ (by simpa using hp)]
    simp
  rw [show ((a, (entryAt l p).2) : α × β).2 = (entryAt l p).2 from rfl, h1,
    set_getD_self]

theorem decrease_key_spec {α β : Type} [LinearOrder α] [Inhabited α] [Inhabited β]
    [DecidableEq α] [DecidableEq β] (q : PriorityQueue α β) (value : β) (new_val : α)
    (hq : QueueInv q) :
    QueueInv (q.decrease_key value new_val) ∧
    (q.decrease_key value new_val).size = q.size ∧
    (q.decrease_key value new_val).descending = q.descending ∧
    entryAt (q.decrease_key value new_val).internal_list 0
      = entryAt q.internal_list 0 ∧
    (q.find_position value = none → q.decrease_key value new_val = q) ∧
    (∀ p, q.find_position value = some p →
      List.Perm (q.decrease_key value new_val).internal_list
        (q.internal_list.set p (new_val, (entryAt q.internal_list p).2))) := by
  obtain ⟨hlen, hheap⟩ := hq
  rcases hfp : q.find_position value with _ | pos
  · have hdk : q.decrease_key value new_val = q := by
      unfold PriorityQueue.decrease_key
      rw [hfp]
    rw [hdk]
    refine ⟨⟨hlen, hheap⟩, rfl, rfl, rfl, fun _ => rfl, fun p hp => Option.noConfusion hp⟩
  · obtain ⟨hp1, hps, hpe⟩ := find_position_spec q value pos hfp
    have hlen' : q.size + 1 ≤ q.internal_list.length := by omega
    set e : α × β := (new_val, (entryAt q.internal_list pos).2) with he
    set l2 := q.internal_list.set pos e with hl2
    have hred : q.decrease_key value new_val =
        (if q.descending then
          (if keyAt q.internal_list pos < new_val then
            { q with internal_list := PriorityQueue.percolate_up q.descending l2 pos }
          else
            { q with internal_list :=
                PriorityQueue.percolate_down q.descending q.size l2 pos })
        else
          (if keyAt q.internal_list pos < new_val then
            { q with internal_list :=
                PriorityQueue.percolate_down q.descending q.size l2 pos }
          else
            { q with internal_list := PriorityQueue.percolate_up q.descending l2 pos })) := by
      unfold PriorityQueue.decrease_key
      rw [hfp]
    have hfinish : ∀ L : List (α × β),
        HeapProp q.descending q.size L →
        List.Perm L l2 →
        (∀ m, m = 0 ∨ q.size < m → entryAt L m = entryAt l2 m) →
        QueueInv { q with internal_list := L } ∧
        q.size = q.size ∧ q.descending = q.descending ∧
        entryAt L 0 = entryAt q.internal_list 0 ∧
        ((some pos : Option ℕ) = none →
          ({ q with internal_list := L } : PriorityQueue α β) = q) ∧
        (∀ p, (some pos : Option ℕ) = some p →
          List.Perm L (q.internal_list.set p (new_val, (entryAt q.internal_list p).2))) := by
      intro L hH hP hU
      refine ⟨⟨?_, hH⟩, rfl, rfl, ?_, fun hec => Option.noConfusion hec, ?_⟩
      · show L.length = q.size + 1
        rw [hP.length_eq, hl2, List.length_set, hlen]
      · rw [hU 0 (Or.inl rfl), hl2, entryAt_set_ne _ _ _ _ (by omega)]
      · intro p hp
        cases hp
        refine hP.trans ?_
        rw [hl2, he]
    rw [hred]
    by_cases hdesc : q.descending = true
    · rw [if_pos hdesc]
      by_cases hlt : keyAt q.internal_list pos < new_val
      · rw [if_pos hlt]
        have hfact : ordOK q.descending e.1 (keyAt q.internal_list pos) := by
          show ordOK q.descending new_val (keyAt q.internal_list pos)
          unfold ordOK
          rw [hdesc, if_pos rfl]
          exact le_of_lt hlt
        obtain ⟨hH, hP, hU⟩ := percolate_up_after_set q.descending q.size
          q.internal_list pos e hlen' hp1 hps hheap hfact
        rw [← hl2] at hH hP hU
        exact hfinish _ hH hP hU
      · rw [if_neg hlt]
        have hfact : ordOK q.descending (keyAt q.internal_list pos) e.1 := by
          show ordOK q.descending (keyAt q.internal_list pos) new_val
          unfold ordOK
          rw [hdesc, if_pos rfl]
          exact le_of_not_lt hlt
        obtain ⟨hH, hP, hU⟩ := percolate_down_after_set q.descending q.size
          q.internal_list pos e hlen' hp1 hps hheap hfact
        rw [← hl2] at hH hP hU
        exact hfinish _ hH hP hU
    · rw [if_neg hdesc]
      have hdesc' : q.descending = false := by
        cases hqd : q.descending
        · rfl
        · exact absurd hqd hdesc
      by_cases hlt : keyAt q.internal_list pos < new_val
      · rw [if_pos hlt]
        have hfact : ordOK q.descending (keyAt q.internal_list pos) e.1 := by
          show ordOK q.descending (keyAt q.internal_list pos) new_val
          unfold ordOK
          rw [hdesc']
          simp only [Bool.false_eq_true, if_false]
          exact le_of_lt hlt
        obtain ⟨hH, hP, hU⟩ := percolate_down_after_set q.descending q.size
          q.internal_list pos e hlen' hp1 hps hheap hfact
        rw [← hl2] at hH hP hU
        exact hfinish _ hH hP hU
      · rw [if_neg hlt]
        have hfact : ordOK q.descending e.1 (keyAt q.internal_list pos) := by
          show ordOK q.descending new_val (keyAt q.internal_list pos)
          unfold ordOK
          rw [hdesc']
          simp only [Bool.false_eq_true, if_false]
          exact le_of_not_lt hlt
        obtain ⟨hH, hP, hU⟩ := percolate_up_after_set q.descending q.size
          q.internal_list pos e hlen' hp1 hps hheap hfact
        rw [← hl2] at hH hP hU
        exact hfinish _ hH hP hU

theorem heapify_loop_spec {α β : Type} [LinearOrder α] [Inhabited α] [Inhabited β]
    [DecidableEq α] [DecidableEq β] (desc : Bool) (size : ℕ) :
    ∀ (i : ℕ) (l : List (α × β)),
      size + 1 ≤ l.length →
      (∀ j, 2 ≤ j → j ≤ size → i < j / 2 →
        ordOK desc (keyAt l (j / 2)) (keyAt l j)) →
      HeapProp desc size (PriorityQueue.heapify_loop desc size l i) ∧
      List.Perm (PriorityQueue.heapify_loop desc size l i) l ∧
      (∀ m, m = 0 ∨ size < m →
        entryAt (PriorityQueue.heapify_loop desc size l i) m = entryAt l m) := by
  intro i
  induction i with
  | zero =>
    intro l hlen hyp
    refine ⟨?_, List.Perm.refl l, fun m _ => rfl⟩
    intro j h2 hs
    exact hyp j h2 hs (by omega)
  | succ i ih =>
    intro l hlen hyp
    have hsubhyp : ∀ j, 2 ≤ j → j ≤ size → inSubtree (i + 1) (j / 2) →
        j / 2 ≠ i + 1 → ordOK desc (keyAt l (j / 2)) (keyAt l j) := by
      intro j h2 hs hins hne
      have hge := inSubtree_ge_two_mul hins hne
      exact hyp j h2 hs (by omega)
    obtain ⟨ha, hb, hc, _, he⟩ := percolate_down_restores desc size (size + 1) (i + 1) l
      (by omega) hlen (by omega) hsubhyp
    have hlen2 : size + 1 ≤
        (PriorityQueue.percolate_down desc size l (i + 1)).length := by
      rw [hb.length_eq]
      exact hlen
    have hyp2 : ∀ j, 2 ≤ j → j ≤ size → i < j / 2 →
        ordOK desc (keyAt (PriorityQueue.percolate_down desc size l (i + 1)) (j / 2))
          (keyAt (PriorityQueue.percolate_down desc size l (i + 1)) j) := by
      intro j h2 hs hij
      by_cases hin : inSubtree (i + 1) (j / 2)
      · exact ha j h2 hs hin
      · have hne : j / 2 ≠ i + 1 := fun hcon => hin (hcon ▸ inSubtree_refl _)
        have hnj : ¬ inSubtree (i + 1) j := by
          intro hcon
          by_cases hje : j = i + 1
          · omega
          · exact hin (inSubtree_parent hcon hje)
        have hk1 : keyAt (PriorityQueue.percolate_down desc size l (i + 1)) (j / 2)
            = keyAt l (j / 2) := congrArg Prod.fst (hc _ hin)
        have hk2 : keyAt (PriorityQueue.percolate_down desc size l (i + 1)) j
            = keyAt l j := congrArg Prod.fst (hc _ hnj)
        rw [hk1, hk2]
        exact hyp j h2 hs (by omega)
    obtain ⟨hH, hP, hU⟩ := ih (PriorityQueue.percolate_down desc size l (i + 1)) hlen2 hyp2
    rw [PriorityQueue.heapify_loop]
    refine ⟨hH, hP.trans hb, ?_⟩
    intro m hm
    rw [hU m hm]
    rcases hm with hm | hm
    · subst hm
      exact hc 0 (fun hcon => absurd (inSubtree_ge hcon) (by omega))
    · exact he m hm

theorem build_heap_spec {α β : Type} [LinearOrder α] [Inhabited α] [Inhabited β]
    [DecidableEq α] [DecidableEq β] (q : PriorityQueue α β) (entries : List (α × β)) :
    QueueInv (q.build_heap entries) ∧
    (q.build_heap entries).size = entries.length ∧
    (q.build_heap entries).descending = q.descending ∧
    List.Perm (q.build_heap entries).internal_list ((default, default) :: entries) ∧
    entryAt (q.build_heap entries).internal_list 0 = (default, default) := by
  have hlen : entries.length + 1 ≤ ((default, default) :: entries : List (α × β)).length := by
    simp
  have hyp : ∀ j, 2 ≤ j → j ≤ entries.length → entries.length / 2 < j / 2 →
      ordOK q.descending (keyAt ((default, default) :: entries) (j / 2))
        (keyAt ((default, default) :: entries) j) := by
    intro j h2 hs hlt
    omega
  obtain ⟨hH, hP, hU⟩ := heapify_loop_spec q.descending entries.length
    (entries.length / 2) ((default, default) :: entries) hlen hyp
  refine ⟨⟨?_, hH⟩, rfl, rfl, hP, ?_⟩
  · show (PriorityQueue.heapify_loop q.descending entries.length
        ((default, default) :: entries) (entries.length / 2)).length = entries.length + 1
    rw [hP.length_eq]
    simp
  · show entryAt (PriorityQueue.heapify_loop q.descending entries.length
        ((default, default) :: entries) (entries.length / 2)) 0 = (default, default)
    rw [hU 0 (Or.inl rfl)]
    rfl

theorem new_queue_inv {α β : Type} [LinearOrder α] [Inhabited α] [Inhabited β]
    (desc : Bool) :
    QueueInv (PriorityQueue.new α β desc) ∧
    entryAt (PriorityQueue.new α β desc).internal_list 0 = (default, default) ∧
    (PriorityQueue.new α β desc).descending = desc := by
  refine ⟨⟨rfl, ?_⟩, rfl, rfl⟩
  intro i h2 h0
  have hz : (PriorityQueue.new α β desc).size = 0 := rfl
  omega

theorem heapOp_preserves {α β : Type} [LinearOrder α] [Inhabited α] [Inhabited β]
    [DecidableEq α] [DecidableEq β] (q : PriorityQueue α β) (op : HeapOp α β)
    (hq : QueueInv q) (hz : entryAt q.internal_list 0 = (default, default)) :
    QueueInv (HeapOp.apply q op) ∧
    entryAt (HeapOp.apply q op).internal_list 0 = (default, default) ∧
    (HeapOp.apply q op).descending = q.descending := by
  cases op with
  | ins item =>
    obtain ⟨hi, _, hzi, _, hdi⟩ := insert_spec q item hq
    exact ⟨hi, hzi.trans hz, hdi⟩
  | adv =>
    have happ : HeapOp.apply q HeapOp.adv
        = match q.advance with | none => q | some (_, q') => q' := rfl
    by_cases hs : q.size = 0
    · have hadv : q.advance = none := by
        unfold PriorityQueue.advance
        rw [if_pos hs]
      rw [happ, hadv]
      exact ⟨hq, hz, rfl⟩
    · obtain ⟨q', hadv, hq', _, hd', _, hz'⟩ := advance_spec q hq (by omega)
      rw [happ, hadv]
      exact ⟨hq', hz'.trans hz, hd'⟩
  | dec value new_val =>
    obtain ⟨hi, _, hdi, hzi, _, _⟩ := decrease_key_spec q value new_val hq
    exact ⟨hi, hzi.trans hz, hdi⟩

theorem execOps_preserves {α β : Type} [LinearOrder α] [Inhabited α] [Inhabited β]
    [DecidableEq α] [DecidableEq β] (ops : List (HeapOp α β)) :
    ∀ q : PriorityQueue α β,
      QueueInv q → entryAt q.internal_list 0 = (default, default) →
      QueueInv (execOps q ops) ∧
      entryAt (execOps q ops).internal_list 0 = (default, default) ∧
      (execOps q ops).descending = q.descending := by
  induction ops with
  | nil => exact fun q hq hz => ⟨hq, hz, rfl⟩
  | cons op rest ih =>
    intro q hq hz
    obtain ⟨h1, h2, h3⟩ := heapOp_preserves q op hq hz
    obtain ⟨g1, g2, g3⟩ := ih (HeapOp.apply q op) h1 h2
    exact ⟨g1, g2, g3.trans h3⟩

/-- C3: starting from a freshly constructed queue, after any sequence of
`insert`, `advance` and `decrease_key` operations the internal array always
satisfies the configured heap ordering property (every live node dominates
its children under the mode's comparison), slot 0 still holds the unused
sentinel entry, the live heap occupies the contiguous 1-based slots up to
`size` (the array length is exactly `size + 1`), and the ordering mode is
unchanged.  Instantiating `ops` at each prefix of a sequence gives the
property before and after every individual operation. -/
theorem queue_ops_heap_invariant {α β : Type} [LinearOrder α] [Inhabited α] [Inhabited β]
    [DecidableEq α] [DecidableEq β] (desc : Bool) (ops : List (HeapOp α β)) :
    QueueInv (execOps (PriorityQueue.new α β desc) ops) ∧
    entryAt (execOps (PriorityQueue.new α β desc) ops).internal_list 0
      = (default, default) ∧
    (execOps (PriorityQueue.new α β desc) ops).descending = desc := by
  obtain ⟨h1, h2, h3⟩ := new_queue_inv (α := α) (β := β) desc
  obtain ⟨g1, g2, g3⟩ := execOps_preserves ops (PriorityQueue.new α β desc) h1 h2
  exact ⟨g1, g2, g3.trans h3⟩

theorem mem_tail_entryAt {α β : Type} [Inhabited α] [Inhabited β] (l : List (α × β))
    (x : α × β) (hx : x ∈ l.tail) :
    ∃ i, 1 ≤ i ∧ i < l.length ∧ entryAt l i = x := by
  obtain ⟨j, hj, hget⟩ := List.getElem_of_mem hx
  have hjl : j + 1 < l.length := by
    have := l.length_tail
    omega
  refine ⟨j + 1, by omega, hjl, ?_⟩
  unfold entryAt
  rw [List.getD_eq_getElem l _ hjl, ← hget]
  rw [List.getElem_tail]

theorem drainPairs_spec {α β : Type} [LinearOrder α] [Inhabited α] [Inhabited β]
    [DecidableEq α] [DecidableEq β] :
    ∀ (n : ℕ) (q : PriorityQueue α β), QueueInv q → q.size = n →
      List.Perm (drainPairs n q) (liveList q) ∧
      List.Sorted (fun a b : α × β => ordOK q.descending a.1 b.1) (drainPairs n q) := by
  intro n
  induction n with
  | zero =>
    intro q hq hs
    have hadv : q.advance = none := by
      unfold PriorityQueue.advance
      rw [if_pos hs]
    have hdp : drainPairs 0 q = ([] : List (α × β)) := rfl
    rw [hdp]
    obtain ⟨hlen, _⟩ := hq
    have hl : liveList q = [] := by
      have : (liveList q).length = 0 := by
        unfold liveList
        rw [List.length_tail, hlen, hs]
      exact List.eq_nil_of_length_eq_zero this
    rw [hl]
    exact ⟨List.Perm.refl [], List.sorted_nil⟩
  | succ n ih =>
    intro q hq hs
    obtain ⟨q', hadv, hq', hsz, hdesc, hperm, _⟩ := advance_spec q hq (by omega)
    have hdp : drainPairs (n + 1) q = entryAt q.internal_list 1 :: drainPairs n q' := by
      rw [drainPairs, hadv]
    obtain ⟨ihp, ihs⟩ := ih q' hq' (by omega)
    obtain ⟨hlen, hheap⟩ := hq
    have hmem_live : ∀ x, x ∈ drainPairs n q' → x ∈ liveList q := by
      intro x hx
      have h1 : x ∈ liveList q' := ihp.mem_iff.mp hx
      have h2 : x ∈ entryAt q.internal_list 1 :: q'.internal_list.tail :=
        List.mem_cons_of_mem _ h1
      exact hperm.mem_iff.mp h2
    have hroot_dom : ∀ x ∈ drainPairs n q',
        ordOK q.descending (entryAt q.internal_list 1).1 x.1 := by
      intro x hx
      obtain ⟨i, hi1, hil, hie⟩ := mem_tail_entryAt q.internal_list x (hmem_live x hx)
      have := heap_root_min q.descending q.size q.internal_list hheap i hi1 (by omega)
      unfold keyAt at this
      rw [hie] at this
      exact this
    rw [hdp]
    constructor
    · exact (List.Perm.cons _ ihp).trans hperm
    · rw [List.sorted_cons]
      refine ⟨hroot_dom, ?_⟩
      rw [← hdesc]
      exact ihs

/-- C2: loading any list of (priority, payload) entries into a queue via
`build_heap` and then repeatedly extracting until empty yields exactly the
loaded entries (as a multiset) in priority order consistent with the mode:
non-decreasing priorities for an ascending queue, non-increasing for a
descending one (`ordOK`).  Each extracted pair is the root entry returned by
`advance` at that step. -/
theorem build_heap_drain_sorted {α β : Type} [LinearOrder α] [Inhabited α] [Inhabited β]
    [DecidableEq α] [DecidableEq β] (desc : Bool) (entries : List (α × β)) :
    List.Perm
      (drainPairs ((PriorityQueue.new α β desc).build_heap entries).size
        ((PriorityQueue.new α β desc).build_heap entries))
      entries ∧
    List.Sorted (fun a b : α × β => ordOK desc a.1 b.1)
      (drainPairs ((PriorityQueue.new α β desc).build_heap entries).size
        ((PriorityQueue.new α β desc).build_heap entries)) := by
  obtain ⟨hq, hsz, hdesc, hperm, hzero⟩ :=
    build_heap_spec (PriorityQueue.new α β desc) entries
  obtain ⟨hp, hs⟩ := drainPairs_spec
    ((PriorityQueue.new α β desc).build_heap entries).size
    ((PriorityQueue.new α β desc).build_heap entries) hq rfl
  have hlive : List.Perm
      (liveList ((PriorityQueue.new α β desc).build_heap entries)) entries := by
    have hne : ((PriorityQueue.new α β desc).build_heap entries).internal_list ≠ [] := by
      intro hcon
      obtain ⟨hlen, _⟩ := hq
      rw [hcon] at hlen
      simp at hlen
    have hh : ((PriorityQueue.new α β desc).build_heap entries).internal_list.head?
        = ((default, default) :: entries : List (α × β)).head? := by
      rw [entryAt_eq_head _ (by
        obtain ⟨hlen, _⟩ := hq
        rw [hlen]
        omega), hzero]
      rfl
    have := tail_perm_of_perm_head _ _ hperm hh hne
    simpa [liveList] using this
  refine ⟨hp.trans hlive, ?_⟩
  have hmode : (fun a b : α × β => ordOK desc a.1 b.1)
      = fun a b : α × β =>
        ordOK ((PriorityQueue.new α β desc).build_heap entries).descending a.1 b.1 := by
    rw [hdesc]
    rfl
  rw [hmode]
  exact hs

/-! ### Graph shape: the search-invariant part of a graph (keys, edges,
heuristics) -/

/-- The keys of the graph's vertex dictionary, in insertion order. -/
def Graph.keys {K : Type} (g : Graph K) : List K :=
  g.vertex_list.map Prod.fst

/-- The shape of a graph: everything except the mutable search fields
(`dist`, `predecessor`) of each vertex. -/
def graphShape {K : Type} (g : Graph K) : List (K × List (K × ℕ) × ℕ) :=
  g.vertex_list.map (fun p => (p.1, p.2.connected_to, p.2.heuristic))

theorem keys_of_shape {K : Type} {g g0 : Graph K}
    (h : graphShape g = graphShape g0) : g.keys = g0.keys := by
  have h1 : (graphShape g).map Prod.fst = (graphShape g0).map Prod.fst := by rw [h]
  unfold graphShape at h1
  rw [List.map_map, List.map_map] at h1
  exact h1

theorem dictGet_map_eq {K V W : Type} [DecidableEq K] (f : V → W) :
    ∀ (d d' : List (K × V)),
      d.map (fun p => (p.1, f p.2)) = d'.map (fun p => (p.1, f p.2)) →
      ∀ k, (dictGet d k).map f = (dictGet d' k).map f := by
  intro d
  induction d with
  | nil =>
    intro d' h k
    cases d' with
    | nil => rfl
    | cons q r => cases h
  | cons p rest ih =>
    intro d' h k
    cases d' with
    | nil => cases h
    | cons q r =>
      simp only [List.map_cons, List.cons.injEq] at h
      obtain ⟨hq, hrest⟩ := h
      injection hq with hk1 hv1
      show (dictGet (p :: rest) k).map f = (dictGet (q :: r) k).map f
      unfold dictGet
      by_cases hpk : p.1 = k
      · rw [if_pos hpk, if_pos (hk1 ▸ hpk)]
        show some (f p.2) = some (f q.2)
        rw [hv1]
      · rw [if_neg hpk, if_neg (hk1 ▸ hpk)]
        exact ih r hrest k

theorem shape_get_vertex {K : Type} [DecidableEq K] {g g0 : Graph K}
    (h : graphShape g = graphShape g0) (k : K) :
    (g.get_vertex k).map (fun v => (v.connected_to, v.heuristic))
      = (g0.get_vertex k).map (fun v => (v.connected_to, v.heuristic)) := by
  exact dictGet_map_eq (fun v : Vertex K => (v.connected_to, v.heuristic))
    g.vertex_list g0.vertex_list h k

theorem shape_edgeWeight {K : Type} [DecidableEq K] {g g0 : Graph K}
    (h : graphShape g = graphShape g0) (u v : K) :
    edgeWeight g u v = edgeWeight g0 u v := by
  have h1 := shape_get_vertex h u
  unfold edgeWeight
  cases hg : g.get_vertex u with
  | none =>
    cases hg0 : g0.get_vertex u with
    | none => rfl
    | some v0 =>
      rw [hg, hg0] at h1
      cases h1
  | some vu =>
    cases hg0 : g0.get_vertex u with
    | none =>
      rw [hg, hg0] at h1
      cases h1
    | some v0 =>
      rw [hg, hg0] at h1
      simp at h1
      show dictGet vu.connected_to v = dictGet v0.connected_to v
      rw [h1.1]

theorem shape_heuristic {K : Type} [DecidableEq K] {g g0 : Graph K}
    (h : graphShape g = graphShape g0) (a e : K) :
    heuristic_value g a e = heuristic_value g0 a e := by
  have h1 := shape_get_vertex h a
  unfold heuristic_value
  cases hg : g.get_vertex a with
  | none =>
    cases hg0 : g0.get_vertex a with
    | none => rfl
    | some v0 =>
      rw [hg, hg0] at h1
      cases h1
  | some vu =>
    cases hg0 : g0.get_vertex a with
    | none =>
      rw [hg, hg0] at h1
      cases h1
    | some v0 =>
      rw [hg, hg0] at h1
      simp at h1
      show vu.heuristic = v0.heuristic
      exact h1.2

theorem shape_isPathCost {K : Type} [DecidableEq K] {g g0 : Graph K}
    (h : graphShape g = graphShape g0) (s k : K) (c : ℕ) :
    IsPathCost g s k c → IsPathCost g0 s k c := by
  intro hp
  induction hp with
  | refl u => exact IsPathCost.refl u
  | cons u v x w c hw _ ih =>
    exact IsPathCost.cons u v x w c (by rw [← shape_edgeWeight h]; exact hw) ih

theorem shape_delta {K : Type} [DecidableEq K] {g g0 : Graph K}
    (h : graphShape g = graphShape g0) (s k : K) :
    delta g s k = delta g0 s k := by
  have hset : pathCosts g s k = pathCosts g0 s k := by
    ext c
    exact ⟨shape_isPathCost h s k c, shape_isPathCost h.symm s k c⟩
  unfold delta
  rw [hset]

theorem dictGet_some_of_mem_fst {K V : Type} [DecidableEq K] (d : List (K × V)) (k : K)
    (h : k ∈ d.map Prod.fst) : ∃ v, dictGet d k = some v := by
  induction d with
  | nil => simp at h
  | cons p rest ih =>
    by_cases hk : p.1 = k
    · exact ⟨p.2, by unfold dictGet; rw [if_pos hk]⟩
    · have h2 : k ∈ rest.map Prod.fst := by
        obtain ⟨q, hq, hqe⟩ := List.mem_map.mp h
        rcases List.mem_cons.mp hq with h1 | h1
        · exact absurd (h1 ▸ hqe) hk
        · exact List.mem_map.mpr ⟨q, h1, hqe⟩
      obtain ⟨v, hv⟩ := ih h2
      exact ⟨v, by unfold dictGet; rw [if_neg hk]; exact hv⟩

theorem mem_fst_of_dictGet {K V : Type} [DecidableEq K] (d : List (K × V)) (k : K) (v : V)
    (h : dictGet d k = some v) : k ∈ d.map Prod.fst :=
  List.mem_map.mpr ⟨(k, v), dictGet_eq_some_mem d k v h, rfl⟩

theorem map_dictSet_eq {K V W : Type} [DecidableEq K] (f : V → W) :
    ∀ (d : List (K × V)) (k : K) (v v' : V), dictGet d k = some v → f v' = f v →
      (dictSet d k v').map (fun p => (p.1, f p.2)) = d.map (fun p => (p.1, f p.2)) := by
  intro d
  induction d with
  | nil =>
    intro k v v' hget _
    cases hget
  | cons p rest ih =>
    intro k v v' hget hf
    unfold dictSet
    by_cases hpk : p.1 = k
    · rw [if_pos hpk]
      have hv : p.2 = v := by
        unfold dictGet at hget
        rw [if_pos hpk] at hget
        cases hget
        rfl
      rw [List.map_cons, List.map_cons, hpk, hf, hv]
    · rw [if_neg hpk]
      unfold dictGet at hget
      rw [if_neg hpk] at hget
      rw [List.map_cons, List.map_cons, ih k v v' hget hf]

theorem dictGet_map {K V W : Type} [DecidableEq K] (f : V → W) :
    ∀ (d : List (K × V)) (k : K),
      dictGet (d.map (fun p => (p.1, f p.2))) k = (dictGet d k).map f := by
  intro d
  induction d with
  | nil => intro k; rfl
  | cons p rest ih =>
    intro k
    show dictGet ((p.1, f p.2) :: rest.map _) k = _
    unfold dictGet
    by_cases hpk : p.1 = k
    · rw [if_pos hpk, if_pos hpk]
      rfl
    · rw [if_neg hpk, if_neg hpk]
      exact ih k

theorem shape_setDist {K : Type} [DecidableEq K] (g : Graph K) (k : K) (d : ℕ∞) :
    graphShape (g.setDist k d) = graphShape g := by
  unfold Graph.setDist
  cases hg : dictGet g.vertex_list k with
  | none => rfl
  | some v =>
    unfold graphShape
    exact map_dictSet_eq (fun u : Vertex K => (u.connected_to, u.heuristic))
      g.vertex_list k v ({ v with dist := d }) hg rfl

theorem shape_resetDists {K : Type} (g : Graph K) :
    graphShape g.resetDists = graphShape g := by
  unfold graphShape Graph.resetDists
  rw [List.map_map]
  rfl

theorem shape_update {K : Type} [DecidableEq K] (g : Graph K) (k : K) (next : Vertex K)
    (d : ℕ∞) (pr : Option K) (hg : g.get_vertex k = some next) :
    graphShape
      { g with vertex_list :=
          dictSet g.vertex_list k ({ next with dist := d, predecessor := pr }) }
      = graphShape g := by
  unfold graphShape
  exact map_dictSet_eq (fun u : Vertex K => (u.connected_to, u.heuristic))
    g.vertex_list k next ({ next with dist := d, predecessor := pr }) hg rfl

theorem get_vertex_resetDists {K : Type} [DecidableEq K] (g : Graph K) (k : K) :
    g.resetDists.get_vertex k
      = (g.get_vertex k).map (fun v => ({ v with dist := (⊤ : ℕ∞) } : Vertex K)) := by
  show dictGet (g.vertex_list.map (fun p =>
      (p.1, ({ p.2 with dist := (⊤ : ℕ∞) } : Vertex K)))) k = _
  exact dictGet_map (fun v : Vertex K => ({ v with dist := (⊤ : ℕ∞) })) g.vertex_list k

theorem vdist_resetDists {K : Type} [DecidableEq K] (g : Graph K) (k : K) :
    g.resetDists.vdist k = ⊤ := by
  unfold Graph.vdist
  rw [get_vertex_resetDists]
  cases g.get_vertex k with
  | none => rfl
  | some v => rfl

theorem vpred_resetDists {K : Type} [DecidableEq K] (g : Graph K) (k : K) :
    g.resetDists.vpred k = g.vpred k := by
  unfold Graph.vpred
  rw [get_vertex_resetDists]
  cases g.get_vertex k with
  | none => rfl
  | some v => rfl

theorem get_vertex_setDist {K : Type} [DecidableEq K] (g : Graph K) (k : K) (d : ℕ∞)
    (v : Vertex K) (hg : g.get_vertex k = some v) :
    ∀ k2, (g.setDist k d).get_vertex k2
      = if k2 = k then some { v with dist := d } else g.get_vertex k2 := by
  intro k2
  unfold Graph.setDist
  rw [show dictGet g.vertex_list k = some v from hg]
  show dictGet (dictSet g.vertex_list k _) k2 = _
  by_cases hk : k2 = k
  · rw [if_pos hk, hk, dictGet_set_self]
  · rw [if_neg hk, dictGet_set_ne _ _ _ _ hk]
    rfl

theorem vdist_setDist_self {K : Type} [DecidableEq K] (g : Graph K) (k : K) (d : ℕ∞)
    (v : Vertex K) (hg : g.get_vertex k = some v) :
    (g.setDist k d).vdist k = d := by
  unfold Graph.vdist
  rw [get_vertex_setDist g k d v hg k, if_pos rfl]

theorem vdist_setDist_ne {K : Type} [DecidableEq K] (g : Graph K) (k k2 : K) (d : ℕ∞)
    (hne : k2 ≠ k) : (g.setDist k d).vdist k2 = g.vdist k2 := by
  unfold Graph.setDist
  cases hg : dictGet g.vertex_list k with
  | none => rfl
  | some v =>
    unfold Graph.vdist Graph.get_vertex
    show (match dictGet (dictSet g.vertex_list k _) k2 with
      | some v => v.dist | none => ⊤) = _
    rw [dictGet_set_ne _ _ _ _ hne]

theorem vpred_setDist {K : Type} [DecidableEq K] (g : Graph K) (k k2 : K) (d : ℕ∞) :
    (g.setDist k d).vpred k2 = g.vpred k2 := by
  unfold Graph.setDist
  cases hg : dictGet g.vertex_list k with
  | none => rfl
  | some v =>
    unfold Graph.vpred Graph.get_vertex
    show (match dictGet (dictSet g.vertex_list k _) k2 with
      | some v => v.predecessor | none => none) = _
    by_cases hk : k2 = k
    · rw [hk, dictGet_set_self, hg]
    · rw [dictGet_set_ne _ _ _ _ hk]

theorem vdist_update_self {K : Type} [DecidableEq K] (g : Graph K) (k : K) (next : Vertex K)
    (d : ℕ∞) (pr : Option K) :
    ({ g with vertex_list :=
        dictSet g.vertex_list k ({ next with dist := d, predecessor := pr }) } : Graph K).vdist k
      = d := by
  unfold Graph.vdist Graph.get_vertex
  show (match dictGet (dictSet g.vertex_list k _) k with
    | some v => v.dist | none => ⊤) = _
  rw [dictGet_set_self]

theorem vdist_update_ne {K : Type} [DecidableEq K] (g : Graph K) (k k2 : K) (next : Vertex K)
    (d : ℕ∞) (pr : Option K) (hne : k2 ≠ k) :
    ({ g with vertex_list :=
        dictSet g.vertex_list k ({ next with dist := d, predecessor := pr }) } : Graph K).vdist k2
      = g.vdist k2 := by
  unfold Graph.vdist Graph.get_vertex
  show (match dictGet (dictSet g.vertex_list k _) k2 with
    | some v => v.dist | none => ⊤) = _
  rw [dictGet_set_ne _ _ _ _ hne]

theorem vpred_update_self {K : Type} [DecidableEq K] (g : Graph K) (k : K) (next : Vertex K)
    (d : ℕ∞) (pr : Option K) :
    ({ g with vertex_list :=
        dictSet g.vertex_list k ({ next with dist := d, predecessor := pr }) } : Graph K).vpred k
      = pr := by
  unfold Graph.vpred Graph.get_vertex
  show (match dictGet (dictSet g.vertex_list k _) k with
    | some v => v.predecessor | none => none) = _
  rw [dictGet_set_self]

theorem vpred_update_ne {K : Type} [DecidableEq K] (g : Graph K) (k k2 : K) (next : Vertex K)
    (d : ℕ∞) (pr : Option K) (hne : k2 ≠ k) :
    ({ g with vertex_list :=
        dictSet g.vertex_list k ({ next with dist := d, predecessor := pr }) } : Graph K).vpred k2
      = g.vpred k2 := by
  unfold Graph.vpred Graph.get_vertex
  show (match dictGet (dictSet g.vertex_list k _) k2 with
    | some v => v.predecessor | none => none) = _
  rw [dictGet_set_ne _ _ _ _ hne]

theorem vdist_of_get_vertex {K : Type} [DecidableEq K] (g : Graph K) (k : K) (v : Vertex K)
    (hg : g.get_vertex k = some v) : g.vdist k = v.dist := by
  unfold Graph.vdist
  rw [hg]

theorem vpred_of_get_vertex {K : Type} [DecidableEq K] (g : Graph K) (k : K) (v : Vertex K)
    (hg : g.get_vertex k = some v) : g.vpred k = v.predecessor := by
  unfold Graph.vpred
  rw [hg]

theorem nodup_map_mem_eq {γ δ : Type} {f : γ → δ} :
    ∀ {l : List γ}, (l.map f).Nodup → ∀ {x y : γ}, x ∈ l → y ∈ l → f x = f y → x = y := by
  intro l
  induction l with
  | nil =>
    intro _ x y hx
    cases hx
  | cons a rest ih =>
    intro hnd x y hx hy hf
    rw [List.map_cons, List.nodup_cons] at hnd
    obtain ⟨hna, hnd⟩ := hnd
    rcases List.mem_cons.mp hx with hx1 | hx1 <;> rcases List.mem_cons.mp hy with hy1 | hy1
    · rw [hx1, hy1]
    · exact absurd (List.mem_map.mpr ⟨y, hy1, (hx1 ▸ hf).symm⟩) hna
    · exact absurd (List.mem_map.mpr ⟨x, hx1, hy1 ▸ hf⟩) hna
    · exact ih hnd hx1 hy1 hf

theorem tail_append_of_ne_nil {γ : Type} (l1 l2 : List γ) (h : l1 ≠ []) :
    (l1 ++ l2).tail = l1.tail ++ l2 := by
  cases l1 with
  | nil => exact absurd rfl h
  | cons x t => rfl

theorem liveList_insert {α β : Type} [LinearOrder α] [Inhabited α] [Inhabited β]
    [DecidableEq α] [DecidableEq β] (q : PriorityQueue α β) (item : α × β)
    (hq : QueueInv q) :
    List.Perm (liveList (q.insert item)) (liveList q ++ [item]) := by
  obtain ⟨hqi, hperm, hz, _, _⟩ := insert_spec q item hq
  obtain ⟨hlen, _⟩ := hq
  obtain ⟨hlen', _⟩ := hqi
  have hne : q.internal_list ≠ [] := by
    intro hcon
    rw [hcon] at hlen
    simp at hlen
  have hh : (q.insert item).internal_list.head? = (q.internal_list ++ [item]).head? := by
    rw [entryAt_eq_head _ (by rw [hlen']; omega),
      entryAt_eq_head _ (by simp [hlen]), hz,
      entryAt_append_lt _ _ _ (by rw [hlen]; omega)]
  have := tail_perm_of_perm_head _ _ hperm hh (by
    intro hcon
    rw [hcon] at hlen'
    simp at hlen')
  unfold liveList
  rw [tail_append_of_ne_nil _ _ hne] at this
  exact this

theorem liveList_decrease_key {α β : Type} [LinearOrder α] [Inhabited α] [Inhabited β]
    [DecidableEq α] [DecidableEq β] (q : PriorityQueue α β) (value : β) (new_val : α)
    (hq : QueueInv q) (p : ℕ) (hfp : q.find_position value = some p) :
    List.Perm (liveList (q.decrease_key value new_val))
      ((liveList q).set (p - 1) (new_val, (entryAt q.internal_list p).2)) := by
  obtain ⟨hp1, hps, _⟩ := find_position_spec q value p hfp
  obtain ⟨hqi, _, _, hz, _, hsome⟩ := decrease_key_spec q value new_val hq
  have hperm := hsome p hfp
  obtain ⟨hlen, _⟩ := hq
  obtain ⟨hlen', _⟩ := hqi
  have hh : (q.decrease_key value new_val).internal_list.head?
      = (q.internal_list.set p (new_val, (entryAt q.internal_list p).2)).head? := by
    rw [entryAt_eq_head _ (by rw [hlen']; omega),
      entryAt_eq_head _ (by rw [List.length_set, hlen]; omega), hz,
      entryAt_set_ne _ _ _ _ (by omega)]
  have hta := tail_perm_of_perm_head _ _ hperm hh (by
    intro hcon
    rw [hcon] at hlen'
    simp at hlen')
  unfold liveList
  have hpp : p = (p - 1) + 1 := by omega
  rw [hpp, set_succ_tail, ← hpp] at hta
  exact hta

theorem find_pos_loop_none_all {α β : Type} [Inhabited α] [Inhabited β] [DecidableEq β]
    (l : List (α × β)) (size : ℕ) (v : β) :
    ∀ (fuel i : ℕ), PriorityQueue.find_pos_loop l size v fuel i = none →
      ∀ j, i ≤ j → j ≤ size → j < i + fuel → (entryAt l j).2 ≠ v := by
  intro fuel
  induction fuel with
  | zero =>
    intro i _ j h1 _ h3
    omega
  | succ fuel ih =>
    intro i hnone j h1 h2 h3
    rw [PriorityQueue.find_pos_loop] at hnone
    by_cases hle : i ≤ size
    · rw [if_pos hle] at hnone
      by_cases he : (entryAt l i).2 = v
      · rw [if_pos he] at hnone
        cases hnone
      · rw [if_neg he] at hnone
        by_cases hji : j = i
        · rw [hji]
          exact he
        · exact ih (i + 1) hnone j (by omega) h2 (by omega)
    · omega

theorem find_position_some_of_mem {α β : Type} [LinearOrder α] [Inhabited α] [Inhabited β]
    [DecidableEq β] (q : PriorityQueue α β) (v : β) (hq : QueueInv q)
    (hv : v ∈ (liveList q).map Prod.snd) : ∃ p, q.find_position v = some p := by
  cases hfp : q.find_position v with
  | some p => exact ⟨p, rfl⟩
  | none =>
    obtain ⟨hlen, _⟩ := hq
    obtain ⟨x, hx, hxv⟩ := List.mem_map.mp hv
    obtain ⟨j, hj1, hjl, hje⟩ := mem_tail_entryAt q.internal_list x hx
    have := find_pos_loop_none_all q.internal_list q.size v (q.size + 1) 1 hfp j hj1
      (by omega) (by omega)
    rw [hje, hxv] at this
    exact absurd rfl this

/-! ### Shortest-path cost facts -/

theorem delta_self {K : Type} [DecidableEq K] (g : Graph K) (s : K) :
    delta g s s = 0 := by
  unfold delta
  rw [if_pos ⟨0, IsPathCost.refl s⟩]
  have h0 : sInf (pathCosts g s s) = 0 :=
    Nat.le_zero.mp (Nat.sInf_le (IsPathCost.refl s))
  rw [h0]
  rfl

theorem delta_attained {K : Type} [DecidableEq K] (g : Graph K) (s k : K)
    (h : delta g s k ≠ ⊤) :
    ∃ c : ℕ, IsPathCost g s k c ∧ (c : ℕ∞) = delta g s k := by
  unfold delta at h ⊢
  by_cases hne : (pathCosts g s k).Nonempty
  · rw [if_pos hne]
    exact ⟨sInf (pathCosts g s k), Nat.sInf_mem hne, rfl⟩
  · rw [if_neg hne] at h
    exact absurd rfl h

theorem pathCost_snoc {K : Type} [DecidableEq K] (g : Graph K) (s u : K) (c : ℕ)
    (hp : IsPathCost g s u c) :
    ∀ v w, edgeWeight g u v = some w → IsPathCost g s v (c + w) := by
  induction hp with
  | refl z =>
    intro v w hw
    have := IsPathCost.cons z v v w 0 hw (IsPathCost.refl v)
    simpa using this
  | cons a b x w0 c0 hw0 _ ih =>
    intro v w hw
    have := IsPathCost.cons a b v w0 (c0 + w) hw0 (ih v w hw)
    rw [show w0 + (c0 + w) = (w0 + c0) + w by omega] at this
    exact this

theorem delta_triangle {K : Type} [DecidableEq K] (g : Graph K) (s u v : K) (w : ℕ)
    (hw : edgeWeight g u v = some w) :
    delta g s v ≤ delta g s u + (w : ℕ∞) := by
  by_cases htop : delta g s u = ⊤
  · rw [htop]
    simp
  · obtain ⟨c, hpc, hc⟩ := delta_attained g s u htop
    have hsnoc := pathCost_snoc g s u c hpc v w hw
    have := delta_le_pathCost g s v (c + w) hsnoc
    calc delta g s v ≤ ((c + w : ℕ) : ℕ∞) := this
      _ = (c : ℕ∞) + w := by push_cast; rfl
      _ = delta g s u + w := by rw [hc]

theorem delta_le_of_realized {K : Type} [DecidableEq K] (g : Graph K) (s k : K) (dv : ℕ∞)
    (h : ∃ c : ℕ, (c : ℕ∞) = dv ∧ IsPathCost g s k c) : delta g s k ≤ dv := by
  obtain ⟨c, hc, hp⟩ := h
  rw [← hc]
  exact delta_le_pathCost g s k c hp

/-- Well-formedness of a graph as maintained by the `Graph` class API:
dictionary keys are unique, each vertex's `id` field agrees with its
dictionary key, and every recorded neighbor key is itself a vertex. -/
def GraphWF {K : Type} [DecidableEq K] (g : Graph K) : Prop :=
  g.keys.Nodup ∧
  (∀ p ∈ g.vertex_list, p.2.key = p.1) ∧
  (∀ p ∈ g.vertex_list, ∀ q ∈ p.2.connected_to, q.1 ∈ g.keys)

/-- All predecessor fields clear, as in a graph never searched before. -/
def FreshPreds {K : Type} (g : Graph K) : Prop :=
  ∀ p ∈ g.vertex_list, p.2.predecessor = none

theorem closed_of_wf {K : Type} [DecidableEq K] {g : Graph K} (hwf : GraphWF g)
    {u v : K} {w : ℕ} (hw : edgeWeight g u v = some w) : v ∈ g.keys := by
  unfold edgeWeight at hw
  cases hg : g.get_vertex u with
  | none =>
    rw [hg] at hw
    cases hw
  | some vu =>
    rw [hg] at hw
    have h1 : (u, vu) ∈ g.vertex_list := dictGet_eq_some_mem _ _ _ hg
    have h2 : (v, w) ∈ vu.connected_to := dictGet_eq_some_mem _ _ _ hw
    exact hwf.2.2 (u, vu) h1 (v, w) h2

theorem dict_mem_get {K V : Type} [DecidableEq K] :
    ∀ (d : List (K × V)), (d.map Prod.fst).Nodup → ∀ p ∈ d, dictGet d p.1 = some p.2 := by
  intro d
  induction d with
  | nil =>
    intro _ p hp
    cases hp
  | cons q rest ih =>
    intro hnd p hp
    rw [List.map_cons, List.nodup_cons] at hnd
    obtain ⟨hq, hnd⟩ := hnd
    rcases List.mem_cons.mp hp with h1 | h1
    · subst h1
      unfold dictGet
      rw [if_pos rfl]
    · unfold dictGet
      by_cases hqe : q.1 = p.1
      · exact absurd (List.mem_map.mpr ⟨p, h1, hqe.symm⟩) hq
      · rw [if_neg hqe]
        exact ih hnd p h1

theorem get_vertex_of_mem {K : Type} [DecidableEq K] {g : Graph K}
    (hnd : g.keys.Nodup) {p : K × Vertex K} (hp : p ∈ g.vertex_list) :
    g.get_vertex p.1 = some p.2 :=
  dict_mem_get g.vertex_list hnd p hp

/-- The cut argument shared by both searches.  `popped` is the settled set,
`d` the current per-vertex distance map, `Q` the predicate "waiting in the
queue".  If every settled vertex has had its out-edges relaxed and distances
over-approximate the true costs, then along any path from `s` to an
unsettled vertex there is an unsettled queued vertex whose distance is at
most the path's cost (plus the baseline `a` of the path's start). -/
theorem path_cut {K : Type} [DecidableEq K] (g : Graph K) (start : K) (popped : List K)
    (Q : K → Prop) (d : K → ℕ∞)
    (hdelta : ∀ k, delta g start k ≤ d k)
    (hstep : ∀ x v w, x ∈ popped → edgeWeight g x v = some w →
      d v ≤ delta g start x + (w : ℕ∞) ∧ (¬ v ∈ popped → Q v)) :
    ∀ (s u : K) (c : ℕ) (a : ℕ∞), IsPathCost g s u c → ¬ u ∈ popped →
      delta g start s ≤ a → (¬ s ∈ popped → Q s ∧ d s ≤ a) →
      ∃ y, ¬ y ∈ popped ∧ Q y ∧ d y ≤ a + c := by
  intro s u c a hp
  induction hp generalizing a with
  | refl z =>
    intro hu _ hs
    obtain ⟨hQ, hd⟩ := hs hu
    exact ⟨z, hu, hQ, by simpa using hd⟩
  | cons x v y w c hw _ ih =>
    intro hu hda hs
    by_cases hxp : x ∈ popped
    · obtain ⟨hdv, hQv⟩ := hstep x v w hxp hw
      by_cases hvp : v ∈ popped
      · have hdva : delta g start v ≤ a + (w : ℕ∞) :=
          (hdelta v).trans (hdv.trans (add_le_add_right hda _))
        obtain ⟨z, hz1, hz2, hz3⟩ := ih (a + (w : ℕ∞)) hu hdva (fun hc => absurd hvp hc)
        refine ⟨z, hz1, hz2, ?_⟩
        calc d z ≤ (a + (w : ℕ∞)) + (c : ℕ∞) := hz3
          _ = a + ((w + c : ℕ) : ℕ∞) := by push_cast; rw [add_assoc]
      · refine ⟨v, hvp, hQv hvp, ?_⟩
        calc d v ≤ delta g start x + (w : ℕ∞) := hdv
          _ ≤ a + (w : ℕ∞) := add_le_add_right hda _
          _ ≤ a + ((w + c : ℕ) : ℕ∞) := by
              push_cast
              rw [← add_assoc]
              exact le_self_add
    · obtain ⟨hQ, hd⟩ := hs hxp
      exact ⟨x, hxp, hQ, hd.trans le_self_add⟩

/-- The loop invariant of `dijkstras_algorithm` relating the current graph
`g`, queue `pq` and settled list `popped` to the input graph `g0` and start
vertex.  `R` is the sublist of settled vertices whose out-edges have already
been relaxed (all of them except, mid-iteration, the vertex just popped).
The predecessor facts are conditional on the input graph having carried no
stale predecessor links (the source never clears them, see C4). -/
structure DijkState {K : Type} [DecidableEq K] [Inhabited K] (g0 : Graph K) (start : K)
    (g : Graph K) (pq : PriorityQueue ℕ∞ K) (popped R : List K) : Prop where
  qinv : QueueInv pq
  asc : pq.descending = false
  shape : graphShape g = graphShape g0
  livekeys : List.Perm ((liveList pq).map Prod.snd ++ popped) g0.keys
  prio : ∀ e, e ∈ liveList pq → e.1 = g.vdist e.2
  dist_popped : ∀ k, k ∈ popped → g.vdist k = delta g0 start k
  dist_upper : ∀ k, g.vdist k ≠ ⊤ → ∃ c : ℕ, (c : ℕ∞) = g.vdist k ∧ IsPathCost g0 start k c
  relaxed : ∀ x, x ∈ R → ∀ v w, edgeWeight g0 x v = some w →
    g.vdist v ≤ delta g0 start x + (w : ℕ∞)
  start0 : g.vdist start = 0
  pred_dist : FreshPreds g0 → ∀ k u, g.vpred k = some u → u ∈ popped ∧
    ∃ w, edgeWeight g0 u k = some w ∧ g.vdist k = delta g0 start u + (w : ℕ∞)
  pred_chain : FreshPreds g0 → ∀ i (hi : i < popped.length) u,
    g.vpred (popped.get ⟨i, hi⟩) = some u → ∃ j, ∃ hj : j < popped.length,
      j < i ∧ popped.get ⟨j, hj⟩ = u
  pred_none : FreshPreds g0 → ∀ k, k ∈ g0.keys → g.vpred k = none →
    k = start ∨ g.vdist k = ⊤

/-- The between-iterations form of the invariant: every settled vertex has
been relaxed. -/
abbrev DijkInv {K : Type} [DecidableEq K] [Inhabited K] (g0 : Graph K) (start : K)
    (g : Graph K) (pq : PriorityQueue ℕ∞ K) (popped : List K) : Prop :=
  DijkState g0 start g pq popped popped

theorem dijkinv_delta_le {K : Type} [DecidableEq K] [Inhabited K] {g0 : Graph K} {start : K}
    {g : Graph K} {pq : PriorityQueue ℕ∞ K} {popped R : List K}
    (hinv : DijkState g0 start g pq popped R) (k : K) : delta g0 start k ≤ g.vdist k := by
  by_cases htop : g.vdist k = ⊤
  · rw [htop]
    exact le_top
  · exact delta_le_of_realized g0 start k _ (by
      obtain ⟨c, hc, hp⟩ := hinv.dist_upper k htop
      exact ⟨c, hc, hp⟩)

theorem entryAt_mem_tail {α β : Type} [Inhabited α] [Inhabited β] (l : List (α × β))
    (i : ℕ) (h1 : 1 ≤ i) (h2 : i < l.length) : entryAt l i ∈ l.tail := by
  have ht : i - 1 < l.tail.length := by
    rw [List.length_tail]
    omega
  have hent : entryAt l i = l.tail[i - 1] := by
    unfold entryAt
    rw [List.getD_eq_getElem _ _ h2, List.getElem_tail]
    congr 1
    omega
  rw [hent]
  exact List.getElem_mem ht

theorem dijk_keysplit {K : Type} [DecidableEq K] [Inhabited K] {g0 : Graph K} {start : K}
    {g : Graph K} {pq : PriorityQueue ℕ∞ K} {popped R : List K}
    (hinv : DijkState g0 start g pq popped R) (hnd : g0.keys.Nodup) :
    ((liveList pq).map Prod.snd).Nodup ∧ popped.Nodup ∧
    (∀ k, k ∈ g0.keys → ¬ k ∈ popped → k ∈ (liveList pq).map Prod.snd) ∧
    (∀ k, k ∈ (liveList pq).map Prod.snd → k ∈ g0.keys ∧ ¬ k ∈ popped) ∧
    (∀ k, k ∈ popped → k ∈ g0.keys) := by
  have hperm := hinv.livekeys
  have hnd2 : ((liveList pq).map Prod.snd ++ popped).Nodup := hperm.nodup_iff.mpr hnd
  rw [List.nodup_append] at hnd2
  obtain ⟨hn1, hn2, hdisj⟩ := hnd2
  refine ⟨hn1, hn2, ?_, ?_, ?_⟩
  · intro k hk hkp
    rcases List.mem_append.mp (hperm.symm.mem_iff.mp hk) with h | h
    · exact h
    · exact absurd h hkp
  · intro k hk
    refine ⟨hperm.mem_iff.mp (List.mem_append.mpr (Or.inl hk)), ?_⟩
    intro hkp
    exact hdisj hk hkp
  · intro k hk
    exact hperm.mem_iff.mp (List.mem_append.mpr (Or.inr hk))

theorem dijk_pop {K : Type} [DecidableEq K] [Inhabited K] {g0 : Graph K} {start : K}
    {g : Graph K} {pq : PriorityQueue ℕ∞ K} {popped : List K}
    (hinv : DijkInv g0 start g pq popped) (hwf : GraphWF g0) (hstart : start ∈ g0.keys)
    (hs : 1 ≤ pq.size) :
    ∃ pq', pq.advance = some ((entryAt pq.internal_list 1).2, pq') ∧
      ¬ (entryAt pq.internal_list 1).2 ∈ popped ∧
      g.vdist (entryAt pq.internal_list 1).2
        = delta g0 start (entryAt pq.internal_list 1).2 ∧
      pq'.size = pq.size - 1 ∧
      DijkState g0 start g pq' (popped ++ [(entryAt pq.internal_list 1).2]) popped := by
  obtain ⟨pq', hadv, hqinv', hsz', hdesc', hlperm, _⟩ := advance_spec pq hinv.qinv hs
  obtain ⟨hlen, hheap⟩ := hinv.qinv
  obtain ⟨hn1, hn2, hmemof, hmemto, hpsub⟩ := dijk_keysplit hinv hwf.1
  have hrootmem : entryAt pq.internal_list 1 ∈ liveList pq :=
    entryAt_mem_tail pq.internal_list 1 le_rfl (by omega)
  have hrootsnd : (entryAt pq.internal_list 1).2 ∈ (liveList pq).map Prod.snd :=
    List.mem_map.mpr ⟨_, hrootmem, rfl⟩
  obtain ⟨hukeys, hunp⟩ := hmemto _ hrootsnd
  have hprio_u : (entryAt pq.internal_list 1).1 = g.vdist (entryAt pq.internal_list 1).2 :=
    hinv.prio _ hrootmem
  have hmin : ∀ y, y ∈ (liveList pq).map Prod.snd →
      g.vdist (entryAt pq.internal_list 1).2 ≤ g.vdist y := by
    intro y hy
    obtain ⟨e, he, hey⟩ := List.mem_map.mp hy
    obtain ⟨i, hi1, hil, hie⟩ := mem_tail_entryAt pq.internal_list e he
    have hroot := heap_root_min pq.descending pq.size pq.internal_list hheap i hi1 (by omega)
    rw [hinv.asc] at hroot
    have hroot2 : keyAt pq.internal_list 1 ≤ keyAt pq.internal_list i := by
      simpa [ordOK] using hroot
    unfold keyAt at hroot2
    rw [hie] at hroot2
    rw [← hprio_u, ← hey, ← hinv.prio e he]
    exact hroot2
  have hdeltaeq : g.vdist (entryAt pq.internal_list 1).2
      = delta g0 start (entryAt pq.internal_list 1).2 := by
    refine le_antisymm ?_ (dijkinv_delta_le hinv _)
    by_cases htop : delta g0 start (entryAt pq.internal_list 1).2 = ⊤
    · rw [htop]
      exact le_top
    · obtain ⟨c, hpc, hc⟩ := delta_attained g0 start _ htop
      obtain ⟨y, hynp, hyq, hyd⟩ := path_cut g0 start popped
        (fun y => y ∈ (liveList pq).map Prod.snd) g.vdist
        (dijkinv_delta_le hinv)
        (fun x v w hx hw => ⟨hinv.relaxed x hx v w hw,
          fun hvnp => hmemof v (closed_of_wf hwf hw) hvnp⟩)
        start _ c 0 hpc hunp (le_of_eq (delta_self g0 start))
        (fun hsnp => ⟨hmemof start hstart hsnp, le_of_eq hinv.start0⟩)
      calc g.vdist (entryAt pq.internal_list 1).2 ≤ g.vdist y := hmin y hyq
        _ ≤ 0 + (c : ℕ∞) := hyd
        _ = delta g0 start (entryAt pq.internal_list 1).2 := by rw [zero_add, hc]
  refine ⟨pq', hadv, hunp, hdeltaeq, hsz', ?_⟩
  have hlive' : ∀ e, e ∈ liveList pq' → e ∈ liveList pq := by
    intro e he
    exact hlperm.mem_iff.mp (List.mem_cons_of_mem _ he)
  refine {
    qinv := hqinv'
    asc := hdesc'.trans hinv.asc
    shape := hinv.shape
    livekeys := ?_
    prio := fun e he => hinv.prio e (hlive' e he)
    dist_popped := ?_
    dist_upper := hinv.dist_upper
    relaxed := hinv.relaxed
    start0 := hinv.start0
    pred_dist := ?_
    pred_chain := ?_
    pred_none := fun hf k hk hp => hinv.pred_none hf k hk hp }
  · have h1 : List.Perm ((liveList pq').map Prod.snd ++ (popped ++ [(entryAt pq.internal_list 1).2]))
        (((entryAt pq.internal_list 1).2 :: (liveList pq').map Prod.snd) ++ popped) := by
      have h2 : List.Perm ((liveList pq').map Prod.snd ++ ([(entryAt pq.internal_list 1).2] ++ popped))
          (((entryAt pq.internal_list 1).2 :: (liveList pq').map Prod.snd) ++ popped) := by
        rw [← List.append_assoc]
        exact List.Perm.append_right popped (List.perm_append_singleton _ _).symm.symm
      have h3 : List.Perm (popped ++ [(entryAt pq.internal_list 1).2])
          ([(entryAt pq.internal_list 1).2] ++ popped) := List.perm_append_comm
      exact ((List.Perm.append_left _ h3).trans h2)
    refine h1.trans ?_
    have h4 : List.Perm ((entryAt pq.internal_list 1).2 :: (liveList pq').map Prod.snd)
        ((liveList pq).map Prod.snd) := by
      have h5 := hlperm.map Prod.snd
      rw [List.map_cons] at h5
      exact h5
    exact (List.Perm.append_right popped h4).trans hinv.livekeys
  · intro k hk
    rcases List.mem_append.mp hk with h | h
    · exact hinv.dist_popped k h
    · rw [List.mem_singleton.mp h]
      exact hdeltaeq
  · intro hf k u hp
    obtain ⟨hu1, hu2⟩ := hinv.pred_dist hf k u hp
    exact ⟨List.mem_append.mpr (Or.inl hu1), hu2⟩
  · intro hf i hi u hp
    by_cases hilt : i < popped.length
    · have hgeti : (popped ++ [(entryAt pq.internal_list 1).2]).get ⟨i, hi⟩
          = popped.get ⟨i, hilt⟩ := by
        show (popped ++ [(entryAt pq.internal_list 1).2])[i] = popped[i]
        exact List.getElem_append_left hilt
      rw [hgeti] at hp
      obtain ⟨j, hj, hji, hje⟩ := hinv.pred_chain hf i hilt u hp
      refine ⟨j, by simp; omega, hji, ?_⟩
      show (popped ++ [(entryAt pq.internal_list 1).2])[j] = u
      rw [List.getElem_append_left hj]
      exact hje
    · have hieq : i = popped.length := by
        have := hi
        simp at this
        omega
      have hgeti : (popped ++ [(entryAt pq.internal_list 1).2]).get ⟨i, hi⟩
          = (entryAt pq.internal_list 1).2 := by
        show (popped ++ [(entryAt pq.internal_list 1).2])[i] = _
        rw [List.getElem_append_right (by omega)]
        simp [hieq]
      rw [hgeti] at hp
      obtain ⟨humem, _⟩ := hinv.pred_dist hf _ u hp
      obtain ⟨⟨j, hj⟩, hje⟩ := List.mem_iff_get.mp humem
      refine ⟨j, by simp; omega, by omega, ?_⟩
      show (popped ++ [(entryAt pq.internal_list 1).2])[j] = u
      rw [List.getElem_append_left hj]
      exact hje

theorem entryAt_mem {α β : Type} [Inhabited α] [Inhabited β] (l : List (α × β)) (i : ℕ)
    (h : i < l.length) : entryAt l i ∈ l := by
  unfold entryAt
  rw [List.getD_eq_getElem _ _ h]
  exact List.getElem_mem h

theorem mem_set_payload {α β : Type} [Inhabited α] [Inhabited β] (l : List (α × β))
    (hn : (l.map Prod.snd).Nodup) (i : ℕ) (hi : i < l.length) (a : α) (x : α × β)
    (hx : x ∈ l.set i (a, (entryAt l i).2)) :
    x = (a, (entryAt l i).2) ∨ (x ∈ l ∧ x.2 ≠ (entryAt l i).2) := by
  obtain ⟨j, hj, hje⟩ := List.getElem_of_mem hx
  rw [List.length_set] at hj
  by_cases hij : j = i
  · subst hij
    rw [List.getElem_set_self] at hje
    exact Or.inl hje.symm
  · rw [List.getElem_set_ne (fun hc => hij hc.symm)] at hje
    refine Or.inr ⟨hje ▸ List.getElem_mem hj, ?_⟩
    intro hcon
    have hent : (entryAt l i).2 = l[i].2 := by
      unfold entryAt
      rw [List.getD_eq_getElem _ _ hi]
    have hjm : j < (l.map Prod.snd).length := by simpa using hj
    have him : i < (l.map Prod.snd).length := by simpa using hi
    have h1 : (l.map Prod.snd)[j] = (l.map Prod.snd)[i] := by
      rw [List.getElem_map, List.getElem_map, hje, hcon, hent]
    exact hij ((List.Nodup.getElem_inj_iff hn).mp h1)

theorem dijk_relax_step {K : Type} [DecidableEq K] [Inhabited K] {g0 : Graph K} {start : K}
    {popped : List K} {u : K} (hwf : GraphWF g0)
    {g : Graph K} {pq : PriorityQueue ℕ∞ K}
    (hinv : DijkState g0 start g pq (popped ++ [u]) popped) (nk : K)
    {w : ℕ} (hw : edgeWeight g0 u nk = some w) :
    DijkState g0 start (relaxNeighbor u (g, pq) nk).1 (relaxNeighbor u (g, pq) nk).2
      (popped ++ [u]) popped ∧
    (relaxNeighbor u (g, pq) nk).2.size = pq.size ∧
    (∀ k, (relaxNeighbor u (g, pq) nk).1.vdist k ≤ g.vdist k) ∧
    (relaxNeighbor u (g, pq) nk).1.vdist nk ≤ delta g0 start u + (w : ℕ∞) := by
  have hupop : u ∈ popped ++ [u] := by simp
  have hukeys : u ∈ g0.keys := (dijk_keysplit hinv hwf.1).2.2.2.2 u hupop
  have hukeysg : u ∈ g.keys := by
    rw [keys_of_shape hinv.shape]
    exact hukeys
  obtain ⟨cur, hcur⟩ := dictGet_some_of_mem_fst g.vertex_list u hukeysg
  have hcur' : g.get_vertex u = some cur := hcur
  have hnkkeys : nk ∈ g0.keys := closed_of_wf hwf hw
  have hnkkeysg : nk ∈ g.keys := by
    rw [keys_of_shape hinv.shape]
    exact hnkkeys
  obtain ⟨next, hnext⟩ := dictGet_some_of_mem_fst g.vertex_list nk hnkkeysg
  have hnext' : g.get_vertex nk = some next := hnext
  have hdistu : cur.dist = delta g0 start u := by
    rw [← vdist_of_get_vertex g u cur hcur']
    exact hinv.dist_popped u hupop
  have hwg : edgeWeight g u nk = some w := by
    rw [shape_edgeWeight hinv.shape]
    exact hw
  have hgw : cur.get_weight nk = w := by
    unfold Vertex.get_weight
    have hdg : dictGet cur.connected_to nk = some w := by
      unfold edgeWeight at hwg
      rw [hcur'] at hwg
      exact hwg
    rw [hdg]
    rfl
  have hndist : next.dist = g.vdist nk := (vdist_of_get_vertex g nk next hnext').symm
  have hnd : cur.dist + ((cur.get_weight nk : ℕ) : ℕ∞) = delta g0 start u + (w : ℕ∞) := by
    rw [hdistu, hgw]
  have hred : relaxNeighbor u (g, pq) nk
      = if cur.dist + ((cur.get_weight nk : ℕ) : ℕ∞) < next.dist then
          ({ g with
              vertex_list := dictSet g.vertex_list nk
                { next with dist := cur.dist + ((cur.get_weight nk : ℕ) : ℕ∞),
                            predecessor := some u } },
            pq.decrease_key nk (cur.dist + ((cur.get_weight nk : ℕ) : ℕ∞)))
        else (g, pq) := by
    simp only [relaxNeighbor, hcur', hnext']
  rw [hred]
  by_cases hlt : cur.dist + ((cur.get_weight nk : ℕ) : ℕ∞) < next.dist
  · rw [if_pos hlt]
    have hltv : cur.dist + ((cur.get_weight nk : ℕ) : ℕ∞) < g.vdist nk := hndist ▸ hlt
    have hnk_notpop : ¬ nk ∈ popped ++ [u] := by
      intro hcon
      have heq := hinv.dist_popped nk hcon
      have htri := delta_triangle g0 start u nk w hw
      have : g.vdist nk ≤ cur.dist + ((cur.get_weight nk : ℕ) : ℕ∞) := by
        rw [heq, hnd]
        exact htri
      exact absurd hltv (not_lt.mpr this)
    have hnk_start : nk ≠ start := by
      intro hcon
      have h0 : g.vdist nk = 0 := by
        rw [hcon]
        exact hinv.start0
      rw [h0] at hltv
      simp at hltv
    have hstart_nk : start ≠ nk := fun hc => hnk_start hc.symm
    have nklive : nk ∈ (liveList pq).map Prod.snd :=
      (dijk_keysplit hinv hwf.1).2.2.1 nk hnkkeys hnk_notpop
    obtain ⟨p, hfp⟩ := find_position_some_of_mem pq nk hinv.qinv nklive
    obtain ⟨hp1, hps, hpe⟩ := find_position_spec pq nk p hfp
    obtain ⟨hdkq, hdks, hdkd, hdkz, _, _⟩ :=
      decrease_key_spec pq nk (cur.dist + ((cur.get_weight nk : ℕ) : ℕ∞)) hinv.qinv
    have hliveperm := liveList_decrease_key pq nk
      (cur.dist + ((cur.get_weight nk : ℕ) : ℕ∞)) hinv.qinv p hfp
    have hpe2 : (entryAt (liveList pq) (p - 1)).2 = nk := by
      unfold liveList
      rw [entryAt_tail, show p - 1 + 1 = p by omega]
      exact hpe
    have hpe3 : entryAt pq.internal_list p = entryAt (liveList pq) (p - 1) := by
      unfold liveList
      rw [entryAt_tail, show p - 1 + 1 = p by omega]
    rw [hpe3] at hliveperm
    have hplive : p - 1 < (liveList pq).length := by
      have hlen := hinv.qinv.1
      unfold liveList
      rw [List.length_tail]
      omega
    have hnodup := (dijk_keysplit hinv hwf.1).1
    have hmapsnd : ((liveList pq).set (p - 1)
        (cur.dist + ((cur.get_weight nk : ℕ) : ℕ∞), (entryAt (liveList pq) (p - 1)).2)).map
          Prod.snd = (liveList pq).map Prod.snd :=
      map_snd_set_snd (liveList pq) (p - 1) _ hplive
    have hndtop : cur.dist + ((cur.get_weight nk : ℕ) : ℕ∞) ≠ ⊤ := by
      intro hc
      rw [hc] at hlt
      exact absurd hlt (by simp)
    refine ⟨{
      qinv := hdkq
      asc := hdkd.trans hinv.asc
      shape := (shape_update g nk next _ (some u) hnext').trans hinv.shape
      livekeys := ?_
      prio := ?_
      dist_popped := ?_
      dist_upper := ?_
      relaxed := ?_
      start0 := ?_
      pred_dist := ?_
      pred_chain := ?_
      pred_none := ?_ }, hdks, ?_, ?_⟩
    · refine (List.Perm.append_right _ ((hliveperm.map Prod.snd).trans (by rw [hmapsnd]))).trans
        hinv.livekeys
    · intro e he
      have he2 := hliveperm.mem_iff.mp he
      rcases mem_set_payload (liveList pq) hnodup (p - 1) hplive _ e he2 with h1 | ⟨h1, h2⟩
      · rw [h1]
        show cur.dist + ((cur.get_weight nk : ℕ) : ℕ∞) = _
        rw [hpe2, vdist_update_self]
      · rw [hinv.prio e h1]
        rw [hpe2] at h2
        exact (vdist_update_ne g nk e.2 next _ (some u) h2).symm
    · intro k hk
      have hkne : k ≠ nk := fun hc => hnk_notpop (hc ▸ hk)
      rw [vdist_update_ne g nk k next _ (some u) hkne]
      exact hinv.dist_popped k hk
    · intro k hktop
      by_cases hkne : k = nk
      · subst hkne
        rw [vdist_update_self]
        have hdutop : delta g0 start u ≠ ⊤ := by
          intro hc
          rw [hnd, hc] at hndtop
          simp at hndtop
        obtain ⟨c, hpc, hc⟩ := delta_attained g0 start u hdutop
        refine ⟨c + w, ?_, pathCost_snoc g0 start u c hpc k w hw⟩
        rw [hnd, ← hc]
        push_cast
        rfl
      · rw [vdist_update_ne g nk k next _ (some u) hkne] at hktop ⊢
        exact hinv.dist_upper k hktop
    · intro x hx v w2 hw2
      by_cases hvne : v = nk
      · subst hvne
        rw [vdist_update_self]
        have hold := hinv.relaxed x hx v w2 hw2
        exact le_of_lt (lt_of_lt_of_le hltv hold)
      · rw [vdist_update_ne g nk v next _ (some u) hvne]
        exact hinv.relaxed x hx v w2 hw2
    · rw [vdist_update_ne g nk start next _ (some u) hstart_nk]
      exact hinv.start0
    · intro hf k u2 hp
      by_cases hkne : k = nk
      · subst hkne
        rw [vpred_update_self] at hp
        cases hp
        refine ⟨hupop, w, hw, ?_⟩
        rw [vdist_update_self, hnd]
      · rw [vpred_update_ne g nk k next _ (some u) hkne] at hp
        obtain ⟨h1, w2, h2, h3⟩ := hinv.pred_dist hf k u2 hp
        refine ⟨h1, w2, h2, ?_⟩
        rw [vdist_update_ne g nk k next _ (some u) hkne]
        exact h3
    · intro hf i hi u2 hp
      have hmemi : (popped ++ [u]).get ⟨i, hi⟩ ∈ popped ++ [u] := List.get_mem _ _ _
      have hne : (popped ++ [u]).get ⟨i, hi⟩ ≠ nk := fun hc => hnk_notpop (hc ▸ hmemi)
      rw [vpred_update_ne g nk _ next _ (some u) hne] at hp
      exact hinv.pred_chain hf i hi u2 hp
    · intro hf k hk hp
      by_cases hkne : k = nk
      · subst hkne
        rw [vpred_update_self] at hp
        cases hp
      · rw [vpred_update_ne g nk k next _ (some u) hkne] at hp
        rw [vdist_update_ne g nk k next _ (some u) hkne]
        exact hinv.pred_none hf k hk hp
    · intro k
      by_cases hkne : k = nk
      · subst hkne
        rw [vdist_update_self]
        exact le_of_lt hltv
      · rw [vdist_update_ne g nk k next _ (some u) hkne]
    · rw [vdist_update_self, hnd]
  · rw [if_neg hlt]
    refine ⟨hinv, rfl, fun k => le_rfl, ?_⟩
    show g.vdist nk ≤ _
    rw [← hnd, ← hndist]
    exact not_lt.mp hlt

theorem dijk_fold {K : Type} [DecidableEq K] [Inhabited K] {g0 : Graph K} {start : K}
    {popped : List K} {u : K} (hwf : GraphWF g0) :
    ∀ (conns : List K) (g : Graph K) (pq : PriorityQueue ℕ∞ K),
      DijkState g0 start g pq (popped ++ [u]) popped →
      (∀ nk ∈ conns, ∃ w, edgeWeight g0 u nk = some w) →
      DijkState g0 start (conns.foldl (relaxNeighbor u) (g, pq)).1
        (conns.foldl (relaxNeighbor u) (g, pq)).2 (popped ++ [u]) popped ∧
      (conns.foldl (relaxNeighbor u) (g, pq)).2.size = pq.size ∧
      (∀ k, (conns.foldl (relaxNeighbor u) (g, pq)).1.vdist k ≤ g.vdist k) ∧
      (∀ nk ∈ conns, ∀ w, edgeWeight g0 u nk = some w →
        (conns.foldl (relaxNeighbor u) (g, pq)).1.vdist nk ≤ delta g0 start u + (w : ℕ∞)) := by
  intro conns
  induction conns with
  | nil =>
    intro g pq hinv _
    exact ⟨hinv, rfl, fun k => le_rfl, fun nk hnk => absurd hnk (by simp)⟩
  | cons nk rest ih =>
    intro g pq hinv hconn
    obtain ⟨w, hw⟩ := hconn nk (List.mem_cons_self nk rest)
    obtain ⟨hst1, hsz1, hmono1, hbound1⟩ := dijk_relax_step hwf hinv nk hw
    obtain ⟨hst2, hsz2, hmono2, hbound2⟩ := ih (relaxNeighbor u (g, pq) nk).1
      (relaxNeighbor u (g, pq) nk).2 hst1
      (fun nk2 hnk2 => hconn nk2 (List.mem_cons_of_mem nk hnk2))
    have hfold : (nk :: rest).foldl (relaxNeighbor u) (g, pq)
        = rest.foldl (relaxNeighbor u)
          ((relaxNeighbor u (g, pq) nk).1, (relaxNeighbor u (g, pq) nk).2) := rfl
    rw [hfold]
    refine ⟨hst2, hsz2.trans hsz1, fun k => (hmono2 k).trans (hmono1 k), ?_⟩
    intro nk2 hnk2 w2 hw2
    rcases List.mem_cons.mp hnk2 with h1 | h1
    · subst h1
      have hweq : w2 = w := by
        rw [hw] at hw2
        cases hw2
        rfl
      subst hweq
      exact (hmono2 nk2).trans hbound1
    · exact hbound2 nk2 h1 w2 hw2

theorem dijk_loop {K : Type} [DecidableEq K] [Inhabited K] {g0 : Graph K} {start endK : K}
    (hwf : GraphWF g0) (hstart : start ∈ g0.keys) :
    ∀ (fuel : ℕ) (g : Graph K) (pq : PriorityQueue ℕ∞ K) (popped : List K),
      DijkInv g0 start g pq popped → pq.size ≤ fuel →
      ∃ pq2 R, DijkState g0 start (dijkstraLoop endK fuel g pq popped).1 pq2
          (dijkstraLoop endK fuel g pq popped).2 R ∧
        (endK ∈ (dijkstraLoop endK fuel g pq popped).2 ∨
          List.Perm (dijkstraLoop endK fuel g pq popped).2 g0.keys) := by
  intro fuel
  induction fuel with
  | zero =>
    intro g pq popped hinv hfuel
    have hsz : pq.size = 0 := by omega
    have hlive : liveList pq = [] := by
      have hlen := hinv.qinv.1
      apply List.eq_nil_of_length_eq_zero
      unfold liveList
      rw [List.length_tail, hlen, hsz]
    have hperm : List.Perm popped g0.keys := by
      have h := hinv.livekeys
      rw [hlive] at h
      simpa using h
    exact ⟨pq, popped, hinv, Or.inr hperm⟩
  | succ fuel ih =>
    intro g pq popped hinv hfuel
    by_cases hsz : pq.size = 0
    · have hempty : pq.empty = true := by
        unfold PriorityQueue.empty
        simp [hsz]
      have hred : dijkstraLoop endK (fuel + 1) g pq popped = (g, popped) := by
        simp only [dijkstraLoop, hempty, if_true]
      rw [hred]
      have hlive : liveList pq = [] := by
        have hlen := hinv.qinv.1
        apply List.eq_nil_of_length_eq_zero
        unfold liveList
        rw [List.length_tail, hlen, hsz]
      have hperm : List.Perm popped g0.keys := by
        have h := hinv.livekeys
        rw [hlive] at h
        simpa using h
      exact ⟨pq, popped, hinv, Or.inr hperm⟩
    · have hempty : pq.empty = false := by
        unfold PriorityQueue.empty
        simp [hsz]
      obtain ⟨pq', hadv, hunotpop, hdelta, hsz', hmid⟩ :=
        dijk_pop hinv hwf hstart (by omega)
      have hukeys : (entryAt pq.internal_list 1).2 ∈ g0.keys :=
        (dijk_keysplit hmid hwf.1).2.2.2.2 _ (by simp)
      have hukeysg : (entryAt pq.internal_list 1).2 ∈ g.keys := by
        rw [keys_of_shape hmid.shape]
        exact hukeys
      obtain ⟨cur, hcur⟩ := dictGet_some_of_mem_fst g.vertex_list _ hukeysg
      have hcur' : g.get_vertex (entryAt pq.internal_list 1).2 = some cur := hcur
      by_cases hend : (entryAt pq.internal_list 1).2 = endK
      · have hred : dijkstraLoop endK (fuel + 1) g pq popped
            = (g, popped ++ [(entryAt pq.internal_list 1).2]) := by
          simp only [dijkstraLoop, hempty, Bool.false_eq_true, if_false, hadv, hend, if_true]
        rw [hred]
        exact ⟨pq', popped, hmid, Or.inl (by simp [hend])⟩
      · have hred : dijkstraLoop endK (fuel + 1) g pq popped
            = dijkstraLoop endK fuel
              ((cur.get_connections).foldl
                (relaxNeighbor (entryAt pq.internal_list 1).2) (g, pq')).1
              ((cur.get_connections).foldl
                (relaxNeighbor (entryAt pq.internal_list 1).2) (g, pq')).2
              (popped ++ [(entryAt pq.internal_list 1).2]) := by
          simp only [dijkstraLoop, hempty, Bool.false_eq_true, if_false, hadv, hcur',
            if_neg hend]
        rw [hred]
        have hconn : ∀ nk ∈ cur.get_connections,
            ∃ w, edgeWeight g0 (entryAt pq.internal_list 1).2 nk = some w := by
          intro nk hnk
          obtain ⟨w, hw⟩ := dictGet_some_of_mem_fst cur.connected_to nk hnk
          refine ⟨w, ?_⟩
          rw [← shape_edgeWeight hmid.shape]
          have hgoal : edgeWeight g (entryAt pq.internal_list 1).2 nk = some w := by
            simp only [edgeWeight, hcur']
            exact hw
          exact hgoal
        obtain ⟨hst1, hsz1, hmono1, hbound1⟩ := dijk_fold hwf cur.get_connections g pq'
          hmid hconn
        have hrelaxed : ∀ x, x ∈ popped ++ [(entryAt pq.internal_list 1).2] →
            ∀ v w, edgeWeight g0 x v = some w →
            ((cur.get_connections).foldl
              (relaxNeighbor (entryAt pq.internal_list 1).2) (g, pq')).1.vdist v
              ≤ delta g0 start x + (w : ℕ∞) := by
          intro x hx v w hw
          rcases List.mem_append.mp hx with h1 | h1
          · exact hst1.relaxed x h1 v w hw
          · have hx1 : x = (entryAt pq.internal_list 1).2 := List.mem_singleton.mp h1
            subst hx1
            have hmemv : v ∈ cur.get_connections := by
              have hwg : edgeWeight g (entryAt pq.internal_list 1).2 v = some w := by
                rw [shape_edgeWeight hmid.shape]
                exact hw
              have hwg2 : dictGet cur.connected_to v = some w := by
                simp only [edgeWeight, hcur'] at hwg
                exact hwg
              exact mem_fst_of_dictGet cur.connected_to v w hwg2
            exact hbound1 v hmemv w hw
        have hinv1 : DijkInv g0 start
            ((cur.get_connections).foldl
              (relaxNeighbor (entryAt pq.internal_list 1).2) (g, pq')).1
            ((cur.get_connections).foldl
              (relaxNeighbor (entryAt pq.internal_list 1).2) (g, pq')).2
            (popped ++ [(entryAt pq.internal_list 1).2]) :=
          { hst1 with relaxed := hrelaxed }
        exact ih _ _ _ hinv1 (by omega)

theorem keyfix_resetDists {K : Type} [DecidableEq K] {g : Graph K}
    (h : ∀ p ∈ g.vertex_list, p.2.key = p.1) :
    ∀ p ∈ g.resetDists.vertex_list, p.2.key = p.1 := by
  intro p hp
  obtain ⟨q, hq, hqe⟩ := List.mem_map.mp hp
  rw [← hqe]
  exact h q hq

theorem keyfix_setDist {K : Type} [DecidableEq K] {g : Graph K} (k : K) (d : ℕ∞)
    (h : ∀ p ∈ g.vertex_list, p.2.key = p.1) :
    ∀ p ∈ (g.setDist k d).vertex_list, p.2.key = p.1 := by
  intro p hp
  unfold Graph.setDist at hp
  cases hg : dictGet g.vertex_list k with
  | none =>
    rw [hg] at hp
    exact h p hp
  | some v =>
    rw [hg] at hp
    rcases mem_dictSet k _ g.vertex_list p hp with h1 | h1
    · rw [h1]
      exact h (k, v) (dictGet_eq_some_mem _ _ _ hg)
    · exact h p h1

theorem verts_key_map {K : Type} [DecidableEq K] {g : Graph K}
    (h : ∀ p ∈ g.vertex_list, p.2.key = p.1) : g.verts.map Vertex.key = g.keys := by
  unfold Graph.verts Graph.keys
  rw [List.map_map]
  exact List.map_congr_left h

theorem build_heap_live {α β : Type} [LinearOrder α] [Inhabited α] [Inhabited β]
    [DecidableEq α] [DecidableEq β] (q : PriorityQueue α β) (entries : List (α × β)) :
    List.Perm (liveList (q.build_heap entries)) entries := by
  obtain ⟨hq, _, _, hperm, hzero⟩ := build_heap_spec q entries
  obtain ⟨hlen, _⟩ := hq
  have hne : (q.build_heap entries).internal_list ≠ [] := by
    intro hcon
    rw [hcon] at hlen
    simp at hlen
  have hh : (q.build_heap entries).internal_list.head?
      = ((default, default) :: entries : List (α × β)).head? := by
    rw [entryAt_eq_head _ (by rw [hlen]; omega), hzero]
    rfl
  have hta := tail_perm_of_perm_head _ _ hperm hh hne
  simpa [liveList] using hta

theorem dijk_init {K : Type} [DecidableEq K] [Inhabited K] (graph : Graph K)
    (start : K) (hwf : GraphWF graph) (hstart : start ∈ graph.keys) :
    DijkInv graph start ((graph.resetDists).setDist start 0)
      ((PriorityQueue.new ℕ∞ K false).build_heap
        ((((graph.resetDists).setDist start 0).verts).map (fun v => (v.dist, v.key))))
      [] := by
  obtain ⟨hnd, hkf, hcl⟩ := hwf
  set g2 := (graph.resetDists).setDist start 0 with hg2
  set E := (g2.verts).map (fun v => (v.dist, v.key)) with hE
  set pq := (PriorityQueue.new ℕ∞ K false).build_heap E with hpq
  have hshape : graphShape g2 = graphShape graph := by
    rw [hg2]
    exact (shape_setDist _ _ _).trans (shape_resetDists _)
  have hkeys : g2.keys = graph.keys := keys_of_shape hshape
  have hkf2 : ∀ p ∈ g2.vertex_list, p.2.key = p.1 := by
    rw [hg2]
    exact keyfix_setDist start 0 (keyfix_resetDists hkf)
  have hstart_r : start ∈ graph.resetDists.keys := by
    rw [keys_of_shape (shape_resetDists graph)]
    exact hstart
  obtain ⟨v0, hv0⟩ := dictGet_some_of_mem_fst graph.resetDists.vertex_list start hstart_r
  have hv0' : graph.resetDists.get_vertex start = some v0 := hv0
  have hd0 : g2.vdist start = 0 := by
    rw [hg2]
    exact vdist_setDist_self _ start 0 v0 hv0'
  have hdtop : ∀ k, k ≠ start → g2.vdist k = ⊤ := by
    intro k hk
    rw [hg2, vdist_setDist_ne _ _ _ _ hk, vdist_resetDists]
  have hpredeq : ∀ k, g2.vpred k = graph.vpred k := by
    intro k
    rw [hg2, vpred_setDist, vpred_resetDists]
  obtain ⟨hqinv, hsize, hdesc, _, _⟩ := build_heap_spec (PriorityQueue.new ℕ∞ K false) E
  have hlive : List.Perm (liveList pq) E := build_heap_live _ E
  have hEkeys : E.map Prod.snd = graph.keys := by
    rw [hE, List.map_map, ← hkeys]
    exact verts_key_map hkf2
  have hprednone : FreshPreds graph → ∀ k, g2.vpred k = none := by
    intro hf k
    rw [hpredeq]
    unfold Graph.vpred
    cases hgk : graph.get_vertex k with
    | none => rfl
    | some v =>
      show v.predecessor = none
      exact hf (k, v) (dictGet_eq_some_mem _ _ _ hgk)
  refine {
    qinv := hqinv
    asc := hdesc.trans rfl
    shape := hshape
    livekeys := ?_
    prio := ?_
    dist_popped := fun k hk => absurd hk (by simp)
    dist_upper := ?_
    relaxed := fun x hx => absurd hx (by simp)
    start0 := hd0
    pred_dist := ?_
    pred_chain := ?_
    pred_none := ?_ }
  · rw [List.append_nil]
    exact (hlive.map Prod.snd).trans (by rw [hEkeys])
  · intro e he
    have heE : e ∈ E := hlive.mem_iff.mp he
    rw [hE] at heE
    obtain ⟨v, hv, hve⟩ := List.mem_map.mp heE
    obtain ⟨p, hp, hpv⟩ := List.mem_map.mp hv
    have hget : g2.get_vertex p.1 = some p.2 :=
      get_vertex_of_mem (by rw [hkeys]; exact hnd) hp
    rw [← hve]
    show v.dist = g2.vdist v.key
    rw [← hpv, hkf2 p hp, vdist_of_get_vertex g2 p.1 p.2 hget]
  · intro k hktop
    by_cases hks : k = start
    · subst hks
      refine ⟨0, ?_, IsPathCost.refl k⟩
      rw [hd0]
      simp
    · exact absurd (hdtop k hks) hktop
  · intro hf k u hp
    rw [hprednone hf k] at hp
    cases hp
  · intro hf i hi
    simp at hi
  · intro hf k hk hp
    by_cases hks : k = start
    · exact Or.inl hks
    · exact Or.inr (hdtop k hks)

/-- C1 (amended): for every well-formed graph (the weights, being naturals,
are all non-negative) and every start vertex present in it, after
`dijkstras_algorithm(graph, start, end)` returns, the distance stored at
every vertex settled by the run (every popped vertex — in particular the
end vertex whenever the loop reached it) equals the true shortest-path cost
from start to that vertex; moreover the run settles every vertex of the
graph unless it stopped early at the end vertex.  The claim as frozen —
correctness at every *reachable* vertex — is refuted by
the early-exit counterexample. -/
theorem dijkstra_settled_correct {K : Type} [DecidableEq K] [Inhabited K]
    (graph : Graph K) (start endK : K) (hwf : GraphWF graph)
    (hstart : start ∈ graph.keys) :
    (∀ k ∈ (dijkstras_algorithm graph start endK).2,
      (dijkstras_algorithm graph start endK).1.vdist k = delta graph start k) ∧
    (endK ∈ (dijkstras_algorithm graph start endK).2 ∨
      List.Perm (dijkstras_algorithm graph start endK).2 graph.keys) := by
  have hun : dijkstras_algorithm graph start endK
      = dijkstraLoop endK
        (((PriorityQueue.new ℕ∞ K false).build_heap
          ((((graph.resetDists).setDist start 0).verts).map
            (fun v => (v.dist, v.key)))).size + 1)
        ((graph.resetDists).setDist start 0)
        ((PriorityQueue.new ℕ∞ K false).build_heap
          ((((graph.resetDists).setDist start 0).verts).map
            (fun v => (v.dist, v.key))))
        [] := rfl
  rw [hun]
  obtain ⟨pq2, R, hfinal, hor⟩ := @dijk_loop K _ _ graph start endK hwf hstart
    (((PriorityQueue.new ℕ∞ K false).build_heap
      ((((graph.resetDists).setDist start 0).verts).map
        (fun v => (v.dist, v.key)))).size + 1)
    ((graph.resetDists).setDist start 0)
    ((PriorityQueue.new ℕ∞ K false).build_heap
      ((((graph.resetDists).setDist start 0).verts).map
        (fun v => (v.dist, v.key))))
    [] (dijk_init graph start hwf hstart) (by omega)
  exact ⟨fun k hk => hfinal.dist_popped k hk, hor⟩

theorem dijkstra_settled_correct_witness :
    GraphWF (build_graph_from_list [(0, 1, 10), (0, 2, 1), (2, 1, 1)]) ∧
    0 ∈ (build_graph_from_list [(0, 1, 10), (0, 2, 1), (2, 1, 1)]).keys ∧
    ((∀ k ∈ (dijkstras_algorithm
        (build_graph_from_list [(0, 1, 10), (0, 2, 1), (2, 1, 1)]) 0 2).2,
      (dijkstras_algorithm
        (build_graph_from_list [(0, 1, 10), (0, 2, 1), (2, 1, 1)]) 0 2).1.vdist k
        = delta (build_graph_from_list [(0, 1, 10), (0, 2, 1), (2, 1, 1)]) 0 k) ∧
    (2 ∈ (dijkstras_algorithm
        (build_graph_from_list [(0, 1, 10), (0, 2, 1), (2, 1, 1)]) 0 2).2 ∨
      List.Perm (dijkstras_algorithm
        (build_graph_from_list [(0, 1, 10), (0, 2, 1), (2, 1, 1)]) 0 2).2
        (build_graph_from_list [(0, 1, 10), (0, 2, 1), (2, 1, 1)]).keys)) :=
  ⟨by unfold GraphWF; decide, by decide,
    dijkstra_settled_correct (build_graph_from_list [(0, 1, 10), (0, 2, 1), (2, 1, 1)])
      0 2 (by unfold GraphWF; decide) (by decide)⟩

/-- Total weight of a vertex sequence along recorded edges: `none` if some
consecutive pair is not an edge. -/
def pathWeight {K : Type} [DecidableEq K] (g : Graph K) : List K → Option ℕ
  | [] => some 0
  | [_] => some 0
  | a :: b :: rest =>
    match edgeWeight g a b, pathWeight g (b :: rest) with
    | some w, some c => some (w + c)
    | _, _ => none

theorem head?_append_of_head? {γ : Type} (l1 l2 : List γ) (a : γ)
    (h : l1.head? = some a) : (l1 ++ l2).head? = some a := by
  cases l1 with
  | nil => cases h
  | cons x t =>
    simp only [List.head?_cons, Option.some.injEq] at h
    simp [h]

theorem pathWeight_snoc {K : Type} [DecidableEq K] (g : Graph K) :
    ∀ (xs : List K) (u y : K) (w c : ℕ), xs.getLast? = some u →
      pathWeight g xs = some c → edgeWeight g u y = some w →
      pathWeight g (xs ++ [y]) = some (c + w) := by
  intro xs
  induction xs with
  | nil =>
    intro u y w c hlast
    cases hlast
  | cons a rest ih =>
    intro u y w c hlast hpw hedge
    cases rest with
    | nil =>
      have hua : u = a := by
        simp at hlast
        exact hlast.symm
      have hc0 : c = 0 := by
        have : pathWeight g [a] = some 0 := rfl
        rw [hpw] at this
        cases this
        rfl
      subst hua hc0
      show pathWeight g [u, y] = some (0 + w)
      show (match edgeWeight g u y, pathWeight g [y] with
        | some w, some c => some (w + c) | _, _ => none) = some (0 + w)
      rw [hedge]
      show some (w + 0) = some (0 + w)
      rw [Nat.add_comm]
    | cons b rest2 =>
      have hlast2 : (b :: rest2).getLast? = some u := by
        rw [List.getLast?_cons_cons] at hlast
        exact hlast
      have hpw2 : ∃ w0 c0, edgeWeight g a b = some w0 ∧
          pathWeight g (b :: rest2) = some c0 ∧ c = w0 + c0 := by
        have hdef : pathWeight g (a :: b :: rest2)
            = match edgeWeight g a b, pathWeight g (b :: rest2) with
              | some w, some c => some (w + c) | _, _ => none := rfl
        rw [hdef] at hpw
        cases hw0 : edgeWeight g a b with
        | none =>
          rw [hw0] at hpw
          cases hpw
        | some w0 =>
          cases hc0 : pathWeight g (b :: rest2) with
          | none =>
            rw [hw0, hc0] at hpw
            cases hpw
          | some c0 =>
            rw [hw0, hc0] at hpw
            cases hpw
            exact ⟨w0, c0, rfl, rfl, rfl⟩
      obtain ⟨w0, c0, hw0, hc0, hcc⟩ := hpw2
      have hih := ih u y w c0 hlast2 hc0 hedge
      show pathWeight g (a :: (b :: rest2 ++ [y])) = some (c + w)
      have hdef2 : pathWeight g (a :: (b :: rest2 ++ [y]))
          = match edgeWeight g a b, pathWeight g (b :: rest2 ++ [y]) with
            | some w, some c => some (w + c) | _, _ => none := rfl
      rw [hdef2, hw0]
      have hih' : pathWeight g (b :: rest2 ++ [y]) = some (c0 + w) := hih
      rw [hih']
      rw [hcc]
      show some (w0 + (c0 + w)) = some ((w0 + c0) + w)
      rw [Nat.add_assoc]

theorem dijk_chain {K : Type} [DecidableEq K] [Inhabited K] {g0 : Graph K} {start : K}
    {g : Graph K} {pq : PriorityQueue ℕ∞ K} {popped R : List K}
    (hst : DijkState g0 start g pq popped R) (hwf : GraphWF g0) (hf : FreshPreds g0) :
    ∀ i, ∀ hi : i < popped.length, ∀ fuel, i + 1 ≤ fuel → ∀ acc : List K,
      g.vdist (popped.get ⟨i, hi⟩) ≠ ⊤ →
      ∃ rev : List K, getPathLoop g fuel (popped.get ⟨i, hi⟩) acc = acc ++ rev ∧
        (rev.reverse ++ [popped.get ⟨i, hi⟩]).head? = some start ∧
        ∃ c : ℕ, pathWeight g0 (rev.reverse ++ [popped.get ⟨i, hi⟩]) = some c ∧
          (c : ℕ∞) = g.vdist (popped.get ⟨i, hi⟩) := by
  intro i
  induction i using Nat.strong_induction_on with
  | _ i ih =>
    intro hi fuel hfuel acc htop
    cases fuel with
    | zero => omega
    | succ f =>
      have hkmem : popped.get ⟨i, hi⟩ ∈ popped := List.get_mem _ _ _
      have hkkeys : popped.get ⟨i, hi⟩ ∈ g0.keys :=
        (dijk_keysplit hst hwf.1).2.2.2.2 _ hkmem
      have hkkeysg : popped.get ⟨i, hi⟩ ∈ g.keys := by
        rw [keys_of_shape hst.shape]
        exact hkkeys
      obtain ⟨vk, hvk⟩ := dictGet_some_of_mem_fst g.vertex_list _ hkkeysg
      have hvk' : g.get_vertex (popped.get ⟨i, hi⟩) = some vk := hvk
      have hpredk : g.vpred (popped.get ⟨i, hi⟩) = vk.predecessor :=
        vpred_of_get_vertex g _ vk hvk'
      cases hpred : vk.predecessor with
      | none =>
        have hred : getPathLoop g (f + 1) (popped.get ⟨i, hi⟩) acc = acc := by
          simp only [getPathLoop, hvk', hpred]
        rw [hred]
        have hks : popped.get ⟨i, hi⟩ = start := by
          rcases hst.pred_none hf _ hkkeys (hpredk.trans hpred) with h | h
          · exact h
          · exact absurd h htop
        refine ⟨[], by simp, by simp; exact hks, 0, rfl, ?_⟩
        rw [hks, hst.start0]
        simp
      | some u =>
        obtain ⟨humem, w, hwe, hvd⟩ := hst.pred_dist hf _ u (hpredk.trans hpred)
        obtain ⟨j, hj, hji, hje⟩ := hst.pred_chain hf i hi u (hpredk.trans hpred)
        have hdu : g.vdist u = delta g0 start u := hst.dist_popped u humem
        have hvd2 : g.vdist (popped.get ⟨i, hi⟩) = g.vdist u + (w : ℕ∞) := by
          rw [hvd, hdu]
        have hutop : g.vdist u ≠ ⊤ := by
          intro hc
          rw [hvd2, hc] at htop
          simp at htop
        have hred : getPathLoop g (f + 1) (popped.get ⟨i, hi⟩) acc
            = getPathLoop g f u (acc ++ [u]) := by
          simp only [getPathLoop, hvk', hpred]
        rw [hred]
        have hjtop : g.vdist (popped.get ⟨j, hj⟩) ≠ ⊤ := by
          rw [hje]
          exact hutop
        obtain ⟨rev', heq, hhead, c', hpw', hc'⟩ :=
          ih j hji hj f (by omega) (acc ++ [u]) hjtop
        rw [hje] at heq hhead hpw' hc'
        refine ⟨u :: rev', ?_, ?_, c' + w, ?_, ?_⟩
        · rw [heq, List.append_assoc]
          rfl
        · rw [List.reverse_cons]
          exact head?_append_of_head? _ _ start hhead
        · rw [List.reverse_cons]
          exact pathWeight_snoc g0 (rev'.reverse ++ [u]) u (popped.get ⟨i, hi⟩) w c'
            (List.getLast?_concat _) hpw' hwe
        · rw [hvd2, ← hc']
          push_cast
          rfl

/-- C7: on a well-formed graph whose predecessor fields started clear (the
reset prologue never clears them, see C4), with both endpoints present,
after a `dijkstras_algorithm` run that reached the target (finite reported
distance), `get_path` on the resulting graph returns a key sequence that
starts at the source, ends at the target, follows recorded edges at every
consecutive pair, and whose edge weights sum to exactly the target's
reported distance. -/
theorem get_path_roundtrip {K : Type} [DecidableEq K] [Inhabited K]
    (graph : Graph K) (start endK : K) (hwf : GraphWF graph)
    (hstart : start ∈ graph.keys) (hendk : endK ∈ graph.keys)
    (hfresh : FreshPreds graph)
    (hreach : (dijkstras_algorithm graph start endK).1.vdist endK ≠ ⊤) :
    ∃ c : ℕ,
      (get_path (dijkstras_algorithm graph start endK).1 endK).head? = some start ∧
      (get_path (dijkstras_algorithm graph start endK).1 endK).getLast? = some endK ∧
      pathWeight graph (get_path (dijkstras_algorithm graph start endK).1 endK) = some c ∧
      (c : ℕ∞) = (dijkstras_algorithm graph start endK).1.vdist endK := by
  have hun : dijkstras_algorithm graph start endK
      = dijkstraLoop endK
        (((PriorityQueue.new ℕ∞ K false).build_heap
          ((((graph.resetDists).setDist start 0).verts).map
            (fun v => (v.dist, v.key)))).size + 1)
        ((graph.resetDists).setDist start 0)
        ((PriorityQueue.new ℕ∞ K false).build_heap
          ((((graph.resetDists).setDist start 0).verts).map
            (fun v => (v.dist, v.key))))
        [] := rfl
  rw [hun] at hreach ⊢
  obtain ⟨pq2, R, hfinal, hor⟩ := @dijk_loop K _ _ graph start endK hwf hstart
    (((PriorityQueue.new ℕ∞ K false).build_heap
      ((((graph.resetDists).setDist start 0).verts).map
        (fun v => (v.dist, v.key)))).size + 1)
    ((graph.resetDists).setDist start 0)
    ((PriorityQueue.new ℕ∞ K false).build_heap
      ((((graph.resetDists).setDist start 0).verts).map
        (fun v => (v.dist, v.key))))
    [] (dijk_init graph start hwf hstart) (by omega)
  have hendpop : endK ∈ (dijkstraLoop endK
      (((PriorityQueue.new ℕ∞ K false).build_heap
        ((((graph.resetDists).setDist start 0).verts).map
          (fun v => (v.dist, v.key)))).size + 1)
      ((graph.resetDists).setDist start 0)
      ((PriorityQueue.new ℕ∞ K false).build_heap
        ((((graph.resetDists).setDist start 0).verts).map
          (fun v => (v.dist, v.key))))
      []).2 := by
    rcases hor with h | h
    · exact h
    · exact h.symm.mem_iff.mp hendk
  obtain ⟨⟨i, hi⟩, hget⟩ := List.mem_iff_get.mp hendpop
  have hlenkeys : graph.keys.length =
      (dijkstraLoop endK
        (((PriorityQueue.new ℕ∞ K false).build_heap
          ((((graph.resetDists).setDist start 0).verts).map
            (fun v => (v.dist, v.key)))).size + 1)
        ((graph.resetDists).setDist start 0)
        ((PriorityQueue.new ℕ∞ K false).build_heap
          ((((graph.resetDists).setDist start 0).verts).map
            (fun v => (v.dist, v.key))))
        []).1.vertex_list.length := by
    have h1 := congrArg List.length hfinal.shape
    unfold graphShape at h1
    rw [List.length_map, List.length_map] at h1
    unfold Graph.keys
    rw [List.length_map]
    exact h1.symm
  have hpoplen : (dijkstraLoop endK
      (((PriorityQueue.new ℕ∞ K false).build_heap
        ((((graph.resetDists).setDist start 0).verts).map
          (fun v => (v.dist, v.key)))).size + 1)
      ((graph.resetDists).setDist start 0)
      ((PriorityQueue.new ℕ∞ K false).build_heap
        ((((graph.resetDists).setDist start 0).verts).map
          (fun v => (v.dist, v.key))))
      []).2.length ≤ graph.keys.length := by
    have h1 := hfinal.livekeys.length_eq
    rw [List.length_append] at h1
    omega
  have htop : (dijkstraLoop endK
      (((PriorityQueue.new ℕ∞ K false).build_heap
        ((((graph.resetDists).setDist start 0).verts).map
          (fun v => (v.dist, v.key)))).size + 1)
      ((graph.resetDists).setDist start 0)
      ((PriorityQueue.new ℕ∞ K false).build_heap
        ((((graph.resetDists).setDist start 0).verts).map
          (fun v => (v.dist, v.key))))
      []).1.vdist ((dijkstraLoop endK
      (((PriorityQueue.new ℕ∞ K false).build_heap
        ((((graph.resetDists).setDist start 0).verts).map
          (fun v => (v.dist, v.key)))).size + 1)
      ((graph.resetDists).setDist start 0)
      ((PriorityQueue.new ℕ∞ K false).build_heap
        ((((graph.resetDists).setDist start 0).verts).map
          (fun v => (v.dist, v.key))))
      []).2.get ⟨i, hi⟩) ≠ ⊤ := by
    rw [hget]
    exact hreach
  obtain ⟨rev, heq, hhead, c, hpw, hc⟩ := dijk_chain hfinal hwf hfresh i hi
    ((dijkstraLoop endK
      (((PriorityQueue.new ℕ∞ K false).build_heap
        ((((graph.resetDists).setDist start 0).verts).map
          (fun v => (v.dist, v.key)))).size + 1)
      ((graph.resetDists).setDist start 0)
      ((PriorityQueue.new ℕ∞ K false).build_heap
        ((((graph.resetDists).setDist start 0).verts).map
          (fun v => (v.dist, v.key))))
      []).1.vertex_list.length + 1) (by omega) [endK] htop
  rw [hget] at heq hhead hpw hc
  have hgp : get_path (dijkstraLoop endK
      (((PriorityQueue.new ℕ∞ K false).build_heap
        ((((graph.resetDists).setDist start 0).verts).map
          (fun v => (v.dist, v.key)))).size + 1)
      ((graph.resetDists).setDist start 0)
      ((PriorityQueue.new ℕ∞ K false).build_heap
        ((((graph.resetDists).setDist start 0).verts).map
          (fun v => (v.dist, v.key))))
      []).1 endK = rev.reverse ++ [endK] := by
    unfold get_path
    rw [heq]
    show ([endK] ++ rev).reverse = _
    rw [List.reverse_append]
    rfl
  rw [hgp]
  exact ⟨c, hhead, List.getLast?_concat _, hpw, hc⟩

theorem get_path_roundtrip_witness :
    GraphWF (build_graph_from_list [(0, 1, 10), (0, 2, 1), (2, 1, 1)]) ∧
    FreshPreds (build_graph_from_list [(0, 1, 10), (0, 2, 1), (2, 1, 1)]) ∧
    (dijkstras_algorithm (build_graph_from_list [(0, 1, 10), (0, 2, 1), (2, 1, 1)])
      0 2).1.vdist 2 ≠ ⊤ ∧
    ∃ c : ℕ,
      (get_path (dijkstras_algorithm
        (build_graph_from_list [(0, 1, 10), (0, 2, 1), (2, 1, 1)]) 0 2).1 2).head?
        = some 0 ∧
      (get_path (dijkstras_algorithm
        (build_graph_from_list [(0, 1, 10), (0, 2, 1), (2, 1, 1)]) 0 2).1 2).getLast?
        = some 2 ∧
      pathWeight (build_graph_from_list [(0, 1, 10), (0, 2, 1), (2, 1, 1)])
        (get_path (dijkstras_algorithm
          (build_graph_from_list [(0, 1, 10), (0, 2, 1), (2, 1, 1)]) 0 2).1 2) = some c ∧
      (c : ℕ∞) = (dijkstras_algorithm
        (build_graph_from_list [(0, 1, 10), (0, 2, 1), (2, 1, 1)]) 0 2).1.vdist 2 :=
  ⟨by unfold GraphWF; decide, by unfold FreshPreds; decide, by decide,
    get_path_roundtrip (build_graph_from_list [(0, 1, 10), (0, 2, 1), (2, 1, 1)]) 0 2
      (by unfold GraphWF; decide) (by decide) (by decide)
      (by unfold FreshPreds; decide) (by decide)⟩

/-- The loop invariant of `a_star_algorithm` (specialised below to the
all-zero-heuristics runs of claim C6).  `visited` tracks the vertices ever
inserted into the lazy queue; `R` is as in `DijkState`. -/
structure AStarInv {K : Type} [DecidableEq K] [Inhabited K] (g0 : Graph K) (start : K)
    (s : AStarState K) (popped R : List K) : Prop where
  qinv : QueueInv s.pq
  asc : s.pq.descending = false
  shape : graphShape s.g = graphShape g0
  visited_sub : ∀ k ∈ s.visited, k ∈ g0.keys
  visited_nodup : s.visited.Nodup
  livekeys : List.Perm ((liveList s.pq).map Prod.snd ++ popped) s.visited
  prio : ∀ e, e ∈ liveList s.pq → e.1 = s.g.vdist e.2
  dist_popped : ∀ k, k ∈ popped → s.g.vdist k = delta g0 start k
  dist_upper : ∀ k, s.g.vdist k ≠ ⊤ →
    ∃ c : ℕ, (c : ℕ∞) = s.g.vdist k ∧ IsPathCost g0 start k c
  relaxed : ∀ x, x ∈ R → ∀ v w, edgeWeight g0 x v = some w →
    s.g.vdist v ≤ delta g0 start x + (w : ℕ∞)
  start0 : s.g.vdist start = 0
  start_visited : start ∈ s.visited
  unvisited_top : ∀ k, ¬ k ∈ s.visited → s.g.vdist k = ⊤
  visited_finite : ∀ k, k ∈ s.visited → s.g.vdist k ≠ ⊤

theorem astar_delta_le {K : Type} [DecidableEq K] [Inhabited K] {g0 : Graph K} {start : K}
    {s : AStarState K} {popped R : List K}
    (hinv : AStarInv g0 start s popped R) (k : K) : delta g0 start k ≤ s.g.vdist k := by
  by_cases htop : s.g.vdist k = ⊤
  · rw [htop]
    exact le_top
  · exact delta_le_of_realized g0 start k _ (hinv.dist_upper k htop)

theorem astar_keysplit {K : Type} [DecidableEq K] [Inhabited K] {g0 : Graph K} {start : K}
    {s : AStarState K} {popped R : List K} (hinv : AStarInv g0 start s popped R) :
    ((liveList s.pq).map Prod.snd).Nodup ∧ popped.Nodup ∧
    (∀ k, k ∈ s.visited → ¬ k ∈ popped → k ∈ (liveList s.pq).map Prod.snd) ∧
    (∀ k, k ∈ (liveList s.pq).map Prod.snd → k ∈ s.visited ∧ ¬ k ∈ popped) ∧
    (∀ k, k ∈ popped → k ∈ s.visited) := by
  have hperm := hinv.livekeys
  have hnd2 : ((liveList s.pq).map Prod.snd ++ popped).Nodup :=
    hperm.nodup_iff.mpr hinv.visited_nodup
  rw [List.nodup_append] at hnd2
  obtain ⟨hn1, hn2, hdisj⟩ := hnd2
  refine ⟨hn1, hn2, ?_, ?_, ?_⟩
  · intro k hk hkp
    rcases List.mem_append.mp (hperm.symm.mem_iff.mp hk) with h | h
    · exact h
    · exact absurd h hkp
  · intro k hk
    refine ⟨hperm.mem_iff.mp (List.mem_append.mpr (Or.inl hk)), ?_⟩
    intro hkp
    exact hdisj hk hkp
  · intro k hk
    exact hperm.mem_iff.mp (List.mem_append.mpr (Or.inr hk))

theorem astar_pop {K : Type} [DecidableEq K] [Inhabited K] {g0 : Graph K} {start : K}
    {s : AStarState K} {popped : List K}
    (hinv : AStarInv g0 start s popped popped) (hwf : GraphWF g0)
    (hs : 1 ≤ s.pq.size) :
    ∃ pq', s.pq.advance = some ((entryAt s.pq.internal_list 1).2, pq') ∧
      ¬ (entryAt s.pq.internal_list 1).2 ∈ popped ∧
      pq'.size = s.pq.size - 1 ∧
      AStarInv g0 start { s with pq := pq' }
        (popped ++ [(entryAt s.pq.internal_list 1).2]) popped := by
  obtain ⟨pq', hadv, hqinv', hsz', hdesc', hlperm, _⟩ := advance_spec s.pq hinv.qinv hs
  obtain ⟨hlen, hheap⟩ := hinv.qinv
  obtain ⟨hn1, hn2, hmemof, hmemto, hpsub⟩ := astar_keysplit hinv
  have hrootmem : entryAt s.pq.internal_list 1 ∈ liveList s.pq :=
    entryAt_mem_tail s.pq.internal_list 1 le_rfl (by omega)
  have hrootsnd : (entryAt s.pq.internal_list 1).2 ∈ (liveList s.pq).map Prod.snd :=
    List.mem_map.mpr ⟨_, hrootmem, rfl⟩
  obtain ⟨huvis, hunp⟩ := hmemto _ hrootsnd
  have hprio_u : (entryAt s.pq.internal_list 1).1
      = s.g.vdist (entryAt s.pq.internal_list 1).2 :=
    hinv.prio _ hrootmem
  have hmin : ∀ y, y ∈ (liveList s.pq).map Prod.snd →
      s.g.vdist (entryAt s.pq.internal_list 1).2 ≤ s.g.vdist y := by
    intro y hy
    obtain ⟨e, he, hey⟩ := List.mem_map.mp hy
    obtain ⟨i, hi1, hil, hie⟩ := mem_tail_entryAt s.pq.internal_list e he
    have hroot := heap_root_min s.pq.descending s.pq.size s.pq.internal_list hheap i hi1
      (by omega)
    rw [hinv.asc] at hroot
    have hroot2 : keyAt s.pq.internal_list 1 ≤ keyAt s.pq.internal_list i := by
      simpa [ordOK] using hroot
    unfold keyAt at hroot2
    rw [hie] at hroot2
    rw [← hprio_u, ← hey, ← hinv.prio e he]
    exact hroot2
  have hQstep : ∀ x v w, x ∈ popped → edgeWeight g0 x v = some w →
      s.g.vdist v ≤ delta g0 start x + (w : ℕ∞) ∧
      (¬ v ∈ popped → v ∈ (liveList s.pq).map Prod.snd) := by
    intro x v w hx hw
    refine ⟨hinv.relaxed x hx v w hw, ?_⟩
    intro hvnp
    have hxtop : s.g.vdist x ≠ ⊤ := hinv.visited_finite x (hpsub x hx)
    have hdxtop : delta g0 start x ≠ ⊤ := by
      intro hc
      exact hxtop (top_le_iff.mp (hc ▸ astar_delta_le hinv x))
    have hvtop : s.g.vdist v ≠ ⊤ := by
      intro hc
      have h1 := hinv.relaxed x hx v w hw
      rw [hc] at h1
      have h2 : delta g0 start x + (w : ℕ∞) = ⊤ := top_le_iff.mp h1
      rcases WithTop.add_eq_top.mp h2 with h3 | h3
      · exact hdxtop h3
      · exact absurd h3 (ENat.coe_ne_top w)
    have hvvis : v ∈ s.visited := by
      by_contra hc
      exact hvtop (hinv.unvisited_top v hc)
    exact hmemof v hvvis hvnp
  have hdeltaeq : s.g.vdist (entryAt s.pq.internal_list 1).2
      = delta g0 start (entryAt s.pq.internal_list 1).2 := by
    refine le_antisymm ?_ (astar_delta_le hinv _)
    by_cases htop : delta g0 start (entryAt s.pq.internal_list 1).2 = ⊤
    · rw [htop]
      exact le_top
    · obtain ⟨c, hpc, hc⟩ := delta_attained g0 start _ htop
      obtain ⟨y, hynp, hyq, hyd⟩ := path_cut g0 start popped
        (fun y => y ∈ (liveList s.pq).map Prod.snd) s.g.vdist
        (astar_delta_le hinv) hQstep
        start _ c 0 hpc hunp (le_of_eq (delta_self g0 start))
        (fun hsnp => ⟨hmemof start hinv.start_visited hsnp, le_of_eq hinv.start0⟩)
      calc s.g.vdist (entryAt s.pq.internal_list 1).2 ≤ s.g.vdist y := hmin y hyq
        _ ≤ 0 + (c : ℕ∞) := hyd
        _ = delta g0 start (entryAt s.pq.internal_list 1).2 := by rw [zero_add, hc]
  refine ⟨pq', hadv, hunp, hsz', ?_⟩
  have hlive' : ∀ e, e ∈ liveList pq' → e ∈ liveList s.pq := by
    intro e he
    exact hlperm.mem_iff.mp (List.mem_cons_of_mem _ he)
  refine {
    qinv := hqinv'
    asc := hdesc'.trans hinv.asc
    shape := hinv.shape
    visited_sub := hinv.visited_sub
    visited_nodup := hinv.visited_nodup
    livekeys := ?_
    prio := fun e he => hinv.prio e (hlive' e he)
    dist_popped := ?_
    dist_upper := hinv.dist_upper
    relaxed := hinv.relaxed
    start0 := hinv.start0
    start_visited := hinv.start_visited
    unvisited_top := hinv.unvisited_top
    visited_finite := hinv.visited_finite }
  · have h1 : List.Perm ((liveList pq').map Prod.snd
        ++ (popped ++ [(entryAt s.pq.internal_list 1).2]))
        (((entryAt s.pq.internal_list 1).2 :: (liveList pq').map Prod.snd) ++ popped) := by
      have h2 : List.Perm ((liveList pq').map Prod.snd
          ++ ([(entryAt s.pq.internal_list 1).2] ++ popped))
          (((entryAt s.pq.internal_list 1).2 :: (liveList pq').map Prod.snd) ++ popped) := by
        rw [← List.append_assoc]
        exact List.Perm.append_right popped (List.perm_append_singleton _ _).symm.symm
      have h3 : List.Perm (popped ++ [(entryAt s.pq.internal_list 1).2])
          ([(entryAt s.pq.internal_list 1).2] ++ popped) := List.perm_append_comm
      exact (List.Perm.append_left _ h3).trans h2
    refine h1.trans ?_
    have h4 : List.Perm ((entryAt s.pq.internal_list 1).2 :: (liveList pq').map Prod.snd)
        ((liveList s.pq).map Prod.snd) := by
      have h5 := hlperm.map Prod.snd
      rw [List.map_cons] at h5
      exact h5
    exact (List.Perm.append_right popped h4).trans hinv.livekeys
  · intro k hk
    rcases List.mem_append.mp hk with h | h
    · exact hinv.dist_popped k h
    · rw [List.mem_singleton.mp h]
      exact hdeltaeq

theorem hval_zero {K : Type} [DecidableEq K] {g g0 : Graph K}
    (hshape : graphShape g = graphShape g0)
    (hzero : ∀ p ∈ g0.vertex_list, p.2.heuristic = 0) (nk endK : K) :
    heuristic_value g nk endK = 0 := by
  rw [shape_heuristic hshape]
  unfold heuristic_value
  cases hget : g0.get_vertex nk with
  | none => rfl
  | some v =>
    show v.heuristic = 0
    exact hzero (nk, v) (dictGet_eq_some_mem _ _ _ hget)

theorem astar_relax_step {K : Type} [DecidableEq K] [Inhabited K] {g0 : Graph K}
    {start endK : K} {popped : List K} {u : K} (hwf : GraphWF g0)
    (hzero : ∀ p ∈ g0.vertex_list, p.2.heuristic = 0)
    {s : AStarState K}
    (hinv : AStarInv g0 start s (popped ++ [u]) popped) (nk : K)
    {w : ℕ} (hw : edgeWeight g0 u nk = some w) :
    AStarInv g0 start (aStarRelax endK u s nk) (popped ++ [u]) popped ∧
    (aStarRelax endK u s nk).pq.size + s.visited.length
      = s.pq.size + (aStarRelax endK u s nk).visited.length ∧
    (∀ k, (aStarRelax endK u s nk).g.vdist k ≤ s.g.vdist k) ∧
    (aStarRelax endK u s nk).g.vdist nk ≤ delta g0 start u + (w : ℕ∞) := by
  have hupop : u ∈ popped ++ [u] := by simp
  have huvis : u ∈ s.visited := (astar_keysplit hinv).2.2.2.2 u hupop
  have hukeys : u ∈ g0.keys := hinv.visited_sub u huvis
  have hukeysg : u ∈ s.g.keys := by
    rw [keys_of_shape hinv.shape]
    exact hukeys
  obtain ⟨cur, hcur⟩ := dictGet_some_of_mem_fst s.g.vertex_list u hukeysg
  have hcur' : s.g.get_vertex u = some cur := hcur
  have hnkkeys : nk ∈ g0.keys := closed_of_wf hwf hw
  have hnkkeysg : nk ∈ s.g.keys := by
    rw [keys_of_shape hinv.shape]
    exact hnkkeys
  obtain ⟨next, hnext⟩ := dictGet_some_of_mem_fst s.g.vertex_list nk hnkkeysg
  have hnext' : s.g.get_vertex nk = some next := hnext
  have hdistu : cur.dist = delta g0 start u := by
    rw [← vdist_of_get_vertex s.g u cur hcur']
    exact hinv.dist_popped u hupop
  have hwg : edgeWeight s.g u nk = some w := by
    rw [shape_edgeWeight hinv.shape]
    exact hw
  have hgw : cur.get_weight nk = w := by
    unfold Vertex.get_weight
    have hdg : dictGet cur.connected_to nk = some w := by
      unfold edgeWeight at hwg
      rw [hcur'] at hwg
      exact hwg
    rw [hdg]
    rfl
  have hndist : next.dist = s.g.vdist nk := (vdist_of_get_vertex s.g nk next hnext').symm
  have hnd : cur.dist + ((cur.get_weight nk : ℕ) : ℕ∞) = delta g0 start u + (w : ℕ∞) := by
    rw [hdistu, hgw]
  have hval : heuristic_value s.g nk endK = 0 := hval_zero hinv.shape hzero nk endK
  have hred : aStarRelax endK u s nk
      = if cur.dist + ((cur.get_weight nk : ℕ) : ℕ∞) < next.dist then
          (if nk ∈ s.visited then
            { s with
                g := { s.g with
                  vertex_list := dictSet s.g.vertex_list nk
                    { next with dist := cur.dist + ((cur.get_weight nk : ℕ) : ℕ∞),
                                predecessor := some u } },
                pq := s.pq.decrease_key nk (cur.dist + ((cur.get_weight nk : ℕ) : ℕ∞)) }
          else
            { s with
                g := { s.g with
                  vertex_list := dictSet s.g.vertex_list nk
                    { next with dist := cur.dist + ((cur.get_weight nk : ℕ) : ℕ∞),
                                predecessor := some u } },
                pq := s.pq.insert (cur.dist + ((cur.get_weight nk : ℕ) : ℕ∞), nk),
                visited := s.visited ++ [nk], inserted := s.inserted ++ [nk] })
        else s := by
    simp only [aStarRelax, hcur', hnext', hval, Nat.cast_zero, add_zero]
  rw [hred]
  by_cases hlt : cur.dist + ((cur.get_weight nk : ℕ) : ℕ∞) < next.dist
  · rw [if_pos hlt]
    have hltv : cur.dist + ((cur.get_weight nk : ℕ) : ℕ∞) < s.g.vdist nk := hndist ▸ hlt
    have hnk_notpop : ¬ nk ∈ popped ++ [u] := by
      intro hcon
      have heq := hinv.dist_popped nk hcon
      have htri := delta_triangle g0 start u nk w hw
      have hge : s.g.vdist nk ≤ cur.dist + ((cur.get_weight nk : ℕ) : ℕ∞) := by
        rw [heq, hnd]
        exact htri
      exact absurd hltv (not_lt.mpr hge)
    have hnk_start : nk ≠ start := by
      intro hcon
      have h0 : s.g.vdist nk = 0 := by
        rw [hcon]
        exact hinv.start0
      rw [h0] at hltv
      simp at hltv
    have hstart_nk : start ≠ nk := fun hc => hnk_start hc.symm
    have hndtop : cur.dist + ((cur.get_weight nk : ℕ) : ℕ∞) ≠ ⊤ := by
      intro hc
      rw [hc] at hlt
      exact absurd hlt (by simp)
    have hupper_nk : ∀ k, k = nk →
        ∃ c : ℕ, (c : ℕ∞) = cur.dist + ((cur.get_weight nk : ℕ) : ℕ∞) ∧
          IsPathCost g0 start k c := by
      intro k hk
      subst hk
      have hdutop : delta g0 start u ≠ ⊤ := by
        intro hc
        rw [hnd, hc] at hndtop
        simp at hndtop
      obtain ⟨c, hpc, hc⟩ := delta_attained g0 start u hdutop
      refine ⟨c + w, ?_, pathCost_snoc g0 start u c hpc k w hw⟩
      rw [hnd, ← hc]
      push_cast
      rfl
    by_cases hvis : nk ∈ s.visited
    · rw [if_pos hvis]
      have nklive : nk ∈ (liveList s.pq).map Prod.snd :=
        (astar_keysplit hinv).2.2.1 nk hvis hnk_notpop
      obtain ⟨p, hfp⟩ := find_position_some_of_mem s.pq nk hinv.qinv nklive
      obtain ⟨hp1, hps, hpe⟩ := find_position_spec s.pq nk p hfp
      obtain ⟨hdkq, hdks, hdkd, hdkz, _, _⟩ :=
        decrease_key_spec s.pq nk (cur.dist + ((cur.get_weight nk : ℕ) : ℕ∞)) hinv.qinv
      have hliveperm := liveList_decrease_key s.pq nk
        (cur.dist + ((cur.get_weight nk : ℕ) : ℕ∞)) hinv.qinv p hfp
      have hpe2 : (entryAt (liveList s.pq) (p - 1)).2 = nk := by
        unfold liveList
        rw [entryAt_tail, show p - 1 + 1 = p by omega]
        exact hpe
      have hpe3 : entryAt s.pq.internal_list p = entryAt (liveList s.pq) (p - 1) := by
        unfold liveList
        rw [entryAt_tail, show p - 1 + 1 = p by omega]
      rw [hpe3] at hliveperm
      have hplive : p - 1 < (liveList s.pq).length := by
        have hlen := hinv.qinv.1
        unfold liveList
        rw [List.length_tail]
        omega
      have hnodup := (astar_keysplit hinv).1
      have hmapsnd : ((liveList s.pq).set (p - 1)
          (cur.dist + ((cur.get_weight nk : ℕ) : ℕ∞),
            (entryAt (liveList s.pq) (p - 1)).2)).map Prod.snd
          = (liveList s.pq).map Prod.snd :=
        map_snd_set_snd (liveList s.pq) (p - 1) _ hplive
      refine ⟨{
        qinv := hdkq
        asc := hdkd.trans hinv.asc
        shape := (shape_update s.g nk next _ (some u) hnext').trans hinv.shape
        visited_sub := hinv.visited_sub
        visited_nodup := hinv.visited_nodup
        livekeys := ?_
        prio := ?_
        dist_popped := ?_
        dist_upper := ?_
        relaxed := ?_
        start0 := ?_
        start_visited := hinv.start_visited
        unvisited_top := ?_
        visited_finite := ?_ }, by
          show (s.pq.decrease_key nk
              (cur.dist + ((cur.get_weight nk : ℕ) : ℕ∞))).size + s.visited.length
            = s.pq.size + s.visited.length
          rw [hdks], ?_, ?_⟩
      · exact (List.Perm.append_right _
          ((hliveperm.map Prod.snd).trans (by rw [hmapsnd]))).trans hinv.livekeys
      · intro e he
        have he2 := hliveperm.mem_iff.mp he
        rcases mem_set_payload (liveList s.pq) hnodup (p - 1) hplive _ e he2 with h1 | ⟨h1, h2⟩
        · rw [h1]
          show cur.dist + ((cur.get_weight nk : ℕ) : ℕ∞) = _
          rw [hpe2, vdist_update_self]
        · rw [hinv.prio e h1]
          rw [hpe2] at h2
          exact (vdist_update_ne s.g nk e.2 next _ (some u) h2).symm
      · intro k hk
        have hkne : k ≠ nk := fun hc => hnk_notpop (hc ▸ hk)
        rw [vdist_update_ne s.g nk k next _ (some u) hkne]
        exact hinv.dist_popped k hk
      · intro k hktop
        by_cases hkne : k = nk
        · subst hkne
          rw [vdist_update_self]
          exact hupper_nk k rfl
        · rw [vdist_update_ne s.g nk k next _ (some u) hkne] at hktop ⊢
          exact hinv.dist_upper k hktop
      · intro x hx v w2 hw2
        by_cases hvne : v = nk
        · subst hvne
          rw [vdist_update_self]
          exact le_of_lt (lt_of_lt_of_le hltv (hinv.relaxed x hx v w2 hw2))
        · rw [vdist_update_ne s.g nk v next _ (some u) hvne]
          exact hinv.relaxed x hx v w2 hw2
      · rw [vdist_update_ne s.g nk start next _ (some u) hstart_nk]
        exact hinv.start0
      · intro k hk
        have hkne : k ≠ nk := fun hc => hk (hc ▸ hvis)
        rw [vdist_update_ne s.g nk k next _ (some u) hkne]
        exact hinv.unvisited_top k hk
      · intro k hk
        by_cases hkne : k = nk
        · subst hkne
          rw [vdist_update_self]
          exact hndtop
        · rw [vdist_update_ne s.g nk k next _ (some u) hkne]
          exact hinv.visited_finite k hk
      · intro k
        by_cases hkne : k = nk
        · subst hkne
          rw [vdist_update_self]
          exact le_of_lt hltv
        · rw [vdist_update_ne s.g nk k next _ (some u) hkne]
      · rw [vdist_update_self, hnd]
    · rw [if_neg hvis]
      obtain ⟨hiq, hiperm, hiz, hisz, hidesc⟩ := insert_spec s.pq
        (cur.dist + ((cur.get_weight nk : ℕ) : ℕ∞), nk) hinv.qinv
      have hlive := liveList_insert s.pq
        (cur.dist + ((cur.get_weight nk : ℕ) : ℕ∞), nk) hinv.qinv
      have hnkvisfalse : ∀ e, e ∈ liveList s.pq → e.2 ≠ nk := by
        intro e he hc
        have : e.2 ∈ (liveList s.pq).map Prod.snd := List.mem_map.mpr ⟨e, he, rfl⟩
        exact hvis (hc ▸ ((astar_keysplit hinv).2.2.2.1 e.2 this).1)
      refine ⟨{
        qinv := hiq
        asc := hidesc.trans hinv.asc
        shape := (shape_update s.g nk next _ (some u) hnext').trans hinv.shape
        visited_sub := ?_
        visited_nodup := ?_
        livekeys := ?_
        prio := ?_
        dist_popped := ?_
        dist_upper := ?_
        relaxed := ?_
        start0 := ?_
        start_visited := List.mem_append_left _ hinv.start_visited
        unvisited_top := ?_
        visited_finite := ?_ }, by
          show (s.pq.insert
              (cur.dist + ((cur.get_weight nk : ℕ) : ℕ∞), nk)).size + s.visited.length
            = s.pq.size + (s.visited ++ [nk]).length
          rw [hisz]
          simp
          omega, ?_, ?_⟩
      · intro k hk
        rcases List.mem_append.mp hk with h | h
        · exact hinv.visited_sub k h
        · rw [List.mem_singleton.mp h]
          exact hnkkeys
      · rw [List.nodup_append]
        refine ⟨hinv.visited_nodup, by simp, ?_⟩
        intro x hx hx2
        rw [List.mem_singleton.mp hx2] at hx
        exact hvis hx
      · have h1 : ((liveList (s.pq.insert
            (cur.dist + ((cur.get_weight nk : ℕ) : ℕ∞), nk))).map Prod.snd)
            = (liveList (s.pq.insert
                (cur.dist + ((cur.get_weight nk : ℕ) : ℕ∞), nk))).map Prod.snd := rfl
        have h2 := hlive.map Prod.snd
        rw [List.map_append] at h2
        have h3 : List.Perm
            (((liveList s.pq).map Prod.snd
              ++ [((cur.dist + ((cur.get_weight nk : ℕ) : ℕ∞), nk) : ℕ∞ × K).2])
              ++ (popped ++ [u]))
            (((liveList s.pq).map Prod.snd ++ (popped ++ [u])) ++ [nk]) := by
          rw [List.append_assoc, List.append_assoc]
          exact List.Perm.append_left _ List.perm_append_comm
        exact ((List.Perm.append_right _ h2).trans h3).trans
          (List.Perm.append_right [nk] hinv.livekeys)
      · intro e he
        have he2 := hlive.mem_iff.mp he
        rcases List.mem_append.mp he2 with h1 | h1
        · rw [hinv.prio e h1]
          exact (vdist_update_ne s.g nk e.2 next _ (some u) (hnkvisfalse e h1)).symm
        · rw [List.mem_singleton.mp h1]
          show cur.dist + ((cur.get_weight nk : ℕ) : ℕ∞) = _
          rw [vdist_update_self]
      · intro k hk
        have hkne : k ≠ nk := fun hc => hnk_notpop (hc ▸ hk)
        rw [vdist_update_ne s.g nk k next _ (some u) hkne]
        exact hinv.dist_popped k hk
      · intro k hktop
        by_cases hkne : k = nk
        · subst hkne
          rw [vdist_update_self]
          exact hupper_nk k rfl
        · rw [vdist_update_ne s.g nk k next _ (some u) hkne] at hktop ⊢
          exact hinv.dist_upper k hktop
      · intro x hx v w2 hw2
        by_cases hvne : v = nk
        · subst hvne
          rw [vdist_update_self]
          exact le_of_lt (lt_of_lt_of_le hltv (hinv.relaxed x hx v w2 hw2))
        · rw [vdist_update_ne s.g nk v next _ (some u) hvne]
          exact hinv.relaxed x hx v w2 hw2
      · rw [vdist_update_ne s.g nk start next _ (some u) hstart_nk]
        exact hinv.start0
      · intro k hk
        have hkne : k ≠ nk := by
          intro hc
          exact hk (hc ▸ List.mem_append_right _ (by simp))
        rw [vdist_update_ne s.g nk k next _ (some u) hkne]
        exact hinv.unvisited_top k (fun hc => hk (List.mem_append_left _ hc))
      · intro k hk
        by_cases hkne : k = nk
        · subst hkne
          rw [vdist_update_self]
          exact hndtop
        · rw [vdist_update_ne s.g nk k next _ (some u) hkne]
          rcases List.mem_append.mp hk with h | h
          · exact hinv.visited_finite k h
          · exact absurd (List.mem_singleton.mp h) hkne
      · intro k
        by_cases hkne : k = nk
        · subst hkne
          rw [vdist_update_self]
          exact le_of_lt hltv
        · rw [vdist_update_ne s.g nk k next _ (some u) hkne]
      · rw [vdist_update_self, hnd]
  · rw [if_neg hlt]
    refine ⟨hinv, rfl, fun k => le_rfl, ?_⟩
    rw [← hnd, ← hndist]
    exact not_lt.mp hlt

theorem astar_fold {K : Type} [DecidableEq K] [Inhabited K] {g0 : Graph K}
    {start endK : K} {popped : List K} {u : K} (hwf : GraphWF g0)
    (hzero : ∀ p ∈ g0.vertex_list, p.2.heuristic = 0) :
    ∀ (conns : List K) (s : AStarState K),
      AStarInv g0 start s (popped ++ [u]) popped →
      (∀ nk ∈ conns, ∃ w, edgeWeight g0 u nk = some w) →
      AStarInv g0 start (conns.foldl (aStarRelax endK u) s) (popped ++ [u]) popped ∧
      (conns.foldl (aStarRelax endK u) s).pq.size + s.visited.length
        = s.pq.size + (conns.foldl (aStarRelax endK u) s).visited.length ∧
      (∀ k, (conns.foldl (aStarRelax endK u) s).g.vdist k ≤ s.g.vdist k) ∧
      (∀ nk ∈ conns, ∀ w, edgeWeight g0 u nk = some w →
        (conns.foldl (aStarRelax endK u) s).g.vdist nk
          ≤ delta g0 start u + (w : ℕ∞)) := by
  intro conns
  induction conns with
  | nil =>
    intro s hinv _
    exact ⟨hinv, rfl, fun k => le_rfl, fun nk hnk => absurd hnk (by simp)⟩
  | cons nk rest ih =>
    intro s hinv hconn
    obtain ⟨w, hw⟩ := hconn nk (List.mem_cons_self nk rest)
    obtain ⟨hst1, hsz1, hmono1, hbound1⟩ := astar_relax_step hwf hzero hinv nk hw
    obtain ⟨hst2, hsz2, hmono2, hbound2⟩ := ih (aStarRelax endK u s nk) hst1
      (fun nk2 hnk2 => hconn nk2 (List.mem_cons_of_mem nk hnk2))
    have hfold : (nk :: rest).foldl (aStarRelax endK u) s
        = rest.foldl (aStarRelax endK u) (aStarRelax endK u s nk) := rfl
    rw [hfold]
    refine ⟨hst2, by omega, fun k => (hmono2 k).trans (hmono1 k), ?_⟩
    intro nk2 hnk2 w2 hw2
    rcases List.mem_cons.mp hnk2 with h1 | h1
    · subst h1
      have hweq : w2 = w := by
        rw [hw] at hw2
        cases hw2
        rfl
      subst hweq
      exact (hmono2 nk2).trans hbound1
    · exact hbound2 nk2 h1 w2 hw2

theorem astar_hstep {K : Type} [DecidableEq K] [Inhabited K] {g0 : Graph K} {start : K}
    {s : AStarState K} {popped : List K}
    (hinv : AStarInv g0 start s popped popped) :
    ∀ x v w, x ∈ popped → edgeWeight g0 x v = some w →
      s.g.vdist v ≤ delta g0 start x + (w : ℕ∞) ∧
      (¬ v ∈ popped → v ∈ (liveList s.pq).map Prod.snd) := by
  intro x v w hx hw
  refine ⟨hinv.relaxed x hx v w hw, ?_⟩
  intro hvnp
  have hxtop : s.g.vdist x ≠ ⊤ :=
    hinv.visited_finite x ((astar_keysplit hinv).2.2.2.2 x hx)
  have hdxtop : delta g0 start x ≠ ⊤ := by
    intro hc
    exact hxtop (top_le_iff.mp (hc ▸ astar_delta_le hinv x))
  have hvtop : s.g.vdist v ≠ ⊤ := by
    intro hc
    have h1 := hinv.relaxed x hx v w hw
    rw [hc] at h1
    rcases WithTop.add_eq_top.mp (top_le_iff.mp h1) with h3 | h3
    · exact hdxtop h3
    · exact absurd h3 (ENat.coe_ne_top w)
  have hvvis : v ∈ s.visited := by
    by_contra hc
    exact hvtop (hinv.unvisited_top v hc)
  exact (astar_keysplit hinv).2.2.1 v hvvis hvnp

theorem astar_loop {K : Type} [DecidableEq K] [Inhabited K] {g0 : Graph K}
    {start endK : K} (hwf : GraphWF g0)
    (hzero : ∀ p ∈ g0.vertex_list, p.2.heuristic = 0) :
    ∀ (fuel : ℕ) (s : AStarState K) (popped : List K),
      AStarInv g0 start s popped popped →
      s.pq.size + (g0.keys.length - s.visited.length) ≤ fuel →
      (endK ∈ (aStarLoop endK fuel s popped).2 ∧
        ∃ R, AStarInv g0 start (aStarLoop endK fuel s popped).1
          (aStarLoop endK fuel s popped).2 R) ∨
      ((aStarLoop endK fuel s popped).1.pq.size = 0 ∧
        AStarInv g0 start (aStarLoop endK fuel s popped).1
          (aStarLoop endK fuel s popped).2 (aStarLoop endK fuel s popped).2) := by
  intro fuel
  induction fuel with
  | zero =>
    intro s popped hinv hfuel
    have hsz : s.pq.size = 0 := by omega
    exact Or.inr ⟨hsz, hinv⟩
  | succ fuel ih =>
    intro s popped hinv hfuel
    by_cases hsz : s.pq.size = 0
    · have hempty : s.pq.empty = true := by
        unfold PriorityQueue.empty
        simp [hsz]
      have hred : aStarLoop endK (fuel + 1) s popped = (s, popped) := by
        simp only [aStarLoop, hempty, if_true]
      rw [hred]
      exact Or.inr ⟨hsz, hinv⟩
    · have hempty : s.pq.empty = false := by
        unfold PriorityQueue.empty
        simp [hsz]
      obtain ⟨pq', hadv, hunp, hsz', hmid⟩ := astar_pop hinv hwf (by omega)
      have huvis : (entryAt s.pq.internal_list 1).2 ∈ s.visited :=
        (astar_keysplit hmid).2.2.2.2 _ (by simp)
      have hukeys : (entryAt s.pq.internal_list 1).2 ∈ g0.keys :=
        hinv.visited_sub _ huvis
      have hukeysg : (entryAt s.pq.internal_list 1).2 ∈ s.g.keys := by
        rw [keys_of_shape hinv.shape]
        exact hukeys
      obtain ⟨cur, hcur⟩ := dictGet_some_of_mem_fst s.g.vertex_list _ hukeysg
      have hcur' : s.g.get_vertex (entryAt s.pq.internal_list 1).2 = some cur := hcur
      by_cases hend : (entryAt s.pq.internal_list 1).2 = endK
      · have hred : aStarLoop endK (fuel + 1) s popped
            = ({ s with pq := pq' }, popped ++ [(entryAt s.pq.internal_list 1).2]) := by
          simp only [aStarLoop, hempty, Bool.false_eq_true, if_false, hadv, hend, if_true]
        rw [hred]
        exact Or.inl ⟨by simp [hend], popped, hmid⟩
      · have hred : aStarLoop endK (fuel + 1) s popped
            = aStarLoop endK fuel
              ((cur.get_connections).foldl
                (aStarRelax endK (entryAt s.pq.internal_list 1).2) { s with pq := pq' })
              (popped ++ [(entryAt s.pq.internal_list 1).2]) := by
          simp only [aStarLoop, hempty, Bool.false_eq_true, if_false, hadv, hcur',
            if_neg hend]
        rw [hred]
        have hconn : ∀ nk ∈ cur.get_connections,
            ∃ w, edgeWeight g0 (entryAt s.pq.internal_list 1).2 nk = some w := by
          intro nk hnk
          obtain ⟨w, hw⟩ := dictGet_some_of_mem_fst cur.connected_to nk hnk
          refine ⟨w, ?_⟩
          rw [← shape_edgeWeight hmid.shape]
          have hgoal : edgeWeight ({ s with pq := pq' } : AStarState K).g
              (entryAt s.pq.internal_list 1).2 nk = some w := by
            show edgeWeight s.g (entryAt s.pq.internal_list 1).2 nk = some w
            simp only [edgeWeight, hcur']
            exact hw
          exact hgoal
        obtain ⟨hst1, hsz1, hmono1, hbound1⟩ := astar_fold hwf hzero cur.get_connections
          { s with pq := pq' } hmid hconn
        have hrelaxed : ∀ x, x ∈ popped ++ [(entryAt s.pq.internal_list 1).2] →
            ∀ v w, edgeWeight g0 x v = some w →
            ((cur.get_connections).foldl
              (aStarRelax endK (entryAt s.pq.internal_list 1).2)
              { s with pq := pq' }).g.vdist v
              ≤ delta g0 start x + (w : ℕ∞) := by
          intro x hx v w hw
          rcases List.mem_append.mp hx with h1 | h1
          · exact hst1.relaxed x h1 v w hw
          · have hx1 : x = (entryAt s.pq.internal_list 1).2 := List.mem_singleton.mp h1
            subst hx1
            have hmemv : v ∈ cur.get_connections := by
              have hwg : edgeWeight s.g (entryAt s.pq.internal_list 1).2 v = some w := by
                rw [shape_edgeWeight hinv.shape]
                exact hw
              have hwg2 : dictGet cur.connected_to v = some w := by
                simp only [edgeWeight, hcur'] at hwg
                exact hwg
              exact mem_fst_of_dictGet cur.connected_to v w hwg2
            exact hbound1 v hmemv w hw
        have hinv1 : AStarInv g0 start
            ((cur.get_connections).foldl
              (aStarRelax endK (entryAt s.pq.internal_list 1).2) { s with pq := pq' })
            (popped ++ [(entryAt s.pq.internal_list 1).2])
            (popped ++ [(entryAt s.pq.internal_list 1).2]) :=
          { hst1 with relaxed := hrelaxed }
        have hvislen : ((cur.get_connections).foldl
            (aStarRelax endK (entryAt s.pq.internal_list 1).2)
            { s with pq := pq' }).visited.length ≤ g0.keys.length := by
          have hsub : ((cur.get_connections).foldl
              (aStarRelax endK (entryAt s.pq.internal_list 1).2)
              { s with pq := pq' }).visited ⊆ g0.keys :=
            fun x hx => hinv1.visited_sub x hx
          exact (hinv1.visited_nodup.subperm hsub).length_le
        have hslen : s.visited.length ≤ g0.keys.length := by
      
          have hsub : s.visited ⊆ g0.keys := fun x hx => hinv.visited_sub x hx
          exact (hinv.visited_nodup.subperm hsub).length_le
        have hpq'size : (({ s with pq := pq' } : AStarState K)).pq.size = s.pq.size - 1 :=
          hsz'
        have hvis_eq : (({ s with pq := pq' } : AStarState K)).visited = s.visited := rfl
        exact ih _ _ hinv1 (by
          rw [hvis_eq, hpq'size] at hsz1
          omega)

theorem astar_init {K : Type} [DecidableEq K] [Inhabited K] (graph : Graph K) (start : K)
    (hwf : GraphWF graph) (hstart : start ∈ graph.keys) :
    AStarInv graph start
      { g := (graph.resetDists).setDist start 0,
        pq := (PriorityQueue.new ℕ∞ K false).insert
          (((graph.resetDists).setDist start 0).vdist start, start),
        visited := [start], inserted := [start] } [] [] := by
  obtain ⟨hnd, hkf, hcl⟩ := hwf
  have hshape : graphShape ((graph.resetDists).setDist start 0) = graphShape graph :=
    (shape_setDist _ _ _).trans (shape_resetDists _)
  have hstart_r : start ∈ graph.resetDists.keys := by
    rw [keys_of_shape (shape_resetDists graph)]
    exact hstart
  obtain ⟨v0, hv0⟩ := dictGet_some_of_mem_fst graph.resetDists.vertex_list start hstart_r
  have hv0' : graph.resetDists.get_vertex start = some v0 := hv0
  have hd0 : ((graph.resetDists).setDist start 0).vdist start = 0 :=
    vdist_setDist_self _ start 0 v0 hv0'
  have hdtop : ∀ k, k ≠ start → ((graph.resetDists).setDist start 0).vdist k = ⊤ := by
    intro k hk
    rw [vdist_setDist_ne _ _ _ _ hk, vdist_resetDists]
  have hq0 : QueueInv (PriorityQueue.new ℕ∞ K false) :=
    (new_queue_inv (α := ℕ∞) (β := K) false).1
  obtain ⟨hiq, hiperm, hiz, hisz, hidesc⟩ := insert_spec (PriorityQueue.new ℕ∞ K false)
    (((graph.resetDists).setDist start 0).vdist start, start) hq0
  have hlive := liveList_insert (PriorityQueue.new ℕ∞ K false)
    (((graph.resetDists).setDist start 0).vdist start, start) hq0
  have hlivenew : liveList (PriorityQueue.new ℕ∞ K false) = ([] : List (ℕ∞ × K)) := rfl
  rw [hlivenew] at hlive
  refine {
    qinv := hiq
    asc := hidesc.trans rfl
    shape := hshape
    visited_sub := ?_
    visited_nodup := by simp
    livekeys := ?_
    prio := ?_
    dist_popped := fun k hk => absurd hk (by simp)
    dist_upper := ?_
    relaxed := fun x hx => absurd hx (by simp)
    start0 := hd0
    start_visited := by simp
    unvisited_top := ?_
    visited_finite := ?_ }
  · intro k hk
    rw [List.mem_singleton.mp hk]
    exact hstart
  · rw [List.append_nil]
    exact (hlive.map Prod.snd).trans (by simp)
  · intro e he
    have heE : e ∈ ([] : List (ℕ∞ × K))
        ++ [(((graph.resetDists).setDist start 0).vdist start, start)] :=
      hlive.mem_iff.mp he
    simp at heE
    rw [heE]
  · intro k hktop
    by_cases hks : k = start
    · subst hks
      refine ⟨0, ?_, IsPathCost.refl k⟩
      rw [hd0]
      simp
    · exact absurd (hdtop k hks) hktop
  · intro k hk
    have hks : k ≠ start := by
      intro hc
      exact hk (by simp [hc])
    exact hdtop k hks
  · intro k hk
    rw [List.mem_singleton.mp hk, hd0]
    simp

theorem dijkstra_end_delta {K : Type} [DecidableEq K] [Inhabited K]
    (graph : Graph K) (start endK : K) (hwf : GraphWF graph)
    (hstart : start ∈ graph.keys) (hendk : endK ∈ graph.keys) :
    (dijkstras_algorithm graph start endK).1.vdist endK = delta graph start endK := by
  have hun : dijkstras_algorithm graph start endK
      = dijkstraLoop endK
        (((PriorityQueue.new ℕ∞ K false).build_heap
          ((((graph.resetDists).setDist start 0).verts).map
            (fun v => (v.dist, v.key)))).size + 1)
        ((graph.resetDists).setDist start 0)
        ((PriorityQueue.new ℕ∞ K false).build_heap
          ((((graph.resetDists).setDist start 0).verts).map
            (fun v => (v.dist, v.key))))
        [] := rfl
  rw [hun]
  obtain ⟨pq2, R, hfinal, hor⟩ := @dijk_loop K _ _ graph start endK hwf hstart
    (((PriorityQueue.new ℕ∞ K false).build_heap
      ((((graph.resetDists).setDist start 0).verts).map
        (fun v => (v.dist, v.key)))).size + 1)
    ((graph.resetDists).setDist start 0)
    ((PriorityQueue.new ℕ∞ K false).build_heap
      ((((graph.resetDists).setDist start 0).verts).map
        (fun v => (v.dist, v.key))))
    [] (dijk_init graph start hwf hstart) (by omega)
  refine hfinal.dist_popped endK ?_
  rcases hor with h | h
  · exact h
  · exact h.symm.mem_iff.mp hendk

theorem astar_end_delta {K : Type} [DecidableEq K] [Inhabited K]
    (graph : Graph K) (start endK : K) (hwf : GraphWF graph)
    (hstart : start ∈ graph.keys) (hendk : endK ∈ graph.keys)
    (hzero : ∀ p ∈ graph.vertex_list, p.2.heuristic = 0) :
    (a_star_algorithm graph start endK).1.g.vdist endK = delta graph start endK := by
  have hun : a_star_algorithm graph start endK
      = aStarLoop endK (graph.vertex_list.length + 2)
        { g := (graph.resetDists).setDist start 0,
          pq := (PriorityQueue.new ℕ∞ K false).insert
            (((graph.resetDists).setDist start 0).vdist start, start),
          visited := [start], inserted := [start] } [] := rfl
  rw [hun]
  have hinit := astar_init graph start hwf hstart
  have hlen1 : 0 < graph.keys.length :=
    List.length_pos.mpr (List.ne_nil_of_mem hstart)
  have hkeyslen : graph.keys.length = graph.vertex_list.length := by
    unfold Graph.keys
    rw [List.length_map]
  have hs0size :
      ({ g := (graph.resetDists).setDist start 0,
         pq := (PriorityQueue.new ℕ∞ K false).insert
           (((graph.resetDists).setDist start 0).vdist start, start),
         visited := [start], inserted := [start] } : AStarState K).pq.size = 1 := rfl
  rcases astar_loop hwf hzero (graph.vertex_list.length + 2)
      { g := (graph.resetDists).setDist start 0,
        pq := (PriorityQueue.new ℕ∞ K false).insert
          (((graph.resetDists).setDist start 0).vdist start, start),
        visited := [start], inserted := [start] } [] hinit (by
        rw [hs0size]
        simp
        omega) with ⟨hmem, R2, hfinA⟩ | ⟨hsz0, hfinA⟩
  · exact hfinA.dist_popped endK hmem
  · have hliveA : liveList (aStarLoop endK (graph.vertex_list.length + 2)
        { g := (graph.resetDists).setDist start 0,
          pq := (PriorityQueue.new ℕ∞ K false).insert
            (((graph.resetDists).setDist start 0).vdist start, start),
          visited := [start], inserted := [start] } []).1.pq = [] := by
      have hlen := hfinA.qinv.1
      apply List.eq_nil_of_length_eq_zero
      unfold liveList
      rw [List.length_tail, hlen, hsz0]
    have hpermA := hfinA.livekeys
    rw [hliveA] at hpermA
    simp at hpermA
    by_cases hEv : endK ∈ (aStarLoop endK (graph.vertex_list.length + 2)
        { g := (graph.resetDists).setDist start 0,
          pq := (PriorityQueue.new ℕ∞ K false).insert
            (((graph.resetDists).setDist start 0).vdist start, start),
          visited := [start], inserted := [start] } []).1.visited
    · exact hfinA.dist_popped endK (hpermA.symm.mem_iff.mp hEv)
    · have hvA : (aStarLoop endK (graph.vertex_list.length + 2)
          { g := (graph.resetDists).setDist start 0,
            pq := (PriorityQueue.new ℕ∞ K false).insert
              (((graph.resetDists).setDist start 0).vdist start, start),
            visited := [start], inserted := [start] } []).1.g.vdist endK = ⊤ :=
        hfinA.unvisited_top endK hEv
      have hendnp : ¬ endK ∈ (aStarLoop endK (graph.vertex_list.length + 2)
          { g := (graph.resetDists).setDist start 0,
            pq := (PriorityQueue.new ℕ∞ K false).insert
              (((graph.resetDists).setDist start 0).vdist start, start),
            visited := [start], inserted := [start] } []).2 := by
        intro hc
        exact hEv ((astar_keysplit hfinA).2.2.2.2 endK hc)
      have hdeltatop : delta graph start endK = ⊤ := by
        by_contra hc
        obtain ⟨c, hpc, hcv⟩ := delta_attained graph start endK hc
        obtain ⟨y, hynp, hyQ, hyd⟩ := path_cut graph start _
          (fun y => y ∈ (liveList (aStarLoop endK (graph.vertex_list.length + 2)
            { g := (graph.resetDists).setDist start 0,
              pq := (PriorityQueue.new ℕ∞ K false).insert
                (((graph.resetDists).setDist start 0).vdist start, start),
              visited := [start], inserted := [start] } []).1.pq).map Prod.snd)
          (aStarLoop endK (graph.vertex_list.length + 2)
            { g := (graph.resetDists).setDist start 0,
              pq := (PriorityQueue.new ℕ∞ K false).insert
                (((graph.resetDists).setDist start 0).vdist start, start),
              visited := [start], inserted := [start] } []).1.g.vdist
          (astar_delta_le hfinA) (astar_hstep hfinA)
          start endK c 0 hpc hendnp (le_of_eq (delta_self graph start))
          (fun hsnp => ⟨(astar_keysplit hfinA).2.2.1 start hfinA.start_visited hsnp,
            le_of_eq hfinA.start0⟩)
        rw [hliveA] at hyQ
        simp at hyQ
      rw [hvA, hdeltatop]

/-- C6 (amended): on every well-formed graph with both endpoints present
and every vertex's heuristic equal to 0, `a_star_algorithm` computes the
same final distance to the end vertex as `dijkstras_algorithm` — both equal
the true shortest-path cost to the end vertex.  The claim as frozen — equal
distances at *every* vertex — is refuted by the
frontier counterexample: A* only ever sees vertices reachable through its
lazily grown queue and can stop before settling vertices Dijkstra settles. -/
theorem a_star_zero_heuristic_end_distance {K : Type} [DecidableEq K] [Inhabited K]
    (graph : Graph K) (start endK : K) (hwf : GraphWF graph)
    (hstart : start ∈ graph.keys) (hendk : endK ∈ graph.keys)
    (hzero : ∀ p ∈ graph.vertex_list, p.2.heuristic = 0) :
    (a_star_algorithm graph start endK).1.g.vdist endK
      = (dijkstras_algorithm graph start endK).1.vdist endK := by
  rw [astar_end_delta graph start endK hwf hstart hendk hzero,
    dijkstra_end_delta graph start endK hwf hstart hendk]

theorem a_star_zero_heuristic_end_distance_witness :
    GraphWF (build_graph_from_list [(0, 1, 0), (0, 2, 0), (0, 3, 0), (2, 4, 0)]) ∧
    0 ∈ (build_graph_from_list [(0, 1, 0), (0, 2, 0), (0, 3, 0), (2, 4, 0)]).keys ∧
    3 ∈ (build_graph_from_list [(0, 1, 0), (0, 2, 0), (0, 3, 0), (2, 4, 0)]).keys ∧
    (∀ p ∈ (build_graph_from_list [(0, 1, 0), (0, 2, 0), (0, 3, 0), (2, 4, 0)]).vertex_list,
      p.2.heuristic = 0) ∧
    (a_star_algorithm (build_graph_from_list [(0, 1, 0), (0, 2, 0), (0, 3, 0), (2, 4, 0)])
        0 3).1.g.vdist 3
      = (dijkstras_algorithm
          (build_graph_from_list [(0, 1, 0), (0, 2, 0), (0, 3, 0), (2, 4, 0)]) 0 3).1.vdist 3 :=
  ⟨by unfold GraphWF; decide, by decide, by decide, by decide,
    a_star_zero_heuristic_end_distance
      (build_graph_from_list [(0, 1, 0), (0, 2, 0), (0, 3, 0), (2, 4, 0)]) 0 3
      (by unfold GraphWF; decide) (by decide) (by decide) (by decide)⟩
